import Mathlib

/-!
Expression calculator (shunting-yard), `src/expr_calc.cpp`
===

A shallow embedding of the calculator of `src/expr_calc.cpp`:

* `SplitLine` (tokenizer), `ParseExpression` (infix to reverse Polish notation),
  `EvaluateExpression` (evaluation of the reverse Polish notation),
  `ValidateParentheses`, `IsNumber` and `main`;
* `Simplified.ParseExpression` and `Simplified.EvaluateExpression`, the two functions of
  the simplified calculator of `src/calc_simplified.cpp`.

Modelling conventions.

* A C++ `std::string` is a Lean `String`; a `char` of the line is a `Char`.
* A finite `double` is the rational number it stands for; `isDouble` tells the rational
  numbers that are doubles (IEEE 754 binary64).  An operation `+ - * /` whose exact result
  is a double yields that result (the operations are correctly rounded); otherwise it
  yields the rounded value the machine gives, `Libm.round`, a parameter.  Likewise
  `std::stod` yields the decimal value of its argument when that is zero or a normal
  double; otherwise it yields what `strtod` gives, `Libm.strtod`, a parameter: a rounded
  value, or nothing when the value is out of range, where `std::stod` throws
  `std::out_of_range`.  The functions of `<math.h>` (`pow`, `sin`, `cos`, `tan`, `log`)
  are parameters as well.  Infinities and NaN have no counterpart: the parameters are
  rational valued.
* `std::stack<T>` is a `List T` whose head is the top of the stack.
* A call of `ThrowError` prints the message and ends the process (`exit(0)`): it is the
  outcome `Outcome.exit message`.  `top()`/`pop()` on an empty `std::stack` is undefined
  behaviour in C++: it is the outcome `Outcome.undefined`, about which nothing more is
  said.  An exception that nothing catches (`std::stod` on a string without digits, or on
  a number out of the range of `double`) is `Outcome.uncaught`.
-/

namespace ExprCalc

/-! ## Outcomes -/

/-- The ways a function of the program can end. -/
inductive Outcome (α : Type) where
  /-- normal return of a value -/
  | value (v : α)
  /-- `ThrowError(message)`: the message is printed and the process exits -/
  | exit (message : String)
  /-- undefined behaviour of C++ (`top()` or `pop()` on an empty stack) -/
  | undefined
  /-- an exception that is never caught (thrown by `std::stod`) -/
  | uncaught (what : String)
  /-- the loop budget of the model is used up (never the case for `SplitLine`, see `SplitLine.scan_ne_outOfFuel`) -/
  | outOfFuel
  deriving DecidableEq, Repr

/-- `ThrowError(message)` of the source: prints the message and calls `exit(0)`. -/
def ThrowError {α : Type} (message : String) : Outcome α := Outcome.exit message

/-- Sequencing: the second computation runs on the value of the first; any other outcome
of the first ends the whole. -/
def Outcome.andThen {α β : Type} : Outcome α → (α → Outcome β) → Outcome β
  | Outcome.value v, next => next v
  | Outcome.exit message, _ => Outcome.exit message
  | Outcome.undefined, _ => Outcome.undefined
  | Outcome.uncaught what, _ => Outcome.uncaught what
  | Outcome.outOfFuel, _ => Outcome.outOfFuel

/-! ## Constants of the source -/

/-- The decimal of `#define PI 3.14159265358979323846`. -/
def PI : ℚ := 314159265358979323846 / 100000000000000000000

/-- The decimal of `#define EXP 2.71828182845904523536`. -/
def EXP : ℚ := 271828182845904523536 / 100000000000000000000

/-- The decimal of `#define EPS 0.00000001`. -/
def EPS : ℚ := 1 / 100000000

/-- Set of allowed digits. -/
def DIGITS : String := "0123456789"

/-- Set of allowed operators. -/
def OPS : String := "+-*/()^"

/-- Set of allowed letters (as written in the source: `y` is absent, `q` occurs twice). -/
def LETTERS : String := "abcdefghijklmnopqrstuvwxqz"

/-- Set of allowed mathematical functions. -/
def FUNCTIONS : String := "sin cos tan log"

/-- The rational number `x` is a finite `double` (IEEE 754 binary64): `x = m * 2 ^ e` for
integers `m` and `e` with `|m| < 2 ^ 53` and `-1074 ≤ e ≤ 971` (`isDouble_iff`).  The
exponent is searched for: `j` stands for `e + 1074`. -/
def isDouble (x : ℚ) : Bool :=
  (List.range 2046).any fun j =>
    let m := x / 2 ^ ((j : ℤ) - 1074)
    decide (m.den = 1) && decide (|m.num| < 2 ^ 53)

/-- The decimal value `x` is one that `strtod` converts without rounding and without a
range error: zero, or a double that is not below the least normal double `2 ^ (-1022)`. -/
def convertsExactly (x : ℚ) : Bool :=
  decide (x = 0) || (isDouble x && decide ((2 : ℚ) ^ (-1022 : ℤ) ≤ |x|))

/-- The floating-point environment of `EvaluateExpression`: the functions of `<math.h>` it
calls, the rounding of the machine and the conversion of the C library. -/
structure Libm where
  pow : ℚ → ℚ → ℚ
  sin : ℚ → ℚ
  cos : ℚ → ℚ
  tan : ℚ → ℚ
  log : ℚ → ℚ
  /-- the `double` that stands for an exact result that is no double (rounding of an
  operation or of a literal of the source) -/
  round : ℚ → ℚ
  /-- `strtod` on a decimal whose value is not converted exactly: the `double` it is
  rounded to, or `none` when the value is out of the range of `double` (`ERANGE`) -/
  strtod : ℚ → Option ℚ

/-- The `double` an operation or a literal yields when its exact value is `x`: `x` itself
when it is a double, the rounded value of the machine otherwise. -/
def Libm.fl (M : Libm) (x : ℚ) : ℚ := if isDouble x then x else M.round x

/-! ## `std::string::find` -/

/-- The list `needle` occurs in `hay` as a block of consecutive characters. -/
def occurs (needle : List Char) : List Char → Bool
  | [] => needle.isPrefixOf []
  | c :: cs => needle.isPrefixOf (c :: cs) || occurs needle cs

/-- The test `hay.find(needle) != std::string::npos`: `needle` is a substring of `hay`
(the empty string is found in every string). -/
def found (hay needle : String) : Bool := occurs needle.data hay.data

/-- The test `SET.find(line.substr(j, 1)) != std::string::npos` for the one-character
substring made of `c`. -/
def foundChar (hay : String) (c : Char) : Bool := found hay (String.mk [c])

/-! ## `IsNumber` and `std::stod` -/

/-- The loop of `IsNumber`: counts the dots, and clears the flag at any other character
that is not a digit. -/
def IsNumber.loop : List Char → Nat → Bool → Nat × Bool
  | [], dot_counter, flag => (dot_counter, flag)
  | c :: rest, dot_counter, flag =>
      if !foundChar DIGITS c then
        if c = '.' then IsNumber.loop rest (dot_counter + 1) flag
        else IsNumber.loop rest dot_counter false
      else IsNumber.loop rest dot_counter flag

/-- `IsNumber(line)`: only digits and dots, and at most one dot. -/
def IsNumber (line : String) : Bool :=
  let r := IsNumber.loop line.data 0 true
  if r.1 > 1 then false else r.2

/-- Value of a list of decimal digits, most significant first. -/
def decimalValue (ds : List Char) : Nat :=
  ds.foldl (fun acc c => 10 * acc + (c.toNat - 48)) 0

/-- The number that a string made of digits and at most one dot denotes (the strings for
which `IsNumber` holds); `none` when the string has no digit. -/
def decimal (s : String) : Option ℚ :=
  let whole := s.data.takeWhile (fun c => c ≠ '.')
  let frac := (s.data.dropWhile (fun c => c ≠ '.')).drop 1
  if whole.length + frac.length = 0 then none
  else some ((decimalValue (whole ++ frac) : ℚ) / (10 : ℚ) ^ frac.length)

/-- The conversion of a decimal of value `x` to `double` by `std::stod`: `x` itself when it
is converted exactly, else the rounded value `strtod` gives; when `strtod` reports a range
error, `std::stod` throws `std::out_of_range`. -/
def Libm.convert (M : Libm) (x : ℚ) : Outcome ℚ :=
  if convertsExactly x then Outcome.value x
  else
    match M.strtod x with
    | some v => Outcome.value v
    | none => Outcome.uncaught "std::out_of_range"

/-- `std::stod(s)` for a string made of digits and at most one dot (the strings for which
`IsNumber` holds): it throws `std::invalid_argument` when the string has no digit, and
converts the number the string denotes otherwise. -/
def stod (M : Libm) (s : String) : Outcome ℚ :=
  match decimal s with
  | none => Outcome.uncaught "std::invalid_argument"
  | some x => M.convert x

/-! ## `ValidateParentheses` -/

/-- The loop of `ValidateParentheses` over the characters of the line, with the stack
`p_stack` and the flag. -/
def ValidateParentheses.loop : List Char → List Char → Bool → List Char × Bool
  | [], p_stack, flag => (p_stack, flag)
  | c :: rest, p_stack, flag =>
      if c = '(' then ValidateParentheses.loop rest (c :: p_stack) flag
      else if c = ')' then
        match p_stack with
        | _ :: popped => ValidateParentheses.loop rest popped flag
        | [] => ValidateParentheses.loop rest [] false
      else ValidateParentheses.loop rest p_stack flag

/-- `ValidateParentheses(line)`. -/
def ValidateParentheses (line : String) : Bool :=
  let r := ValidateParentheses.loop line.data [] true
  if !r.1.isEmpty then false else r.2

/-! ## `SplitLine` -/

/-- The inner loop of `SplitLine` that collects a full number (`digit = true`, the first
character is a digit: digits and dots are appended) or a full word (`digit = false`, the
first character is a letter: letters are appended).  Returns `buff` and the characters
from index `j` on. -/
def SplitLine.collect (digit : Bool) : List Char → List Char → List Char × List Char
  | buff, [] => (buff, [])
  | buff, tmp :: rest =>
      if digit then
        if foundChar DIGITS tmp || tmp = '.' then SplitLine.collect digit (buff ++ [tmp]) rest
        else (buff, tmp :: rest)
      else
        if foundChar LETTERS tmp then SplitLine.collect digit (buff ++ [tmp]) rest
        else (buff, tmp :: rest)

/-- The outer loop of `SplitLine`; the second argument is the part of the line from index
`i` on, `result` is the vector built so far (in order).  One unit of `fuel` is used per
iteration. -/
def SplitLine.loop : Nat → List Char → List String → Outcome (List String)
  | _, [], result => Outcome.value result
  | 0, _ :: _, _ => Outcome.outOfFuel
  | fuel + 1, curr :: rest, result =>
      if foundChar DIGITS curr || foundChar LETTERS curr then
        let r := SplitLine.collect (foundChar DIGITS curr) [] (curr :: rest)
        SplitLine.loop fuel r.2 (result ++ [String.mk r.1])
      else if foundChar OPS curr then
        if curr = '-' ∧ result.getLast? = some "(" then
          SplitLine.loop fuel rest (result ++ ["0"] ++ [String.mk [curr]])
        else SplitLine.loop fuel rest (result ++ [String.mk [curr]])
      else if curr ≠ ' ' then
        ThrowError ("Incorrect input \x27" ++ String.mk [curr] ++ "\x27")
      else SplitLine.loop fuel rest result

/-- The outer loop of `SplitLine` run on the characters `chars` with as many units of fuel
as there are characters, which is enough for it to reach the end (`SplitLine.scan_ne_outOfFuel`). -/
def SplitLine.scan (chars : List Char) (result : List String) : Outcome (List String) :=
  SplitLine.loop chars.length chars result

/-- `SplitLine(line)`: the tokens of the line between a leading `(` and a final `)`. -/
def SplitLine (line : String) : Outcome (List String) :=
  (SplitLine.scan line.data ["("]).andThen
    fun result => Outcome.value (result ++ [")"])

/-! ## `ParseExpression` -/

/-- The map `pr_ops`; `std::map::operator[]` gives 0 for a key that was never set. -/
def pr_ops (key : String) : Int :=
  if key = "+" then 0 else if key = "-" then 0
  else if key = "*" then 1 else if key = "/" then 1
  else if key = "^" then 2
  else if key = "sin" then 3 else if key = "cos" then 3
  else if key = "tan" then 3 else if key = "log" then 3
  else if key = "(" then -1 else if key = ")" then -1
  else 0

/-- The loop for `)`: moves the items of `op_stack` onto `main_stack` until a `(` is
popped or `op_stack` is empty.  Returns `(op_stack, main_stack)`. -/
def ParseExpression.closeParen : List String → List String → List String × List String
  | [], main_stack => ([], main_stack)
  | tmp :: op_stack, main_stack =>
      if tmp = "(" then (op_stack, main_stack)
      else ParseExpression.closeParen op_stack (tmp :: main_stack)

/-- The loop for an operator `curr` whose rank is not above that of the top: pops while
`pr_ops[curr] <= pr_ops[tmp]`.  Returns `(op_stack, main_stack)`. -/
def ParseExpression.popOps (curr : String) : List String → List String → List String × List String
  | [], main_stack => ([], main_stack)
  | tmp :: op_stack, main_stack =>
      if pr_ops curr ≤ pr_ops tmp then ParseExpression.popOps curr op_stack (tmp :: main_stack)
      else (tmp :: op_stack, main_stack)

/-- One iteration of the `for` loop of `ParseExpression` on the state
`(op_stack, main_stack)`. -/
def ParseExpression.step (st : List String × List String) (curr : String) :
    List String × List String :=
  if found OPS curr || found FUNCTIONS curr then
    if curr = ")" then ParseExpression.closeParen st.1 st.2
    else if curr = "(" then (curr :: st.1, st.2)
    else
      match st.1 with
      | prev :: op_stack =>
          if pr_ops curr > pr_ops prev then (curr :: prev :: op_stack, st.2)
          else
            let r := ParseExpression.popOps curr (prev :: op_stack) st.2
            (curr :: r.1, r.2)
      | [] => ([curr], st.2)
  else (st.1, curr :: st.2)

/-- "Moving the remaining items onto the main stack": pushes the items of the first stack,
from its top, onto the second.  The same loop reverses `main_stack` into `result`. -/
def ParseExpression.moveAll : List String → List String → List String
  | [], target => target
  | top :: source, target => ParseExpression.moveAll source (top :: target)

/-- `ParseExpression(items)`: the returned stack, its top first, that is, the reverse
Polish notation in reading order. -/
def ParseExpression (items : List String) : List String :=
  let st := items.foldl ParseExpression.step ([], [])
  let main_stack := ParseExpression.moveAll st.1 st.2
  ParseExpression.moveAll main_stack []

/-! ## `EvaluateExpression` -/

/-- One iteration of the loop of `EvaluateExpression` on `eval_stack`. -/
def EvaluateExpression.step (M : Libm) (curr : String) (eval_stack : List ℚ) :
    Outcome (List ℚ) :=
  if found OPS curr then
    match eval_stack with
    | second :: first :: rest =>
        if curr = "+" then Outcome.value (M.fl (first + second) :: rest)
        else if curr = "-" then Outcome.value (M.fl (first - second) :: rest)
        else if curr = "*" then Outcome.value (M.fl (first * second) :: rest)
        else if curr = "/" then
          if second ≠ 0 then Outcome.value (M.fl (first / second) :: rest)
          else ThrowError "Division by zero"
        else if curr = "^" then Outcome.value (M.pow first second :: rest)
        else Outcome.value rest
    | _ => Outcome.undefined
  else if found FUNCTIONS curr then
    match eval_stack with
    | value :: rest =>
        if curr = "sin" then Outcome.value (M.sin value :: rest)
        else if curr = "cos" then Outcome.value (M.cos value :: rest)
        else if curr = "tan" then
          if |M.fl (value - M.fl (M.fl PI / 2))| > M.fl EPS then
            Outcome.value (M.tan value :: rest)
          else ThrowError "Invalid tangent argument value"
        else if curr = "log" then
          if value > 0 then Outcome.value (M.log value :: rest)
          else ThrowError "Invalid logarithm argument value"
        else Outcome.value rest
    | [] => Outcome.undefined
  else
    if curr = "pi" then Outcome.value (M.fl PI :: eval_stack)
    else if curr = "e" then Outcome.value (M.fl EXP :: eval_stack)
    else if IsNumber curr then
      (stod M curr).andThen fun v => Outcome.value (v :: eval_stack)
    else ThrowError ("Invalid value \x27" ++ curr ++ "\x27")

/-- The `while` loop of `EvaluateExpression`: `main_stack` is read from its top. -/
def EvaluateExpression.loop (M : Libm) : List String → List ℚ → Outcome (List ℚ)
  | [], eval_stack => Outcome.value eval_stack
  | curr :: main_stack, eval_stack =>
      (EvaluateExpression.step M curr eval_stack).andThen (EvaluateExpression.loop M main_stack)

/-- `EvaluateExpression(main_stack)`: "the final result is on top of the stack". -/
def EvaluateExpression (M : Libm) (main_stack : List String) : Outcome ℚ :=
  (EvaluateExpression.loop M main_stack []).andThen fun eval_stack =>
    match eval_stack with
    | top :: _ => Outcome.value top
    | [] => Outcome.undefined

/-! ## The pipeline and `main` -/

/-- The composition `EvaluateExpression(ParseExpression(SplitLine(line)))`. -/
def calculate (M : Libm) (line : String) : Outcome ℚ :=
  (SplitLine line).andThen fun splitted_line =>
    EvaluateExpression M (ParseExpression splitted_line)

/-- The function `main` on the line read from the input: the value is the printed result. -/
def main (M : Libm) (input_string : String) : Outcome ℚ :=
  if input_string.length > 255 then ThrowError "The expression is too long"
  else if input_string.isEmpty then ThrowError "An empty string was entered"
  else if !ValidateParentheses input_string then ThrowError "Missed parentheses"
  else calculate M input_string

/-- The integer nearest to `y`; of two nearest integers, the even one. -/
def roundHalfEven (y : ℚ) : ℤ :=
  if y - ⌊y⌋ < 1 / 2 then ⌊y⌋
  else if 1 / 2 < y - ⌊y⌋ then ⌊y⌋ + 1
  else if ⌊y⌋ % 2 = 0 then ⌊y⌋ else ⌊y⌋ + 1

/-- Rounding to nearest, ties to even, with the 53 bits of precision of `double` and
exponents from -1022 on: the multiple of the unit in the last place of `x` nearest to `x`
(`Int.log 2 |x|` is the exponent `e` with `2 ^ e ≤ |x| < 2 ^ (e + 1)`).  The result is not
cut off at the greatest double. -/
def nearestDouble (x : ℚ) : ℚ :=
  let ulp : ℚ := 2 ^ (max (Int.log 2 |x|) (-1022) - 52)
  roundHalfEven (x / ulp) * ulp

/-- An instance of `Libm` on which closed examples are computed: `pow` is exact for
exponents that are natural numbers, `sin 0 = 0`, `cos 0 = 1`, `tan 0 = 0`, `log 1 = 0`;
elsewhere these fields hold 0, a placeholder.  Rounding is to nearest, ties to even;
`strtod` reports a range error for a value that rounds beyond the greatest double,
`2 ^ 1024 - 2 ^ 971`, and for one below the least normal double that is no double. -/
def exactLibm : Libm where
  pow := fun a b => if b.den = 1 ∧ 0 ≤ b.num then a ^ b.num.toNat else 0
  sin := fun _ => 0
  cos := fun x => if x = 0 then 1 else 0
  tan := fun _ => 0
  log := fun _ => 0
  round := nearestDouble
  strtod := fun x =>
    if (2 : ℚ) ^ 1024 - 2 ^ 970 ≤ |x| ∨ (|x| < 2 ^ (-1022 : ℤ) ∧ isDouble x = false) then none
    else some (nearestDouble x)

/-! ## Notions in which the properties are stated -/

/-- The class of characters a run of `SplitLine` is made of: digits and dots for a number
(`digit = true`), letters of `LETTERS` for a word. -/
def runClass (digit : Bool) (c : Char) : Bool :=
  if digit then foundChar DIGITS c || c = '.' else foundChar LETTERS c

/-- A number token as `SplitLine` builds it: a digit followed by digits and dots. -/
def isNumberToken (s : String) : Bool :=
  match s.data with
  | [] => false
  | d :: rest => foundChar DIGITS d && rest.all (runClass true)

/-- A word token as `SplitLine` builds it: a non-empty run of letters of `LETTERS`. -/
def isWordToken (s : String) : Bool :=
  match s.data with
  | [] => false
  | d :: rest => foundChar LETTERS d && rest.all (runClass false)

/-- The binary operators. -/
def binaryOperators : List String := ["+", "-", "*", "/", "^"]

/-- An operand for `ParseExpression` and `EvaluateExpression`: a token that neither
`OPS.find` nor `FUNCTIONS.find` finds. -/
def isOperand (s : String) : Bool := !found OPS s && !found FUNCTIONS s

/-- The parentheses of a line are correctly placed: as many `(` as `)`, and no prefix of
the line with more `)` than `(`. -/
def CorrectlyPlaced (line : List Char) : Prop :=
  line.count '(' = line.count ')' ∧ ∀ p, p <+: line → p.count ')' ≤ p.count '('

/-- Number of `(` tokens of a token sequence that no later `)` token closes (a `)` closes
the last `(` still open, and closes nothing when none is open). -/
def openCount (items : List String) : Nat :=
  items.foldl (fun depth t => if t = "(" then depth + 1 else if t = ")" then depth - 1 else depth) 0

/-- No run of `SplitLine` goes across the cut between `before` and `after`: the last
character of `before` and the first of `after` are not two characters of a number, nor two
letters. -/
def Boundary (before after : List Char) : Prop :=
  ∀ a b, before.getLast? = some a → after.head? = some b →
    ¬ (runClass true a = true ∧ runClass true b = true)
      ∧ ¬ (runClass false a = true ∧ runClass false b = true)

/-- The characters `run` are a maximal run of the line `before ++ run ++ after`: a number
run (`digit = true`), which starts with a digit and goes on with digits and dots, or a word
run (`digit = false`), made of letters of `LETTERS`; the character before it and the
character after it, if any, are not of the class of the run. -/
def MaximalRun (digit : Bool) (before run after : List Char) : Prop :=
  (∃ d rest, run = d :: rest
      ∧ (if digit then foundChar DIGITS d else foundChar LETTERS d) = true
      ∧ ∀ c ∈ rest, runClass digit c = true)
    ∧ (∀ c, before.getLast? = some c → runClass digit c = false)
    ∧ (∀ c, after.head? = some c → runClass digit c = false)

/-- The tokens of a line in the words of the specification (section 4.1), before the
implicit-zero rule and the sentinels: scanning from left to right, a maximal run of digits
and dots that starts with a digit is a number token, a maximal run of letters is an
identifier token, each character of the operator set is a token, and the other characters
(the spaces) are skipped.  `budget` bounds the number of tokens and skipped characters;
the length of the line is enough. -/
def lexemes : Nat → List Char → List String
  | 0, _ => []
  | _ + 1, [] => []
  | budget + 1, c :: rest =>
      if foundChar DIGITS c then
        String.mk (c :: rest.takeWhile (runClass true))
          :: lexemes budget (rest.dropWhile (runClass true))
      else if foundChar LETTERS c then
        String.mk (c :: rest.takeWhile (runClass false))
          :: lexemes budget (rest.dropWhile (runClass false))
      else if foundChar OPS c then String.mk [c] :: lexemes budget rest
      else lexemes budget rest

/-- The implicit-zero rule in the words of the specification, on a token sequence that
follows the token `prev`: a `0` token is inserted before each `-` token that immediately
follows a `(` token, and nothing else is inserted. -/
def implicitZero (prev : String) : List String → List String
  | [] => []
  | t :: rest =>
      if t = "-" ∧ prev = "(" then "0" :: t :: implicitZero t rest
      else t :: implicitZero t rest

/-! ## Well-formed infix expressions -/

/-- The four binary operators of the grammar. -/
inductive BinOp where
  | add
  | sub
  | mul
  | div
  deriving DecidableEq, Repr

/-- The token of an operator. -/
def BinOp.symbol : BinOp → String
  | BinOp.add => "+"
  | BinOp.sub => "-"
  | BinOp.mul => "*"
  | BinOp.div => "/"

/-- The level of an operator in the grammar: 0 for `+ -` (rule `E -> E (+|-) T`), 1 for
`* /` (rule `T -> T (*|/) F`). -/
def BinOp.rank : BinOp → Nat
  | BinOp.add => 0
  | BinOp.sub => 0
  | BinOp.mul => 1
  | BinOp.div => 1

/-- The operation of an operator on exact values; a division by zero has no value. -/
def BinOp.apply : BinOp → ℚ → ℚ → Option ℚ
  | BinOp.add, a, b => some (a + b)
  | BinOp.sub, a, b => some (a - b)
  | BinOp.mul, a, b => some (a * b)
  | BinOp.div, a, b => if b = 0 then none else some (a / b)

/-- A number literal: one digit, further digits, and optionally a dot followed by the
digits of the fraction (which may be none, as in `12.`). -/
structure NumLit where
  first : Fin 10
  more : List (Fin 10)
  fraction : Option (List (Fin 10))

/-- The character of a digit. -/
def digitChar (d : Fin 10) : Char := Char.ofNat (48 + d.val)

/-- The text of a literal. -/
def NumLit.text (n : NumLit) : String :=
  String.mk ((n.first :: n.more).map digitChar
    ++ match n.fraction with
       | none => []
       | some f => '.' :: f.map digitChar)

/-- The natural number written by decimal digits, most significant first. -/
def digitsValue (ds : List (Fin 10)) : Nat :=
  Nat.ofDigits 10 (ds.reverse.map (fun d => d.val))

/-- The number a literal denotes. -/
def NumLit.value (n : NumLit) : ℚ :=
  (digitsValue (n.first :: n.more) : ℚ)
    + match n.fraction with
      | none => 0
      | some f => (digitsValue f : ℚ) / (10 : ℚ) ^ f.length

/-- Syntax trees of infix expressions over number literals, the four operators and
parentheses. -/
inductive Expr where
  | number (lit : NumLit)
  | paren (inner : Expr)
  | binary (left : Expr) (op : BinOp) (right : Expr)

/-- The nonterminal a tree is derived from at the root: 0 for `E -> E (+|-) T`, 1 for
`T -> T (*|/) F`, 2 for `F -> number | ( E )`. -/
def Expr.level : Expr → Nat
  | Expr.number _ => 2
  | Expr.paren _ => 2
  | Expr.binary _ op _ => op.rank

/-- The tree is a derivation of the grammar `E -> E (+|-) T | T`, `T -> T (*|/) F | F`,
`F -> number | ( E )`: the left operand of `+ -` is an `E` (any level) and the right one a
`T` (level 1 or 2); the left operand of `* /` is a `T` and the right one an `F` (level 2). -/
def Expr.grammatical : Expr → Bool
  | Expr.number _ => true
  | Expr.paren inner => inner.grammatical
  | Expr.binary left op right =>
      left.grammatical && right.grammatical
        && decide (op.rank ≤ left.level) && decide (op.rank < right.level)

/-- The tokens of an expression, in the order of the text. -/
def Expr.tokens : Expr → List String
  | Expr.number lit => [lit.text]
  | Expr.paren inner => "(" :: inner.tokens ++ [")"]
  | Expr.binary left op right => left.tokens ++ op.symbol :: right.tokens

/-- The mathematical value of an expression: usual precedence is in the tree, operators
of one level associate to the left; `none` when a division by zero occurs. -/
def Expr.value : Expr → Option ℚ
  | Expr.number lit => some lit.value
  | Expr.paren inner => inner.value
  | Expr.binary left op right =>
      match left.value, right.value with
      | some a, some b => op.apply a b
      | _, _ => none

/-- The reverse Polish notation of an expression. -/
def Expr.rpn : Expr → List String
  | Expr.number lit => [lit.text]
  | Expr.paren inner => inner.rpn
  | Expr.binary left op right => left.rpn ++ right.rpn ++ [op.symbol]

/-- The operators of an expression that `ParseExpression` still holds on `op_stack`, top
first, when the last token of the expression has been read. -/
def Expr.pending : Expr → List String
  | Expr.number _ => []
  | Expr.paren _ => []
  | Expr.binary _ op right => right.pending ++ [op.symbol]

/-- The part of the reverse Polish notation of an expression that is on `main_stack` when
its last token has been read: `e.emitted ++ e.pending = e.rpn`. -/
def Expr.emitted : Expr → List String
  | Expr.number lit => [lit.text]
  | Expr.paren inner => inner.rpn
  | Expr.binary left _ right => left.rpn ++ right.emitted

/-- A run of `n` spaces. -/
def spaces (n : Nat) : List Char := List.replicate n ' '

/-- A text of a token sequence: the head of `gaps` is the number of spaces before the
first token, and so on for the tail of `gaps` and the other tokens (no space where `gaps`
has run out); after the last token come the spaces of the next gap. -/
def layout : List Nat → List String → List Char
  | gaps, [] => spaces (gaps.headD 0)
  | gaps, t :: rest => spaces (gaps.headD 0) ++ (t.data ++ layout gaps.tail rest)

/-- Token sequences that `SplitLine` reads back token by token whatever the spaces, after a
token `prev`: each token is a number, a word or one character of `OPS`; no number follows
a number, no word follows a word, and no `-` follows a `(`. -/
def Separated : String → List String → Prop
  | _, [] => True
  | prev, t :: rest =>
      ((isNumberToken t = true ∧ isNumberToken prev = false)
        ∨ (isWordToken t = true ∧ isWordToken prev = false)
        ∨ (∃ c, t = String.mk [c] ∧ foundChar OPS c = true ∧ ¬ (c = '-' ∧ prev = "(")))
      ∧ Separated t rest

/-- No rounding occurs in the evaluation of the expression: every literal is converted
exactly by `std::stod` and the result of every operation is a double. -/
def Expr.roundingFree : Expr → Bool
  | Expr.number lit => convertsExactly lit.value
  | Expr.paren inner => inner.roundingFree
  | Expr.binary left op right =>
      left.roundingFree && right.roundingFree
        && match (Expr.binary left op right).value with
           | some v => isDouble v
           | none => false

/-- The expression `( 1.5 + 2 ) * 4 / 2`, an example. -/
def exampleExpr : Expr :=
  Expr.binary
    (Expr.binary
      (Expr.paren
        (Expr.binary (Expr.number ⟨1, [], some [5]⟩) BinOp.add (Expr.number ⟨2, [], none⟩)))
      BinOp.mul (Expr.number ⟨4, [], none⟩))
    BinOp.div (Expr.number ⟨2, [], none⟩)

/-- The expression `1 / ( 1 - 0.99999999999999999 )`, whose last literal is no double. -/
def roundingExpr : Expr :=
  Expr.binary (Expr.number ⟨1, [], none⟩) BinOp.div
    (Expr.paren
      (Expr.binary (Expr.number ⟨1, [], none⟩) BinOp.sub
        (Expr.number ⟨0, [], some [9, 9, 9, 9, 9, 9, 9, 9, 9, 9, 9, 9, 9, 9, 9, 9, 9]⟩)))

/-- The expression `1 / 3`, whose literals are doubles and whose value is no double. -/
def thirdExpr : Expr :=
  Expr.binary (Expr.number ⟨1, [], none⟩) BinOp.div (Expr.number ⟨3, [], none⟩)

/-- The number token made of the digit 1 and 400 digits 0: the number `10 ^ 400`, beyond
the range of `double`. -/
def hugeNumber : String := String.mk ('1' :: List.replicate 400 '0')

/-- The characters of a line that are digits, the decimal point, the lowercase letters
`a` to `z`, the operators and parentheses, and the space. -/
def plainCharacters : String := "0123456789.abcdefghijklmnopqrstuvwxyz+-*/^() "

/-- The names of the functions. -/
def functionNames : List String := ["sin", "cos", "tan", "log"]

/-- The `(` and `)` tokens of the sequence are balanced, read from a state with `depth`
tokens `(` open: no `)` comes when none is open, and none is open at the end. -/
def balancedFrom : List String → Nat → Bool
  | [], depth => depth = 0
  | t :: rest, depth =>
      if t = "(" then balancedFrom rest (depth + 1)
      else if t = ")" then depth ≠ 0 && balancedFrom rest (depth - 1)
      else balancedFrom rest depth

/-- The `(` and `)` tokens of a token sequence are balanced. -/
def balancedTokens (items : List String) : Bool := balancedFrom items 0

/-- A token that is not a parenthesis. -/
def notParen (t : String) : Bool := t ≠ "(" && t ≠ ")"

/-! ## The simplified calculator, `src/calc_simplified.cpp` -/

/-- Set of allowed operators of the simplified calculator. -/
def Simplified.OPS : String := "+-*/()"

/-- The map `pr_ops` of the simplified calculator; `std::map::operator[]` gives 0 for a
key that was never set. -/
def Simplified.pr_ops (key : String) : Int :=
  if key = "+" then 0 else if key = "-" then 0
  else if key = "*" then 1 else if key = "/" then 1
  else if key = "(" then -1 else if key = ")" then -1
  else 0

/-- The loop for `)` of the simplified `ParseExpression`. -/
def Simplified.ParseExpression.closeParen :
    List String → List String → List String × List String
  | [], main_stack => ([], main_stack)
  | tmp :: op_stack, main_stack =>
      if tmp = "(" then (op_stack, main_stack)
      else Simplified.ParseExpression.closeParen op_stack (tmp :: main_stack)

/-- The loop for an operator of the simplified `ParseExpression`. -/
def Simplified.ParseExpression.popOps (curr : String) :
    List String → List String → List String × List String
  | [], main_stack => ([], main_stack)
  | tmp :: op_stack, main_stack =>
      if Simplified.pr_ops curr ≤ Simplified.pr_ops tmp then
        Simplified.ParseExpression.popOps curr op_stack (tmp :: main_stack)
      else (tmp :: op_stack, main_stack)

/-- One iteration of the `for` loop of the simplified `ParseExpression` on the state
`(op_stack, main_stack)`. -/
def Simplified.ParseExpression.step (st : List String × List String) (curr : String) :
    List String × List String :=
  if found Simplified.OPS curr then
    if curr = ")" then Simplified.ParseExpression.closeParen st.1 st.2
    else if curr = "(" then (curr :: st.1, st.2)
    else
      match st.1 with
      | prev :: op_stack =>
          if Simplified.pr_ops curr > Simplified.pr_ops prev then
            (curr :: prev :: op_stack, st.2)
          else
            let r := Simplified.ParseExpression.popOps curr (prev :: op_stack) st.2
            (curr :: r.1, r.2)
      | [] => ([curr], st.2)
  else (st.1, curr :: st.2)

/-- The loops that move a stack onto another one, in the simplified `ParseExpression`. -/
def Simplified.ParseExpression.moveAll : List String → List String → List String
  | [], target => target
  | top :: source, target => Simplified.ParseExpression.moveAll source (top :: target)

/-- `ParseExpression(items)` of the simplified calculator: the returned stack, its top
first. -/
def Simplified.ParseExpression (items : List String) : List String :=
  let st := items.foldl Simplified.ParseExpression.step ([], [])
  let main_stack := Simplified.ParseExpression.moveAll st.1 st.2
  Simplified.ParseExpression.moveAll main_stack []

/-- `std::stod(s)` in the simplified calculator, which calls it on every token that is not
an operator: `stod` above when `s` is made of digits and at most one dot, and what the
library does on any other string, `stodOther s` (`none` for an exception), a parameter. -/
def Simplified.stod (M : Libm) (stodOther : String → Option ℚ) (s : String) : Outcome ℚ :=
  if IsNumber s then ExprCalc.stod M s
  else
    match stodOther s with
    | some v => Outcome.value v
    | none => Outcome.uncaught "std::invalid_argument or std::out_of_range"

/-- One iteration of the loop of the simplified `EvaluateExpression`.  A quotient by zero
is no number of the model (C++ leaves the division by zero undefined): `Outcome.undefined`. -/
def Simplified.EvaluateExpression.step (M : Libm) (stodOther : String → Option ℚ)
    (curr : String) (eval_stack : List ℚ) : Outcome (List ℚ) :=
  if found Simplified.OPS curr then
    match eval_stack with
    | second :: first :: rest =>
        if curr = "+" then Outcome.value (M.fl (first + second) :: rest)
        else if curr = "-" then Outcome.value (M.fl (first - second) :: rest)
        else if curr = "*" then Outcome.value (M.fl (first * second) :: rest)
        else if curr = "/" then
          if second = 0 then Outcome.undefined
          else Outcome.value (M.fl (first / second) :: rest)
        else Outcome.value rest
    | _ => Outcome.undefined
  else
    (Simplified.stod M stodOther curr).andThen fun v => Outcome.value (v :: eval_stack)

/-- The `while` loop of the simplified `EvaluateExpression`. -/
def Simplified.EvaluateExpression.loop (M : Libm) (stodOther : String → Option ℚ) :
    List String → List ℚ → Outcome (List ℚ)
  | [], eval_stack => Outcome.value eval_stack
  | curr :: main_stack, eval_stack =>
      (Simplified.EvaluateExpression.step M stodOther curr eval_stack).andThen
        (Simplified.EvaluateExpression.loop M stodOther main_stack)

/-- `EvaluateExpression(main_stack)` of the simplified calculator. -/
def Simplified.EvaluateExpression (M : Libm) (stodOther : String → Option ℚ)
    (main_stack : List String) : Outcome ℚ :=
  (Simplified.EvaluateExpression.loop M stodOther main_stack []).andThen fun eval_stack =>
    match eval_stack with
    | top :: _ => Outcome.value top
    | [] => Outcome.undefined

/-- The operator and parenthesis tokens that both calculators know. -/
def commonOperators : List String := ["+", "-", "*", "/", "(", ")"]

/-- A token of the language common to both calculators: a decimal number literal (a digit,
then digits with at most one dot) or one of `+ - * / ( )`. -/
def isCommonToken (t : String) : Bool :=
  (isNumberToken t && IsNumber t) || decide (t ∈ commonOperators)

/-- The text ` u1 u2 ...` of the tokens that follow the first one: each after one space. -/
def renderRest : List String → List Char
  | [] => []
  | u :: rest => ' ' :: (u.data ++ renderRest rest)

/-- The textual rendering of a token sequence: its tokens joined by single spaces. -/
def render : List String → List Char
  | [] => []
  | t :: rest => t.data ++ renderRest rest

/-- A token that `SplitLine` makes from the characters of a line: a number, a word, or one
character of `OPS`. -/
def IsLineToken (t : String) : Prop :=
  isNumberToken t = true ∨ isWordToken t = true
    ∨ ∃ c, t = String.mk [c] ∧ foundChar OPS c = true

/-! ## Well-formed token sequences of the full calculator -/

/-- The five binary operators. -/
inductive Operator where
  | add
  | sub
  | mul
  | div
  | pow
  deriving DecidableEq, Repr

/-- The token of a binary operator. -/
def Operator.symbol : Operator → String
  | Operator.add => "+"
  | Operator.sub => "-"
  | Operator.mul => "*"
  | Operator.div => "/"
  | Operator.pow => "^"

/-- The four functions. -/
inductive Func where
  | sin
  | cos
  | tan
  | log
  deriving DecidableEq, Repr

/-- The token of a function. -/
def Func.name : Func → String
  | Func.sin => "sin"
  | Func.cos => "cos"
  | Func.tan => "tan"
  | Func.log => "log"

/-- Well-formed expressions of the full calculator: numbers and the constants `pi` and `e`
as operands, binary operators between operands, functions followed by a parenthesized
expression, parentheses.  Only the token sequence matters here, so that no precedence is
imposed on the shape of the tree. -/
inductive Term where
  | number (lit : NumLit)
  | constPi
  | constE
  | paren (inner : Term)
  | call (f : Func) (arg : Term)
  | binary (left : Term) (op : Operator) (right : Term)

/-- The tokens of a well-formed expression, in the order of the text. -/
def Term.tokens : Term → List String
  | Term.number lit => [lit.text]
  | Term.constPi => ["pi"]
  | Term.constE => ["e"]
  | Term.paren inner => "(" :: inner.tokens ++ [")"]
  | Term.call f arg => f.name :: "(" :: arg.tokens ++ [")"]
  | Term.binary left op right => left.tokens ++ op.symbol :: right.tokens

/-- The number of values on the operand stack after the tokens of a reverse Polish
notation, started with `depth` values: a binary operator takes two values and gives one, a
function takes one and gives one, any other token gives one; `none` when a value is taken
from an empty stack. -/
def depthAfter : List String → Nat → Option Nat
  | [], depth => some depth
  | t :: rest, depth =>
      if t ∈ binaryOperators then
        if 2 ≤ depth then depthAfter rest (depth - 1) else none
      else if t ∈ functionNames then
        if 1 ≤ depth then depthAfter rest depth else none
      else depthAfter rest (depth + 1)

/-- The tokens `EvaluateExpression` has a meaning for: binary operators, functions, the
constants, and numbers with at most one dot. -/
def IsEvaluable (t : String) : Prop :=
  t ∈ binaryOperators ∨ t ∈ functionNames ∨ t = "pi" ∨ t = "e"
    ∨ (isNumberToken t = true ∧ IsNumber t = true)

/-- The number of binary operators in a stack of operators. -/
def binaryCount (op_stack : List String) : Nat :=
  op_stack.countP (fun t => decide (t ∈ binaryOperators))

/-- The part of `op_stack` from its topmost `(` on. -/
def fromParen (op_stack : List String) : List String :=
  op_stack.dropWhile (fun t => decide (t ≠ "("))

/-- The messages of the domain errors of `EvaluateExpression`. -/
def domainErrors : List String :=
  ["Division by zero", "Invalid tangent argument value", "Invalid logarithm argument value"]

/-- The state `(op_stack, main_stack)` of `ParseExpression` inside a well-formed token
sequence: the tokens of `main_stack`, read from the bottom, are evaluable and leave
`extra` values more than there are binary operators waiting on `op_stack`, which holds
only binary operators, functions and `(`.  `extra` is 1 when an operand has just been
read, 0 when an operand is expected. -/
def ParseState (extra : Nat) (st : List String × List String) : Prop :=
  depthAfter st.2.reverse 0 = some (extra + binaryCount st.1)
    ∧ (∀ t ∈ st.2, IsEvaluable t)
    ∧ ∀ t ∈ st.1, t ∈ binaryOperators ∨ t ∈ functionNames ∨ t = "("

/-! # Theorems -/

/-! ## Sequencing of outcomes -/

@[simp] theorem Outcome.andThen_value {α β : Type} (v : α) (next : α → Outcome β) :
    (Outcome.value v).andThen next = next v := by
  rw [Outcome.andThen]

theorem Outcome.andThen_eq_value {α β : Type} {o : Outcome α} {next : α → Outcome β} {w : β}
    (h : o.andThen next = Outcome.value w) : ∃ v, o = Outcome.value v ∧ next v = Outcome.value w := by
  cases o with
  | value v => exact ⟨v, rfl, h⟩
  | exit m => simp [Outcome.andThen] at h
  | undefined => simp [Outcome.andThen] at h
  | uncaught m => simp [Outcome.andThen] at h
  | outOfFuel => simp [Outcome.andThen] at h

theorem Outcome.andThen_assoc {α β γ : Type} (o : Outcome α) (f : α → Outcome β)
    (g : β → Outcome γ) : (o.andThen f).andThen g = o.andThen (fun v => (f v).andThen g) := by
  cases o <;> rfl

/-! ## Substring search -/

theorem isPrefixOf_mem {needle hay : List Char} (h : needle.isPrefixOf hay = true) :
    ∀ c ∈ needle, c ∈ hay := by
  induction needle generalizing hay with
  | nil => simp
  | cons a as ih =>
    cases hay with
    | nil => simp [List.isPrefixOf] at h
    | cons b bs =>
      simp only [List.isPrefixOf, Bool.and_eq_true, beq_iff_eq] at h
      intro c hc
      rcases List.mem_cons.mp hc with rfl | hc
      · simp [h.1]
      · exact List.mem_cons_of_mem _ (ih h.2 c hc)

theorem occurs_mem {needle hay : List Char} (h : occurs needle hay = true) :
    ∀ c ∈ needle, c ∈ hay := by
  induction hay with
  | nil =>
    simp only [occurs] at h
    exact isPrefixOf_mem h
  | cons b bs ih =>
    simp only [occurs, Bool.or_eq_true] at h
    rcases h with h | h
    · exact isPrefixOf_mem h
    · intro c hc
      exact List.mem_cons_of_mem _ (ih h c hc)

theorem foundChar_iff (hay : String) (c : Char) : foundChar hay c = true ↔ c ∈ hay.data := by
  unfold foundChar found
  generalize hay.data = l
  induction l with
  | nil => simp [occurs, List.isPrefixOf]
  | cons b bs ih =>
    simp only [occurs, Bool.or_eq_true, List.mem_cons, ih]
    simp [List.isPrefixOf]

/-- A token with a character that is not in `hay` is not found in `hay`. -/
theorem not_found_of_mem {hay s : String} {c : Char} (hc : c ∈ s.data) (hn : c ∉ hay.data) :
    found hay s = false := by
  cases hf : found hay s with
  | false => rfl
  | true => exact absurd (occurs_mem hf c hc) hn

theorem digit_not_op {d : Char} (hd : foundChar DIGITS d = true) :
    d ∉ OPS.data ∧ d ∉ FUNCTIONS.data ∧ d ∉ LETTERS.data ∧ d ≠ '.' ∧ d ≠ ' ' := by
  rw [foundChar_iff] at hd
  simp only [DIGITS, List.mem_cons, List.mem_singleton, List.not_mem_nil, or_false] at hd
  rcases hd with rfl | rfl | rfl | rfl | rfl | rfl | rfl | rfl | rfl | rfl <;> decide

theorem numberToken_operand {s : String} (h : isNumberToken s = true) :
    found OPS s = false ∧ found FUNCTIONS s = false := by
  unfold isNumberToken at h
  cases hs : s.data with
  | nil => simp [hs] at h
  | cons d rest =>
    simp only [hs, Bool.and_eq_true] at h
    have hd := digit_not_op h.1
    exact ⟨not_found_of_mem (c := d) (by simp [hs]) hd.1,
      not_found_of_mem (c := d) (by simp [hs]) hd.2.1⟩

/-! ## Doubles -/

/-- The doubles are the numbers `m * 2 ^ e` with `|m| < 2 ^ 53` and `-1074 ≤ e ≤ 971`. -/
theorem isDouble_iff (x : ℚ) :
    isDouble x = true ↔ ∃ m e : ℤ, |m| < 2 ^ 53 ∧ -1074 ≤ e ∧ e ≤ 971 ∧ x = m * 2 ^ e := by
  unfold isDouble
  rw [List.any_eq_true]
  constructor
  · rintro ⟨j, hj, h⟩
    rw [List.mem_range] at hj
    simp only [Bool.and_eq_true, decide_eq_true_eq] at h
    refine ⟨(x / 2 ^ ((j : ℤ) - 1074)).num, (j : ℤ) - 1074, h.2, by omega, by omega, ?_⟩
    have h2 : ((2 : ℚ) ^ ((j : ℤ) - 1074)) ≠ 0 := zpow_ne_zero _ (by norm_num)
    have h3 : (((x / 2 ^ ((j : ℤ) - 1074)).num : ℤ) : ℚ) = x / 2 ^ ((j : ℤ) - 1074) := by
      rw [← Rat.den_eq_one_iff]; exact h.1
    rw [h3, div_mul_cancel₀ _ h2]
  · rintro ⟨m, e, hm, he1, he2, rfl⟩
    refine ⟨(e + 1074).toNat, ?_, ?_⟩
    · rw [List.mem_range]; omega
    · have h1 : (((e + 1074).toNat : ℤ)) - 1074 = e := by omega
      have h2 : ((2 : ℚ) ^ e) ≠ 0 := zpow_ne_zero _ (by norm_num)
      simp only [h1, mul_div_assoc, div_self h2, mul_one, Rat.intCast_den, Rat.intCast_num,
        decide_True, Bool.true_and, decide_eq_true_eq]
      exact hm

/-- An integer of absolute value below `2 ^ 53` is a double. -/
theorem isDouble_intCast (n : ℤ) (h : |n| < 2 ^ 53) : isDouble (n : ℚ) = true :=
  (isDouble_iff _).2 ⟨n, 0, h, by norm_num, by norm_num, by simp⟩

/-- Half an integer of absolute value below `2 ^ 53` is a double. -/
theorem isDouble_half (n : ℤ) (h : |n| < 2 ^ 53) : isDouble ((n : ℚ) / 2) = true :=
  (isDouble_iff _).2 ⟨n, -1, h, by norm_num, by norm_num, by rw [zpow_neg_one]; ring⟩

/-- A double is below `2 ^ 1024` in absolute value. -/
theorem isDouble_lt {x : ℚ} (h : isDouble x = true) : |x| < 2 ^ 1024 := by
  obtain ⟨m, e, hm, _, he, rfl⟩ := (isDouble_iff x).1 h
  rw [abs_mul, abs_of_pos (zpow_pos (by norm_num : (0:ℚ) < 2) e)]
  have h1 : (|(m : ℚ)|) < 2 ^ 53 := by
    have : ((|m| : ℤ) : ℚ) < ((2 ^ 53 : ℤ) : ℚ) := by exact_mod_cast hm
    simpa using this
  have h2 : (2 : ℚ) ^ e ≤ 2 ^ (971 : ℤ) := zpow_le_zpow_right₀ (by norm_num) he
  calc |(m : ℚ)| * 2 ^ e ≤ |(m : ℚ)| * 2 ^ (971 : ℤ) :=
        mul_le_mul_of_nonneg_left h2 (abs_nonneg _)
    _ < 2 ^ 53 * 2 ^ (971 : ℤ) := by
        apply mul_lt_mul_of_pos_right h1 (zpow_pos (by norm_num) _)
    _ = 2 ^ 1024 := by norm_num

/-- A double times some power of two is an integer. -/
theorem isDouble_scaled {x : ℚ} (h : isDouble x = true) :
    ∃ (k : ℕ) (n : ℤ), x * 2 ^ k = n := by
  obtain ⟨m, e, _, _, _, rfl⟩ := (isDouble_iff x).1 h
  rcases le_or_lt 0 e with he | he
  · lift e to ℕ using he
    exact ⟨0, m * 2 ^ e, by push_cast; simp [zpow_natCast]⟩
  · obtain ⟨k, rfl⟩ : ∃ k : ℕ, e = -(k : ℤ) := ⟨(-e).toNat, by omega⟩
    refine ⟨k, m, ?_⟩
    rw [mul_assoc, zpow_neg, zpow_natCast, inv_mul_cancel₀ (pow_ne_zero _ two_ne_zero), mul_one]

/-- A double that is at least 1 is converted exactly. -/
theorem convertsExactly_of_one_le {x : ℚ} (h : isDouble x = true) (h1 : 1 ≤ x) :
    convertsExactly x = true := by
  have h2 : (2 : ℚ) ^ (-1022 : ℤ) ≤ 1 := by
    rw [zpow_neg]; exact inv_le_one_of_one_le₀ (one_le_zpow₀ (by norm_num) (by norm_num))
  have h3 : (2 : ℚ) ^ (-1022 : ℤ) ≤ |x| := le_trans h2 (le_trans h1 (le_abs_self x))
  unfold convertsExactly
  rw [h, decide_eq_true h3]
  simp

theorem convertsExactly_zero : convertsExactly 0 = true := by simp [convertsExactly]

/-- An exact result that is a double is the result of the operation. -/
theorem Libm.fl_of_isDouble (M : Libm) {x : ℚ} (h : isDouble x = true) : M.fl x = x := by
  simp [Libm.fl, h]

/-- An integer of absolute value below `2 ^ 53` is the result of the operation. -/
theorem Libm.fl_intCast (M : Libm) (n : ℤ) (h : |n| < 2 ^ 53) : M.fl (n : ℚ) = n :=
  M.fl_of_isDouble (isDouble_intCast n h)

/-- A value that is converted exactly is what `std::stod` returns. -/
theorem Libm.convert_of_exact (M : Libm) {x : ℚ} (h : convertsExactly x = true) :
    M.convert x = Outcome.value x := by
  simp [Libm.convert, h]

/-- The conversion returns a value or throws `std::out_of_range`. -/
theorem Libm.convert_cases (M : Libm) (x : ℚ) :
    (∃ v, M.convert x = Outcome.value v) ∨ M.convert x = Outcome.uncaught "std::out_of_range" := by
  unfold Libm.convert
  split
  · exact Or.inl ⟨x, rfl⟩
  · cases M.strtod x with
    | some v => exact Or.inl ⟨v, rfl⟩
    | none => exact Or.inr rfl

/-- `std::stod` converts the number its argument denotes. -/
theorem stod_of_decimal (M : Libm) {s : String} {x : ℚ} (h : decimal s = some x) :
    stod M s = M.convert x := by
  simp [stod, h]

theorem isDouble_natCast (n : ℕ) (h : n < 2 ^ 53) : isDouble (n : ℚ) = true := by
  have h1 := isDouble_intCast (n : ℤ) (by rw [abs_of_nonneg (by positivity)]; exact_mod_cast h)
  simpa using h1

theorem isDouble_neg {x : ℚ} (h : isDouble x = true) : isDouble (-x) = true := by
  obtain ⟨m, e, hm, he1, he2, rfl⟩ := (isDouble_iff x).1 h
  exact (isDouble_iff _).2 ⟨-m, e, by rwa [abs_neg], he1, he2, by push_cast; ring⟩

theorem Libm.fl_zero (M : Libm) : M.fl 0 = 0 :=
  M.fl_of_isDouble (by simpa using isDouble_natCast 0 (by norm_num))

theorem Libm.fl_one (M : Libm) : M.fl 1 = 1 :=
  M.fl_of_isDouble (by simpa using isDouble_natCast 1 (by norm_num))

theorem Libm.fl_ofNat (M : Libm) (n : ℕ) [n.AtLeastTwo] (h : n < 2 ^ 53) :
    M.fl (OfNat.ofNat n : ℚ) = OfNat.ofNat n :=
  M.fl_of_isDouble (by simpa using isDouble_natCast n h)

theorem Libm.fl_neg_ofNat (M : Libm) (n : ℕ) [n.AtLeastTwo] (h : n < 2 ^ 53) :
    M.fl (-(OfNat.ofNat n : ℚ)) = -(OfNat.ofNat n : ℚ) :=
  M.fl_of_isDouble (isDouble_neg (by simpa using isDouble_natCast n h))

theorem Libm.fl_neg_one (M : Libm) : M.fl (-1) = -1 :=
  M.fl_of_isDouble (isDouble_neg (by simpa using isDouble_natCast 1 (by norm_num)))

theorem convertsExactly_ofNat (n : ℕ) [n.AtLeastTwo] (h : n < 2 ^ 53) :
    convertsExactly (OfNat.ofNat n : ℚ) = true :=
  convertsExactly_of_one_le (by simpa using isDouble_natCast n h) (by
    have h2 : (2 : ℚ) ≤ (n : ℚ) := by exact_mod_cast (Nat.AtLeastTwo.prop : 2 ≤ n)
    have h3 : ((OfNat.ofNat n : ℚ)) = (n : ℚ) := Nat.cast_eq_ofNat.symm
    rw [h3]; linarith)

theorem convertsExactly_one : convertsExactly 1 = true :=
  convertsExactly_of_one_le (by simpa using isDouble_natCast 1 (by norm_num)) le_rfl

/-- `std::stod` returns the number its argument denotes when that is converted exactly. -/
theorem stod_exact (M : Libm) {s : String} {x : ℚ} (h : decimal s = some x)
    (hx : convertsExactly x = true) : stod M s = Outcome.value x := by
  rw [stod_of_decimal M h, M.convert_of_exact hx]

theorem SplitLine.collect_length (digit : Bool) (rest : List Char) :
    ∀ buff, (SplitLine.collect digit buff rest).2.length ≤ rest.length := by
  induction rest with
  | nil => intro buff; simp [SplitLine.collect]
  | cons c cs ih =>
    intro buff
    unfold SplitLine.collect
    split
    · split
      · exact Nat.le_succ_of_le (ih _)
      · exact Nat.le_refl _
    · split
      · exact Nat.le_succ_of_le (ih _)
      · exact Nat.le_refl _

/-- When the first character starts a run, the run is not empty: the rest is shorter. -/
theorem SplitLine.collect_first (curr : Char) (rest : List Char)
    (h : (foundChar DIGITS curr || foundChar LETTERS curr) = true) :
    SplitLine.collect (foundChar DIGITS curr) [] (curr :: rest)
      = SplitLine.collect (foundChar DIGITS curr) [curr] rest := by
  cases hd : foundChar DIGITS curr with
  | true => simp [SplitLine.collect, hd]
  | false =>
    have hl : foundChar LETTERS curr = true := by simpa [hd] using h
    simp [SplitLine.collect, hl]

theorem SplitLine.loop_fuel : ∀ (f1 f2 : Nat) (rest : List Char) (res : List String),
    rest.length ≤ f1 → rest.length ≤ f2 →
    SplitLine.loop f1 rest res = SplitLine.loop f2 rest res := by
  intro f1
  induction f1 with
  | zero =>
    intro f2 rest res h1 _
    have : rest = [] := List.length_eq_zero.mp (Nat.le_zero.mp h1)
    subst this
    simp [SplitLine.loop]
  | succ n ih =>
    intro f2 rest res h1 h2
    cases rest with
    | nil => simp [SplitLine.loop]
    | cons c cs =>
      cases f2 with
      | zero => simp at h2
      | succ m =>
        have hn : cs.length ≤ n := by simpa using h1
        have hm : cs.length ≤ m := by simpa using h2
        simp only [SplitLine.loop]
        split
        · rename_i hrun
          rw [SplitLine.collect_first c cs hrun]
          have hl := SplitLine.collect_length (foundChar DIGITS c) cs [c]
          exact ih m _ _ (le_trans hl hn) (le_trans hl hm)
        · split
          · split
            · exact ih m _ _ hn hm
            · exact ih m _ _ hn hm
          · split
            · rfl
            · exact ih m _ _ hn hm

theorem SplitLine.scan_nil (res : List String) : SplitLine.scan [] res = Outcome.value res := by
  simp [SplitLine.scan, SplitLine.loop]

theorem SplitLine.scan_cons (curr : Char) (rest : List Char) (result : List String) :
    SplitLine.scan (curr :: rest) result =
      if foundChar DIGITS curr || foundChar LETTERS curr then
        SplitLine.scan (SplitLine.collect (foundChar DIGITS curr) [curr] rest).2
          (result ++ [String.mk (SplitLine.collect (foundChar DIGITS curr) [curr] rest).1])
      else if foundChar OPS curr then
        if curr = '-' ∧ result.getLast? = some "(" then
          SplitLine.scan rest (result ++ ["0"] ++ [String.mk [curr]])
        else SplitLine.scan rest (result ++ [String.mk [curr]])
      else if curr ≠ ' ' then
        ThrowError ("Incorrect input \x27" ++ String.mk [curr] ++ "\x27")
      else SplitLine.scan rest result := by
  simp only [SplitLine.scan, List.length_cons, SplitLine.loop]
  split
  · rename_i hrun
    rw [SplitLine.collect_first curr rest hrun]
    exact SplitLine.loop_fuel _ _ _ _ (SplitLine.collect_length _ _ _) (Nat.le_refl _)
  · rfl


theorem SplitLine.collect_eq (digit : Bool) (rest : List Char) :
    ∀ buff, SplitLine.collect digit buff rest
      = (buff ++ rest.takeWhile (runClass digit), rest.dropWhile (runClass digit)) := by
  induction rest with
  | nil => intro buff; simp [SplitLine.collect]
  | cons c cs ih =>
    intro buff
    cases digit with
    | true =>
      by_cases h : (foundChar DIGITS c || decide (c = '.')) = true
      · simp only [SplitLine.collect, if_true, h, ih]
        simp [runClass, h, List.takeWhile, List.dropWhile]
      · simp only [SplitLine.collect, if_true, h]
        simp [runClass, h, List.takeWhile, List.dropWhile]
    | false =>
      by_cases h : foundChar LETTERS c = true
      · simp only [SplitLine.collect, h, ih]
        simp [runClass, h, List.takeWhile, List.dropWhile]
      · simp only [SplitLine.collect, h]
        simp [runClass, h, List.takeWhile, List.dropWhile]

theorem SplitLine.scan_ne_outOfFuel (chars : List Char) (result : List String) :
    SplitLine.scan chars result ≠ Outcome.outOfFuel := by
  unfold SplitLine.scan
  generalize hn : chars.length = n
  have key : ∀ (f : Nat) (cs : List Char) (res : List String), cs.length ≤ f →
      SplitLine.loop f cs res ≠ Outcome.outOfFuel := by
    intro f
    induction f with
    | zero =>
      intro cs res h
      have : cs = [] := List.length_eq_zero.mp (Nat.le_zero.mp h)
      subst this
      simp [SplitLine.loop]
    | succ n ih =>
      intro cs res h
      cases cs with
      | nil => simp [SplitLine.loop]
      | cons c cs =>
        have hn : cs.length ≤ n := by simpa using h
        simp only [SplitLine.loop]
        split
        · rename_i hrun
          rw [SplitLine.collect_first c cs hrun]
          exact ih _ _ (le_trans (SplitLine.collect_length _ _ _) hn)
        · split
          · split
            · exact ih _ _ hn
            · exact ih _ _ hn
          · split
            · simp [ThrowError]
            · exact ih _ _ hn
  exact key n chars result (by omega)

/-! ## `SplitLine`: cutting a line between two tokens -/

theorem takeWhile_dropWhile_append_all {p : Char → Bool} {cs rest : List Char}
    (hall : ∀ x ∈ cs, p x = true) (hrest : ∀ b, rest.head? = some b → p b = false) :
    (cs ++ rest).takeWhile p = cs ∧ (cs ++ rest).dropWhile p = rest := by
  have h1 : rest.takeWhile p = [] ∧ rest.dropWhile p = rest := by
    cases rest with
    | nil => simp
    | cons b bs =>
      have := hrest b rfl
      simp [List.takeWhile, List.dropWhile, this]
  rw [List.takeWhile_append_of_pos hall, List.dropWhile_append_of_pos hall, h1.1, h1.2]
  simp

theorem takeWhile_dropWhile_append_not_all {p : Char → Bool} {cs : List Char} (rest : List Char)
    (hex : ∃ x ∈ cs, p x = false) :
    (cs ++ rest).takeWhile p = cs.takeWhile p
      ∧ (cs ++ rest).dropWhile p = cs.dropWhile p ++ rest
      ∧ (cs.dropWhile p).getLast? = cs.getLast?
      ∧ cs.dropWhile p ≠ [] := by
  induction cs with
  | nil => obtain ⟨x, hx, _⟩ := hex; cases hx
  | cons c cs ih =>
    by_cases hc : p c = true
    · have hex2 : ∃ x ∈ cs, p x = false := by
        obtain ⟨x, hx, hpx⟩ := hex
        rcases List.mem_cons.mp hx with rfl | hx
        · rw [hc] at hpx; cases hpx
        · exact ⟨x, hx, hpx⟩
      obtain ⟨i1, i2, i3, i4⟩ := ih hex2
      have hne : cs ≠ [] := by
        obtain ⟨x, hx, _⟩ := hex2
        exact List.ne_nil_of_mem hx
      obtain ⟨y, ys, rfl⟩ := List.exists_cons_of_ne_nil hne
      refine ⟨?_, ?_, ?_, ?_⟩
      · simp only [List.cons_append] at i1 ⊢
        rw [List.takeWhile_cons_of_pos hc, List.takeWhile_cons_of_pos hc, i1]
      · simp only [List.cons_append] at i2 ⊢
        rw [List.dropWhile_cons_of_pos hc, List.dropWhile_cons_of_pos hc, i2]
      · rw [List.dropWhile_cons_of_pos hc, i3, List.getLast?_cons_cons]
      · rw [List.dropWhile_cons_of_pos hc]; exact i4
    · simp only [List.cons_append]
      rw [List.takeWhile_cons_of_neg hc, List.takeWhile_cons_of_neg hc,
        List.dropWhile_cons_of_neg hc, List.dropWhile_cons_of_neg hc]
      simp

theorem runClass_first {curr : Char}
    (h : (foundChar DIGITS curr || foundChar LETTERS curr) = true) :
    runClass (foundChar DIGITS curr) curr = true := by
  cases hd : foundChar DIGITS curr with
  | true => simp [runClass, hd]
  | false => simpa [runClass, hd] using h

theorem Boundary.tail {c d : Char} {cs rest : List Char} (h : Boundary (c :: d :: cs) rest) :
    Boundary (d :: cs) rest := by
  intro a b ha hb
  exact h a b (by rw [List.getLast?_cons_cons]; exact ha) hb

theorem Boundary.of_getLast {pre pre2 rest : List Char} (h : Boundary pre rest)
    (hl : pre2.getLast? = pre.getLast?) : Boundary pre2 rest := by
  intro a b ha hb
  exact h a b (by rw [← hl]; exact ha) hb

/-- The loop of `SplitLine` on `before ++ after`, when no run crosses the cut, is the loop
on `before` followed by the loop on `after`. -/
theorem SplitLine.scan_append (after : List Char) :
    ∀ (n : Nat) (before : List Char) (result : List String), before.length ≤ n →
      Boundary before after →
      SplitLine.scan (before ++ after) result
        = (SplitLine.scan before result).andThen (SplitLine.scan after) := by
  intro n
  induction n with
  | zero =>
    intro before result hlen _
    have : before = [] := List.length_eq_zero.mp (Nat.le_zero.mp hlen)
    subst this
    simp [SplitLine.scan_nil]
  | succ n ih =>
    intro before result hlen hb
    cases before with
    | nil => simp [SplitLine.scan_nil]
    | cons c cs =>
      have hcs : cs.length ≤ n := by simpa using hlen
      have hbt : Boundary cs after := by
        cases cs with
        | nil => intro a b ha; cases ha
        | cons d ds => exact hb.tail
      rw [List.cons_append, SplitLine.scan_cons, SplitLine.scan_cons]
      by_cases hrun : (foundChar DIGITS c || foundChar LETTERS c) = true
      · simp only [hrun, if_true, SplitLine.collect_eq]
        have hcls := runClass_first hrun
        by_cases hall : ∀ x ∈ cs, runClass (foundChar DIGITS c) x = true
        · have hlast : ∃ a, (c :: cs).getLast? = some a ∧ runClass (foundChar DIGITS c) a = true := by
            cases hcs2 : cs.getLast? with
            | none =>
              have : cs = [] := List.getLast?_eq_none_iff.mp hcs2
              subst this
              exact ⟨c, rfl, hcls⟩
            | some a =>
              refine ⟨a, ?_, hall a (List.mem_of_getLast?_eq_some hcs2)⟩
              rw [List.getLast?_cons, hcs2]; rfl
          obtain ⟨a, ha, hacls⟩ := hlast
          have hrest : ∀ b, after.head? = some b → runClass (foundChar DIGITS c) b = false := by
            intro b hbh
            have := hb a b ha hbh
            cases hd : foundChar DIGITS c with
            | true =>
              rw [hd] at hacls
              cases hbc : runClass true b with
              | false => rfl
              | true => exact absurd ⟨hacls, hbc⟩ this.1
            | false =>
              rw [hd] at hacls
              cases hbc : runClass false b with
              | false => rfl
              | true => exact absurd ⟨hacls, hbc⟩ this.2
          obtain ⟨e1, e2⟩ := takeWhile_dropWhile_append_all hall hrest
          have e3 : cs.takeWhile (runClass (foundChar DIGITS c)) = cs :=
            List.takeWhile_eq_self_iff.mpr hall
          have e4 : cs.dropWhile (runClass (foundChar DIGITS c)) = [] :=
            List.dropWhile_eq_nil_iff.mpr hall
          simp only [e1, e2, e3, e4, SplitLine.scan_nil, Outcome.andThen_value]
        · have hex : ∃ x ∈ cs, runClass (foundChar DIGITS c) x = false := by
            by_contra hne
            apply hall
            intro x hx
            cases hxc : runClass (foundChar DIGITS c) x with
            | true => rfl
            | false => exact absurd ⟨x, hx, hxc⟩ hne
          obtain ⟨e1, e2, e3, e4⟩ := takeWhile_dropWhile_append_not_all after hex
          simp only [e1, e2]
          apply ih
          · exact le_trans (List.dropWhile_suffix _).length_le hcs
          · exact hbt.of_getLast e3
      · simp only [hrun, Bool.false_eq_true, if_false]
        by_cases hop : foundChar OPS c = true
        · simp only [hop, if_true]
          split
          · exact ih _ _ hcs hbt
          · exact ih _ _ hcs hbt
        · simp only [hop, Bool.false_eq_true, if_false]
          split
          · rfl
          · exact ih _ _ hcs hbt

/-- The loop of `SplitLine` only appends to `result`. -/
theorem SplitLine.scan_grows :
    ∀ (n : Nat) (chars : List Char) (result final : List String), chars.length ≤ n →
      SplitLine.scan chars result = Outcome.value final → ∃ added, final = result ++ added := by
  intro n
  induction n with
  | zero =>
    intro chars result final hlen h
    have : chars = [] := List.length_eq_zero.mp (Nat.le_zero.mp hlen)
    subst this
    rw [SplitLine.scan_nil] at h
    cases h
    exact ⟨[], by simp⟩
  | succ n ih =>
    intro chars result final hlen h
    cases chars with
    | nil =>
      rw [SplitLine.scan_nil] at h
      cases h
      exact ⟨[], by simp⟩
    | cons c cs =>
      have hcs : cs.length ≤ n := by simpa using hlen
      rw [SplitLine.scan_cons] at h
      split at h
      · rw [SplitLine.collect_eq] at h
        obtain ⟨added, ha⟩ := ih _ _ _ (le_trans (List.dropWhile_suffix _).length_le hcs) h
        exact ⟨_, by rw [ha, List.append_assoc]⟩
      · split at h
        · split at h
          · obtain ⟨added, ha⟩ := ih _ _ _ hcs h
            exact ⟨_, by rw [ha, List.append_assoc, List.append_assoc]⟩
          · obtain ⟨added, ha⟩ := ih _ _ _ hcs h
            exact ⟨_, by rw [ha, List.append_assoc]⟩
        · split at h
          · simp [ThrowError] at h
          · exact ih _ _ _ hcs h

/-- The only error of `SplitLine` is `Incorrect input`, for a character that is not a digit,
a letter of `LETTERS`, an operator of `OPS` or a space. -/
theorem SplitLine.scan_exit :
    ∀ (n : Nat) (chars : List Char) (result : List String) (message : String),
      chars.length ≤ n → SplitLine.scan chars result = Outcome.exit message →
      ∃ c, c ∈ chars ∧ message = "Incorrect input \x27" ++ String.mk [c] ++ "\x27" := by
  intro n
  induction n with
  | zero =>
    intro chars result message hlen h
    have : chars = [] := List.length_eq_zero.mp (Nat.le_zero.mp hlen)
    subst this
    rw [SplitLine.scan_nil] at h
    cases h
  | succ n ih =>
    intro chars result message hlen h
    cases chars with
    | nil =>
      rw [SplitLine.scan_nil] at h
      cases h
    | cons c cs =>
      have hcs : cs.length ≤ n := by simpa using hlen
      rw [SplitLine.scan_cons] at h
      split at h
      · rw [SplitLine.collect_eq] at h
        obtain ⟨x, hx, hm⟩ := ih _ _ _ (le_trans (List.dropWhile_suffix _).length_le hcs) h
        exact ⟨x, List.mem_cons_of_mem _ ((List.dropWhile_suffix _).subset hx), hm⟩
      · split at h
        · split at h
          · obtain ⟨x, hx, hm⟩ := ih _ _ _ hcs h
            exact ⟨x, List.mem_cons_of_mem _ hx, hm⟩
          · obtain ⟨x, hx, hm⟩ := ih _ _ _ hcs h
            exact ⟨x, List.mem_cons_of_mem _ hx, hm⟩
        · split at h
          · simp only [ThrowError, Outcome.exit.injEq] at h
            exact ⟨c, List.mem_cons_self _ _, h.symm⟩
          · obtain ⟨x, hx, hm⟩ := ih _ _ _ hcs h
            exact ⟨x, List.mem_cons_of_mem _ hx, hm⟩

/-! ## `SplitLine`: runs -/

theorem letter_not_other {c : Char} (h : foundChar LETTERS c = true) :
    foundChar DIGITS c = false ∧ c ≠ '.' ∧ c ∉ OPS.data ∧ c ≠ ' ' := by
  rw [foundChar_iff] at h
  have key : ∀ x ∈ LETTERS.data,
      foundChar DIGITS x = false ∧ x ≠ '.' ∧ x ∉ OPS.data ∧ x ≠ ' ' := by decide
  exact key c h

theorem runClass_exclusive {a : Char} :
    (foundChar DIGITS a = true → runClass false a = false)
      ∧ (foundChar LETTERS a = true → runClass true a = false) := by
  constructor
  · intro h
    have := (digit_not_op h).2.2.1
    cases hl : foundChar LETTERS a with
    | false => simp [runClass, hl]
    | true => exact absurd ((foundChar_iff _ _).mp hl) this
  · intro h
    have := letter_not_other h
    simp [runClass, this.1, this.2.1]

/-- A maximal run at the head of the line becomes one token. -/
theorem SplitLine.scan_run (digit : Bool) (d : Char) (rest after : List Char)
    (result : List String)
    (hd : (if digit then foundChar DIGITS d else foundChar LETTERS d) = true)
    (hrest : ∀ c ∈ rest, runClass digit c = true)
    (hafter : ∀ c, after.head? = some c → runClass digit c = false) :
    SplitLine.scan (d :: rest ++ after) result
      = SplitLine.scan after (result ++ [String.mk (d :: rest)]) := by
  have hdig : foundChar DIGITS d = digit := by
    cases digit with
    | true => simpa using hd
    | false =>
      simp only [Bool.false_eq_true, if_false] at hd
      exact (letter_not_other hd).1
  have hguard : (foundChar DIGITS d || foundChar LETTERS d) = true := by
    cases digit with
    | true => simp only [if_true] at hd; simp [hd]
    | false => simp only [Bool.false_eq_true, if_false] at hd; simp [hd]
  rw [List.cons_append, SplitLine.scan_cons, if_pos hguard]
  simp only [SplitLine.collect_eq, hdig]
  obtain ⟨e1, e2⟩ := takeWhile_dropWhile_append_all hrest hafter
  rw [e1, e2]
  rfl

/-- A maximal run of the line is one of the tokens of `SplitLine`. -/
theorem SplitLine.run_mem (digit : Bool) (before run after : List Char)
    (hrun : MaximalRun digit before run after) (result : List String)
    (h : SplitLine (String.mk (before ++ run ++ after)) = Outcome.value result) :
    String.mk run ∈ result := by
  obtain ⟨⟨d, rest, rfl, hd, hrest⟩, hbefore, hafter⟩ := hrun
  have hdcls : runClass digit d = true := by
    cases digit with
    | true => simp only [if_true] at hd; simp [runClass, hd]
    | false => simp only [Bool.false_eq_true, if_false] at hd; simp [runClass, hd]
  have hb : Boundary before (d :: rest ++ after) := by
    intro a b ha hbh
    simp only [List.cons_append, List.head?_cons, Option.some.injEq] at hbh
    subst hbh
    have hna := hbefore a ha
    cases digit with
    | true =>
      simp only [if_true] at hd
      refine ⟨fun hh => ?_, fun hh => ?_⟩
      · rw [hna] at hh; cases hh.1
      · rw [runClass_exclusive.1 hd] at hh; cases hh.2
    | false =>
      simp only [Bool.false_eq_true, if_false] at hd
      refine ⟨fun hh => ?_, fun hh => ?_⟩
      · rw [runClass_exclusive.2 hd] at hh; cases hh.2
      · rw [hna] at hh; cases hh.1
  unfold SplitLine at h
  obtain ⟨r1, hscan, hr1⟩ := Outcome.andThen_eq_value h
  simp only [Outcome.value.injEq] at hr1
  rw [List.append_assoc, SplitLine.scan_append _ before.length before _ (Nat.le_refl _) hb]
    at hscan
  obtain ⟨r0, _, hscan2⟩ := Outcome.andThen_eq_value hscan
  rw [SplitLine.scan_run digit d rest after r0 hd hrest hafter] at hscan2
  obtain ⟨added, hadd⟩ := SplitLine.scan_grows after.length after _ r1 (Nat.le_refl _) hscan2
  rw [← hr1, hadd]
  simp

/-- `SplitLine` ends with no other error than `Incorrect input` of a character. -/
theorem SplitLine_exit (line : String) (message : String)
    (h : SplitLine line = Outcome.exit message) :
    ∃ c, c ∈ line.data ∧ message = "Incorrect input \x27" ++ String.mk [c] ++ "\x27" := by
  unfold SplitLine at h
  cases hs : SplitLine.scan line.data ["("] with
  | value r => rw [hs] at h; simp at h
  | exit m =>
    rw [hs] at h
    simp only [Outcome.andThen, Outcome.exit.injEq] at h
    subst h
    exact SplitLine.scan_exit _ _ _ _ (Nat.le_refl _) hs
  | undefined => rw [hs] at h; simp [Outcome.andThen] at h
  | uncaught m => rw [hs] at h; simp [Outcome.andThen] at h
  | outOfFuel => rw [hs] at h; simp [Outcome.andThen] at h

/-! ## `SplitLine`: reading back a token sequence from its text -/

theorem op_not_other {c : Char} (h : foundChar OPS c = true) :
    foundChar DIGITS c = false ∧ foundChar LETTERS c = false ∧ c ≠ '.' ∧ c ≠ ' ' := by
  rw [foundChar_iff] at h
  have key : ∀ x ∈ OPS.data,
      foundChar DIGITS x = false ∧ foundChar LETTERS x = false ∧ x ≠ '.' ∧ x ≠ ' ' := by
    decide
  exact key c h

theorem SplitLine.scan_spaces (n : Nat) (chars : List Char) (result : List String) :
    SplitLine.scan (spaces n ++ chars) result = SplitLine.scan chars result := by
  induction n with
  | zero => rfl
  | succ n ih =>
    have : spaces (n + 1) ++ chars = ' ' :: (spaces n ++ chars) := rfl
    rw [this, SplitLine.scan_cons]
    simp only [show (foundChar DIGITS ' ' || foundChar LETTERS ' ') = false by decide,
      show foundChar OPS ' ' = false by decide, Bool.false_eq_true, if_false, ne_eq,
      not_true_eq_false]
    exact ih

theorem SplitLine.scan_op (c : Char) (chars : List Char) (result : List String)
    (hop : foundChar OPS c = true) (hzero : ¬ (c = '-' ∧ result.getLast? = some "(")) :
    SplitLine.scan (c :: chars) result = SplitLine.scan chars (result ++ [String.mk [c]]) := by
  have h := op_not_other hop
  rw [SplitLine.scan_cons]
  simp only [h.1, h.2.1, Bool.or_self, Bool.false_eq_true, if_false, hop, if_true, hzero]

theorem numberToken_data {t : String} (h : isNumberToken t = true) :
    ∃ d rest, t.data = d :: rest ∧ foundChar DIGITS d = true
      ∧ ∀ c ∈ rest, runClass true c = true := by
  unfold isNumberToken at h
  cases hs : t.data with
  | nil => simp [hs] at h
  | cons d rest =>
    simp only [hs, Bool.and_eq_true, List.all_eq_true] at h
    exact ⟨d, rest, rfl, h.1, h.2⟩

theorem wordToken_data {t : String} (h : isWordToken t = true) :
    ∃ d rest, t.data = d :: rest ∧ foundChar LETTERS d = true
      ∧ ∀ c ∈ rest, runClass false c = true := by
  unfold isWordToken at h
  cases hs : t.data with
  | nil => simp [hs] at h
  | cons d rest =>
    simp only [hs, Bool.and_eq_true, List.all_eq_true] at h
    exact ⟨d, rest, rfl, h.1, h.2⟩

/-- The first character of the text of a separated token sequence does not go on the run
of the token before it. -/
theorem layout_head (gaps : List Nat) (prev : String) (tokens : List String)
    (hsep : Separated prev tokens) (c : Char) (hc : (layout gaps tokens).head? = some c) :
    (isNumberToken prev = true → runClass true c = false)
      ∧ (isWordToken prev = true → runClass false c = false) := by
  cases hg : gaps.headD 0 with
  | succ k =>
    have : c = ' ' := by
      cases tokens with
      | nil =>
        simp only [layout, hg, spaces, List.replicate_succ, List.head?_cons,
          Option.some.injEq] at hc
        exact hc.symm
      | cons t rest =>
        simp only [layout, hg, spaces, List.replicate_succ, List.cons_append, List.head?_cons,
          Option.some.injEq] at hc
        exact hc.symm
    subst this
    exact ⟨fun _ => by decide, fun _ => by decide⟩
  | zero =>
    cases tokens with
    | nil =>
      have e : layout gaps [] = spaces (gaps.headD 0) := rfl
      rw [e, hg] at hc
      cases hc
    | cons t rest =>
      simp only [layout, hg, spaces, List.replicate_zero, List.nil_append] at hc
      obtain ⟨hkind, _⟩ := hsep
      rcases hkind with ⟨hnum, hprev⟩ | ⟨hword, hprev⟩ | ⟨x, rfl, hop, _⟩
      · obtain ⟨d, ds, hd, hdig, _⟩ := numberToken_data hnum
        rw [hd] at hc
        simp only [List.cons_append, List.head?_cons, Option.some.injEq] at hc
        subst hc
        refine ⟨fun h => ?_, fun _ => runClass_exclusive.1 hdig⟩
        rw [hprev] at h; cases h
      · obtain ⟨d, ds, hd, hlet, _⟩ := wordToken_data hword
        rw [hd] at hc
        simp only [List.cons_append, List.head?_cons, Option.some.injEq] at hc
        subst hc
        refine ⟨fun _ => runClass_exclusive.2 hlet, fun h => ?_⟩
        rw [hprev] at h; cases h
      · simp only [List.cons_append, List.head?_cons, Option.some.injEq] at hc
        subst hc
        have h := op_not_other hop
        exact ⟨fun _ => by simp [runClass, h.1, h.2.2.1], fun _ => by simp [runClass, h.2.1]⟩

/-- `SplitLine` reads a separated token sequence back from any of its texts. -/
theorem SplitLine.scan_layout (tokens : List String) :
    ∀ (gaps : List Nat) (result : List String) (prev : String),
      result.getLast? = some prev → Separated prev tokens →
      SplitLine.scan (layout gaps tokens) result = Outcome.value (result ++ tokens) := by
  induction tokens with
  | nil =>
    intro gaps result prev _ _
    have := SplitLine.scan_spaces (gaps.headD 0) [] result
    rw [List.append_nil] at this
    simp only [layout, this, SplitLine.scan_nil, List.append_nil]
  | cons t rest ih =>
    intro gaps result prev hprev hsep
    have hnext := ih gaps.tail (result ++ [t]) t (by simp) hsep.2
    have hhead := layout_head gaps.tail t rest hsep.2
    simp only [layout, SplitLine.scan_spaces]
    rcases hsep.1 with ⟨hnum, _⟩ | ⟨hword, _⟩ | ⟨x, rfl, hop, hz⟩
    · obtain ⟨d, ds, hd, hdig, hds⟩ := numberToken_data hnum
      have ht : String.mk (d :: ds) = t := by rw [← hd]
      rw [hd, SplitLine.scan_run true d ds _ result (by simpa using hdig) hds
        (fun c hc => (hhead c hc).1 hnum), ht, hnext]
      simp
    · obtain ⟨d, ds, hd, hlet, hds⟩ := wordToken_data hword
      have ht : String.mk (d :: ds) = t := by rw [← hd]
      rw [hd, SplitLine.scan_run false d ds _ result (by simpa using hlet) hds
        (fun c hc => (hhead c hc).2 hword), ht, hnext]
      simp
    · have hz2 : ¬ (x = '-' ∧ result.getLast? = some "(") := by
        rintro ⟨h1, h2⟩
        apply hz
        refine ⟨h1, ?_⟩
        rw [hprev] at h2
        exact Option.some.inj h2
      have : (String.mk [x]).data ++ layout gaps.tail rest = x :: layout gaps.tail rest := rfl
      rw [this, SplitLine.scan_op x _ result hop hz2, hnext]
      simp

theorem SplitLine_layout (tokens : List String) (gaps : List Nat)
    (hsep : Separated "(" tokens) :
    SplitLine (String.mk (layout gaps tokens)) = Outcome.value ("(" :: tokens ++ [")"]) := by
  unfold SplitLine
  rw [SplitLine.scan_layout tokens gaps ["("] "(" rfl hsep]
  rfl

/-! ## `ParseExpression`: operands -/

theorem operand_of_numberToken {s : String} (h : isNumberToken s = true) :
    isOperand s = true := by
  have := numberToken_operand h
  simp [isOperand, this.1, this.2]

theorem ParseExpression.step_operand {curr : String} (st : List String × List String)
    (h : isOperand curr = true) :
    ParseExpression.step st curr = (st.1, curr :: st.2) := by
  simp only [isOperand, Bool.and_eq_true, Bool.not_eq_true'] at h
  simp [ParseExpression.step, h.1, h.2]

theorem ParseExpression.moveAll_eq (source target : List String) :
    ParseExpression.moveAll source target = source.reverse ++ target := by
  induction source generalizing target with
  | nil => rfl
  | cons a as ih => simp [ParseExpression.moveAll, ih]

/-- `ParseExpression` in terms of the final state of its `for` loop: the output is
`main_stack` read from its bottom, followed by what is left of `op_stack`, top first. -/
theorem ParseExpression_eq (items : List String) :
    ParseExpression items
      = (items.foldl ParseExpression.step ([], [])).2.reverse
        ++ (items.foldl ParseExpression.step ([], [])).1 := by
  simp [ParseExpression, ParseExpression.moveAll_eq]

/-! ## `ParseExpression`: `main_stack` only grows -/

theorem ParseExpression.closeParen_mem (t : String) (op_stack : List String) :
    ∀ main_stack, t ∈ main_stack → t ∈ (ParseExpression.closeParen op_stack main_stack).2 := by
  induction op_stack with
  | nil => intro main_stack h; exact h
  | cons tmp rest ih =>
    intro main_stack h
    unfold ParseExpression.closeParen
    split
    · exact h
    · exact ih _ (List.mem_cons_of_mem _ h)

theorem ParseExpression.popOps_mem (curr t : String) (op_stack : List String) :
    ∀ main_stack, t ∈ main_stack → t ∈ (ParseExpression.popOps curr op_stack main_stack).2 := by
  induction op_stack with
  | nil => intro main_stack h; exact h
  | cons tmp rest ih =>
    intro main_stack h
    unfold ParseExpression.popOps
    split
    · exact ih _ (List.mem_cons_of_mem _ h)
    · exact h

theorem ParseExpression.step_mem (t curr : String) (st : List String × List String)
    (h : t ∈ st.2) : t ∈ (ParseExpression.step st curr).2 := by
  unfold ParseExpression.step
  split
  · split
    · exact ParseExpression.closeParen_mem t _ _ h
    · split
      · exact h
      · split
        · split
          · exact h
          · exact ParseExpression.popOps_mem curr t _ _ h
        · exact h
  · exact List.mem_cons_of_mem _ h

theorem ParseExpression.foldl_mem (t : String) (items : List String) :
    ∀ st : List String × List String, (t ∈ st.2 ∨ (t ∈ items ∧ isOperand t = true)) →
      t ∈ (items.foldl ParseExpression.step st).2 := by
  induction items with
  | nil =>
    intro st h
    rcases h with h | ⟨h, _⟩
    · exact h
    · cases h
  | cons curr rest ih =>
    intro st h
    simp only [List.foldl]
    apply ih
    rcases h with h | ⟨h, hop⟩
    · exact Or.inl (ParseExpression.step_mem t curr st h)
    · rcases List.mem_cons.mp h with rfl | h
      · left
        rw [ParseExpression.step_operand st hop]
        exact List.mem_cons_self _ _
      · exact Or.inr ⟨h, hop⟩

/-- Every operand of the input is a token of the output of `ParseExpression`. -/
theorem ParseExpression.operand_mem {t : String} {items : List String} (h : t ∈ items)
    (hop : isOperand t = true) : t ∈ ParseExpression items := by
  rw [ParseExpression_eq]
  apply List.mem_append_left
  rw [List.mem_reverse]
  exact ParseExpression.foldl_mem t items _ (Or.inr ⟨h, hop⟩)

/-! ## `EvaluateExpression`: the loop -/

theorem EvaluateExpression.loop_cons (M : Libm) (curr : String) (rest : List String)
    (st : List ℚ) :
    EvaluateExpression.loop M (curr :: rest) st
      = (EvaluateExpression.step M curr st).andThen (EvaluateExpression.loop M rest) := by
  rw [EvaluateExpression.loop]

theorem EvaluateExpression.loop_nil (M : Libm) (st : List ℚ) :
    EvaluateExpression.loop M [] st = Outcome.value st := by
  rw [EvaluateExpression.loop]

theorem EvaluateExpression.loop_append (M : Libm) (xs ys : List String) :
    ∀ st, EvaluateExpression.loop M (xs ++ ys) st
      = (EvaluateExpression.loop M xs st).andThen (EvaluateExpression.loop M ys) := by
  induction xs with
  | nil => intro st; rfl
  | cons x xs ih =>
    intro st
    simp only [List.cons_append, EvaluateExpression.loop]
    cases hstep : EvaluateExpression.step M x st with
    | value next => simp [ih]
    | exit m => rfl
    | undefined => rfl
    | uncaught m => rfl
    | outOfFuel => rfl

/-- An operand that is neither `pi` nor `e` and passes `IsNumber` is converted by
`std::stod` and the result is pushed. -/
theorem EvaluateExpression.step_stod (M : Libm) {s : String} (st : List ℚ)
    (hop : isOperand s = true) (hpi : s ≠ "pi") (he : s ≠ "e") (hnum : IsNumber s = true) :
    EvaluateExpression.step M s st
      = (stod M s).andThen fun v => Outcome.value (v :: st) := by
  simp only [isOperand, Bool.and_eq_true, Bool.not_eq_true'] at hop
  simp [EvaluateExpression.step, hop.1, hop.2, hpi, he, hnum]

/-- An operand that is neither `pi` nor `e`, passes `IsNumber` and denotes a number that is
converted exactly is pushed with its decimal value. -/
theorem EvaluateExpression.step_number (M : Libm) {s : String} {v : ℚ} (st : List ℚ)
    (hop : isOperand s = true) (hpi : s ≠ "pi") (he : s ≠ "e")
    (hnum : IsNumber s = true) (hv : decimal s = some v) (hexact : convertsExactly v = true) :
    EvaluateExpression.step M s st = Outcome.value (v :: st) := by
  rw [EvaluateExpression.step_stod M st hop hpi he hnum, stod_of_decimal M hv,
    M.convert_of_exact hexact]
  rfl

/-- An operand that is neither `pi` nor `e` and does not pass `IsNumber` ends the
evaluation with `Invalid value`. -/
theorem EvaluateExpression.step_invalid (M : Libm) {s : String} (st : List ℚ)
    (hop : isOperand s = true) (hpi : s ≠ "pi") (he : s ≠ "e")
    (hnum : IsNumber s = false) :
    EvaluateExpression.step M s st = Outcome.exit ("Invalid value \x27" ++ s ++ "\x27") := by
  simp only [isOperand, Bool.and_eq_true, Bool.not_eq_true'] at hop
  simp [EvaluateExpression.step, hop.1, hop.2, hpi, he, hnum, ThrowError]

theorem EvaluateExpression.step_div (M : Libm) (first second : ℚ) (rest : List ℚ) :
    EvaluateExpression.step M "/" (second :: first :: rest)
      = if second ≠ 0 then Outcome.value (M.fl (first / second) :: rest)
        else Outcome.exit "Division by zero" := rfl

/-! ## `EvaluateExpression`: a token that is never accepted -/

theorem EvaluateExpression.loop_rejects (M : Libm) (t : String)
    (hrej : ∀ st next, EvaluateExpression.step M t st ≠ Outcome.value next)
    (rpn : List String) (ht : t ∈ rpn) :
    ∀ st final, EvaluateExpression.loop M rpn st ≠ Outcome.value final := by
  induction rpn with
  | nil => cases ht
  | cons curr rest ih =>
    intro st final h
    simp only [EvaluateExpression.loop] at h
    obtain ⟨next, hstep, hrest⟩ := Outcome.andThen_eq_value h
    rcases List.mem_cons.mp ht with rfl | ht
    · exact hrej st next hstep
    · exact ih ht next final hrest

theorem EvaluateExpression_rejects (M : Libm) (t : String)
    (hrej : ∀ st next, EvaluateExpression.step M t st ≠ Outcome.value next)
    (rpn : List String) (ht : t ∈ rpn) (v : ℚ) :
    EvaluateExpression M rpn ≠ Outcome.value v := by
  intro h
  unfold EvaluateExpression at h
  obtain ⟨st, hloop, _⟩ := Outcome.andThen_eq_value h
  exact EvaluateExpression.loop_rejects M t hrej rpn ht [] st hloop

/-- The pipeline returns no value for a line one of whose tokens is an operand that
`EvaluateExpression` never accepts. -/
theorem calculate_rejects (M : Libm) (line : String) (t : String)
    (hmem : ∀ result, SplitLine line = Outcome.value result → t ∈ result)
    (hop : isOperand t = true)
    (hrej : ∀ st next, EvaluateExpression.step M t st ≠ Outcome.value next) (v : ℚ) :
    calculate M line ≠ Outcome.value v := by
  intro h
  unfold calculate at h
  obtain ⟨result, hs, he⟩ := Outcome.andThen_eq_value h
  exact EvaluateExpression_rejects M t hrej _
    (ParseExpression.operand_mem (hmem result hs) hop) v he

/-! ## `IsNumber` -/

theorem IsNumber.loop_flag_false (cs : List Char) :
    ∀ n, (IsNumber.loop cs n false).2 = false := by
  induction cs with
  | nil => intro n; rfl
  | cons c cs ih =>
    intro n
    unfold IsNumber.loop
    split
    · split
      · exact ih _
      · exact ih _
    · exact ih _

theorem IsNumber.loop_other (cs : List Char)
    (h : ∃ c ∈ cs, foundChar DIGITS c = false ∧ c ≠ '.') :
    ∀ n flag, (IsNumber.loop cs n flag).2 = false := by
  induction cs with
  | nil => obtain ⟨c, hc, _⟩ := h; cases hc
  | cons c cs ih =>
    intro n flag
    obtain ⟨x, hx, hxd, hxp⟩ := h
    unfold IsNumber.loop
    rcases List.mem_cons.mp hx with rfl | hx
    · simp only [hxd, Bool.not_false, if_true, hxp, if_false]
      exact IsNumber.loop_flag_false cs n
    · split
      · split
        · exact ih ⟨x, hx, hxd, hxp⟩ _ _
        · exact IsNumber.loop_flag_false cs n
      · exact ih ⟨x, hx, hxd, hxp⟩ _ _

theorem IsNumber.loop_dots (cs : List Char) :
    ∀ n flag, (IsNumber.loop cs n flag).1 = n + cs.count '.' := by
  induction cs with
  | nil => intro n flag; rfl
  | cons c cs ih =>
    intro n flag
    unfold IsNumber.loop
    by_cases hc : c = '.'
    · subst hc
      simp only [show foundChar DIGITS '.' = false by decide, Bool.not_false, if_true, ih]
      simp only [List.count_cons_self]
      omega
    · have hne : (c == '.') = false := by simpa using hc
      rw [List.count_cons, hne]
      simp only [hc, if_false, Bool.false_eq_true]
      split
      · rw [ih]; rfl
      · rw [ih]; rfl

theorem IsNumber_false_of_other {s : String}
    (h : ∃ c ∈ s.data, foundChar DIGITS c = false ∧ c ≠ '.') : IsNumber s = false := by
  unfold IsNumber
  simp only [IsNumber.loop_other s.data h]
  split <;> rfl

theorem IsNumber_false_of_dots {s : String} (h : 2 ≤ s.data.count '.') : IsNumber s = false := by
  unfold IsNumber
  simp only [IsNumber.loop_dots]
  rw [if_pos (by omega)]

theorem IsNumber.loop_flag_kept (cs : List Char) (h : ∀ c ∈ cs, runClass true c = true) :
    ∀ n flag, (IsNumber.loop cs n flag).2 = flag := by
  induction cs with
  | nil => intro n flag; rfl
  | cons c cs ih =>
    intro n flag
    have hc := h c (List.mem_cons_self _ _)
    have ih2 := ih (fun x hx => h x (List.mem_cons_of_mem _ hx))
    simp only [runClass, if_true, Bool.or_eq_true, decide_eq_true_eq] at hc
    unfold IsNumber.loop
    split
    · split
      · exact ih2 _ _
      · rename_i h1 h2
        rcases hc with hc | hc
        · simp [hc] at h1
        · exact absurd hc h2
    · exact ih2 _ _

theorem IsNumber_true_of_run {s : String} (h : ∀ c ∈ s.data, runClass true c = true)
    (hdots : s.data.count '.' ≤ 1) : IsNumber s = true := by
  unfold IsNumber
  simp only [IsNumber.loop_dots, IsNumber.loop_flag_kept s.data h]
  rw [if_neg (by omega)]

theorem numberToken_runClass {s : String} (h : isNumberToken s = true) :
    ∀ c ∈ s.data, runClass true c = true := by
  unfold isNumberToken at h
  cases hs : s.data with
  | nil => simp [hs] at h
  | cons d rest =>
    simp only [hs, Bool.and_eq_true, List.all_eq_true] at h
    intro c hc
    rcases List.mem_cons.mp hc with rfl | hc
    · simp [runClass, h.1]
    · exact h.2 c hc

theorem isNumberToken_of_run {d : Char} {rest : List Char} (hd : foundChar DIGITS d = true)
    (hrest : ∀ c ∈ rest, runClass true c = true) : isNumberToken (String.mk (d :: rest)) = true := by
  simp only [isNumberToken, hd, Bool.true_and, List.all_eq_true]
  exact hrest

theorem isOperand_of_word {d : Char} {rest : List Char} (hd : foundChar LETTERS d = true)
    (hfun : found FUNCTIONS (String.mk (d :: rest)) = false) :
    isOperand (String.mk (d :: rest)) = true := by
  have hops : found OPS (String.mk (d :: rest)) = false :=
    not_found_of_mem (c := d) (by simp) (letter_not_other hd).2.2.1
  simp [isOperand, hops, hfun]

theorem numberToken_ne_constant {s : String} (h : isNumberToken s = true) :
    s ≠ "pi" ∧ s ≠ "e" := by
  constructor <;> (rintro rfl; revert h; decide)

theorem numberToken_decimal {s : String} (h : isNumberToken s = true) :
    ∃ x, decimal s = some x := by
  unfold isNumberToken at h
  cases hs : s.data with
  | nil => simp [hs] at h
  | cons d rest =>
    simp only [hs, Bool.and_eq_true] at h
    have hd := (digit_not_op h.1).2.2.2.1
    unfold decimal
    simp only [hs]
    rw [List.takeWhile_cons_of_pos (by simpa using hd)]
    simp

/-- A number token with at most one dot is converted by `std::stod`: the result is pushed,
whatever the stack, or the evaluation ends with the exception `std::out_of_range`. -/
theorem EvaluateExpression.step_numberToken (M : Libm) {s : String}
    (h : isNumberToken s = true) (hnum : IsNumber s = true) :
    (∃ v, stod M s = Outcome.value v
        ∧ ∀ st, EvaluateExpression.step M s st = Outcome.value (v :: st))
      ∨ (stod M s = Outcome.uncaught "std::out_of_range"
        ∧ ∀ st, EvaluateExpression.step M s st = Outcome.uncaught "std::out_of_range") := by
  obtain ⟨x, hx⟩ := numberToken_decimal h
  have hne := numberToken_ne_constant h
  have hstep := fun st =>
    EvaluateExpression.step_stod M st (operand_of_numberToken h) hne.1 hne.2 hnum
  rcases M.convert_cases x with ⟨v, hv⟩ | hv
  · refine Or.inl ⟨v, by rw [stod_of_decimal M hx, hv], fun st => ?_⟩
    rw [hstep st, stod_of_decimal M hx, hv]
    rfl
  · refine Or.inr ⟨by rw [stod_of_decimal M hx, hv], fun st => ?_⟩
    rw [hstep st, stod_of_decimal M hx, hv]
    rfl

/-! ## Number literals -/

theorem digitChar_spec (d : Fin 10) :
    foundChar DIGITS (digitChar d) = true ∧ (digitChar d).toNat - 48 = d.val
      ∧ digitChar d ≠ '.' := by
  revert d
  decide

theorem digitChars_runClass (ds : List (Fin 10)) :
    ∀ c ∈ ds.map digitChar, runClass true c = true := by
  intro c hc
  obtain ⟨d, _, rfl⟩ := List.mem_map.mp hc
  simp [runClass, (digitChar_spec d).1]

theorem NumLit.text_data (n : NumLit) :
    n.text.data = digitChar n.first :: (n.more.map digitChar
      ++ match n.fraction with
         | none => []
         | some f => '.' :: f.map digitChar) := by
  cases n with
  | mk first more fraction => cases fraction <;> rfl

theorem NumLit.text_runClass (n : NumLit) : ∀ c ∈ n.text.data, runClass true c = true := by
  intro c hc
  rw [NumLit.text_data] at hc
  rcases List.mem_cons.mp hc with rfl | hc
  · simp [runClass, (digitChar_spec n.first).1]
  · rcases List.mem_append.mp hc with hc | hc
    · exact digitChars_runClass _ c hc
    · cases hf : n.fraction with
      | none => simp [hf] at hc
      | some f =>
        simp only [hf] at hc
        rcases List.mem_cons.mp hc with rfl | hc
        · decide
        · exact digitChars_runClass _ c hc

theorem NumLit.isNumberToken_text (n : NumLit) : isNumberToken n.text = true := by
  have h := NumLit.text_runClass n
  rw [NumLit.text_data] at h
  simp only [isNumberToken, NumLit.text_data, (digitChar_spec n.first).1, Bool.true_and,
    List.all_eq_true]
  exact fun c hc => h c (List.mem_cons_of_mem _ hc)

theorem count_dot_digitChars (ds : List (Fin 10)) : (ds.map digitChar).count '.' = 0 := by
  apply List.count_eq_zero_of_not_mem
  intro h
  obtain ⟨d, _, hd⟩ := List.mem_map.mp h
  exact (digitChar_spec d).2.2 hd

theorem NumLit.IsNumber_text (n : NumLit) : IsNumber n.text = true := by
  apply IsNumber_true_of_run (NumLit.text_runClass n)
  rw [NumLit.text_data]
  have h1 : (digitChar n.first == '.') = false := by
    simpa using (digitChar_spec n.first).2.2
  rw [List.count_cons, h1, List.count_append, count_dot_digitChars]
  cases n.fraction with
  | none => simp
  | some f => simp [count_dot_digitChars]

theorem decimalValue_foldl (ds : List (Fin 10)) :
    ∀ acc : Nat, (ds.map digitChar).foldl (fun acc c => 10 * acc + (c.toNat - 48)) acc
      = acc * 10 ^ ds.length + digitsValue ds := by
  induction ds with
  | nil => intro acc; simp [digitsValue]
  | cons d ds ih =>
    intro acc
    simp only [List.map_cons, List.foldl_cons, ih, (digitChar_spec d).2.1, List.length_cons]
    simp only [digitsValue, List.reverse_cons, List.map_append, List.map_cons, List.map_nil,
      Nat.ofDigits_append, Nat.ofDigits_singleton, List.length_map, List.length_reverse]
    ring

theorem decimalValue_digits (ds : List (Fin 10)) :
    decimalValue (ds.map digitChar) = digitsValue ds := by
  unfold decimalValue
  rw [decimalValue_foldl]
  simp

theorem decimalValue_append (as bs : List (Fin 10)) :
    decimalValue (as.map digitChar ++ bs.map digitChar)
      = digitsValue as * 10 ^ bs.length + digitsValue bs := by
  unfold decimalValue
  rw [List.foldl_append, decimalValue_foldl, decimalValue_foldl]
  simp

theorem NumLit.decimal_text (n : NumLit) : decimal n.text = some n.value := by
  cases n with
  | mk first more fraction =>
    have hall : ∀ x ∈ (first :: more).map digitChar, (fun c => decide (c ≠ '.')) x = true := by
      intro x hx
      obtain ⟨d, _, rfl⟩ := List.mem_map.mp hx
      simpa using (digitChar_spec d).2.2
    cases fraction with
    | none =>
      have hd : (NumLit.mk first more none).text.data = (first :: more).map digitChar ++ [] := by
        simp [NumLit.text]
      obtain ⟨e1, e2⟩ := @takeWhile_dropWhile_append_all _ _ [] hall
        (fun b hb => by cases hb)
      unfold decimal
      simp only [hd, e1, e2]
      simp only [List.drop_nil, List.length_nil, Nat.add_zero, List.length_map,
        List.length_cons, Nat.add_one_ne_zero, if_false, List.append_nil, pow_zero, div_one,
        decimalValue_digits, NumLit.value, add_zero]
    | some f =>
      have hd : (NumLit.mk first more (some f)).text.data
          = (first :: more).map digitChar ++ '.' :: f.map digitChar := by
        simp [NumLit.text]
      obtain ⟨e1, e2⟩ := @takeWhile_dropWhile_append_all _ _ ('.' :: f.map digitChar) hall
        (fun b hb => by
          simp only [List.head?_cons, Option.some.injEq] at hb
          subst hb
          rfl)
      unfold decimal
      simp only [hd, e1, e2]
      simp only [List.drop_succ_cons, List.drop_zero, List.length_map, List.length_cons,
        decimalValue_append, NumLit.value]
      rw [if_neg (by omega)]
      congr 1
      have h10 : ((10 : ℚ) ^ f.length) ≠ 0 := pow_ne_zero _ (by norm_num)
      push_cast
      field_simp

/-! ## `ParseExpression` on the tokens of a well-formed expression -/

theorem BinOp.symbol_spec (op : BinOp) :
    found OPS op.symbol = true ∧ op.symbol ≠ "(" ∧ op.symbol ≠ ")"
      ∧ pr_ops op.symbol = (op.rank : Int) := by
  cases op <;> decide

theorem Expr.pending_rank (e : Expr) (hwf : e.grammatical = true) :
    ∀ t ∈ e.pending, (e.level : Int) ≤ pr_ops t ∧ t ≠ "(" := by
  induction e with
  | number lit => intro t ht; cases ht
  | paren inner _ => intro t ht; cases ht
  | binary left op right _ ihr =>
    intro t ht
    simp only [Expr.grammatical, Bool.and_eq_true, decide_eq_true_eq] at hwf
    simp only [Expr.pending, List.mem_append, List.mem_singleton] at ht
    rcases ht with ht | rfl
    · have := ihr hwf.1.1.2 t ht
      refine ⟨?_, this.2⟩
      simp only [Expr.level]
      have h2 : (op.rank : Int) < (right.level : Int) := by exact_mod_cast hwf.2
      omega
    · have := BinOp.symbol_spec op
      exact ⟨by simp [Expr.level, this.2.2.2], this.2.1⟩

theorem Expr.emitted_pending (e : Expr) : e.emitted ++ e.pending = e.rpn := by
  induction e with
  | number lit => rfl
  | paren inner _ => simp [Expr.emitted, Expr.pending, Expr.rpn]
  | binary left op right _ ihr =>
    simp only [Expr.emitted, Expr.pending, Expr.rpn]
    rw [← ihr]
    simp

/-- The loop that pops for an operator moves the operators `popped`, whose rank is not
below that of `curr`, and stops at `below`, which is empty or has a top of lower rank. -/
theorem ParseExpression.popOps_run (curr : String) (popped : List String) :
    ∀ (below main_stack : List String),
      (∀ t ∈ popped, pr_ops curr ≤ pr_ops t) →
      (∀ s, below.head? = some s → pr_ops s < pr_ops curr) →
      ParseExpression.popOps curr (popped ++ below) main_stack
        = (below, popped.reverse ++ main_stack) := by
  induction popped with
  | nil =>
    intro below main_stack _ hbelow
    cases below with
    | nil => rfl
    | cons s rest =>
      have := hbelow s rfl
      simp only [List.nil_append, ParseExpression.popOps, List.reverse_nil]
      rw [if_neg (by omega)]
  | cons p ps ih =>
    intro below main_stack hp hbelow
    have h1 := hp p (List.mem_cons_self _ _)
    have hrec := ih below (p :: main_stack) (fun t ht => hp t (List.mem_cons_of_mem _ ht)) hbelow
    rw [List.cons_append]
    simp only [ParseExpression.popOps, h1, if_true]
    rw [hrec]
    simp

/-- The iteration of `ParseExpression` for an operator `curr`. -/
theorem ParseExpression.step_operator (curr : String) (popped below main_stack : List String)
    (hfound : found OPS curr = true) (hopen : curr ≠ "(") (hclose : curr ≠ ")")
    (hp : ∀ t ∈ popped, pr_ops curr ≤ pr_ops t)
    (hbelow : ∀ s, below.head? = some s → pr_ops s < pr_ops curr) :
    ParseExpression.step (popped ++ below, main_stack) curr
      = (curr :: below, popped.reverse ++ main_stack) := by
  unfold ParseExpression.step
  simp only [hfound, Bool.true_or, if_true, hopen, hclose, if_false]
  cases hst : popped ++ below with
  | nil =>
    have h1 : popped = [] := (List.append_eq_nil.mp hst).1
    have h2 : below = [] := (List.append_eq_nil.mp hst).2
    subst h1 h2
    rfl
  | cons prev rest =>
    simp only
    by_cases hgt : pr_ops curr > pr_ops prev
    · rw [if_pos hgt]
      cases popped with
      | nil =>
        simp only [List.nil_append] at hst
        rw [hst]
        rfl
      | cons p ps =>
        simp only [List.cons_append, List.cons.injEq] at hst
        have := hp p (List.mem_cons_self _ _)
        rw [hst.1] at this
        omega
    · rw [if_neg hgt, ← hst, ParseExpression.popOps_run curr popped below main_stack hp hbelow]

theorem ParseExpression.closeParen_run (popped : List String) :
    ∀ (below main_stack : List String), (∀ t ∈ popped, t ≠ "(") →
      ParseExpression.closeParen (popped ++ "(" :: below) main_stack
        = (below, popped.reverse ++ main_stack) := by
  induction popped with
  | nil => intro below main_stack _; rfl
  | cons p ps ih =>
    intro below main_stack hp
    have h1 := hp p (List.mem_cons_self _ _)
    have hrec := ih below (p :: main_stack) (fun t ht => hp t (List.mem_cons_of_mem _ ht))
    rw [List.cons_append]
    simp only [ParseExpression.closeParen, h1, if_false]
    rw [hrec]
    simp

theorem ParseExpression.step_close (popped below main_stack : List String)
    (hp : ∀ t ∈ popped, t ≠ "(") :
    ParseExpression.step (popped ++ "(" :: below, main_stack) ")"
      = (below, popped.reverse ++ main_stack) := by
  have : ParseExpression.step (popped ++ "(" :: below, main_stack) ")"
      = ParseExpression.closeParen (popped ++ "(" :: below) main_stack := rfl
  rw [this, ParseExpression.closeParen_run popped below main_stack hp]

theorem ParseExpression.step_open (op_stack main_stack : List String) :
    ParseExpression.step (op_stack, main_stack) "(" = ("(" :: op_stack, main_stack) := rfl

/-- The state of `ParseExpression` after the tokens of a well-formed expression, read when
`op_stack` is empty or has a top of a rank below the level of the expression. -/
theorem ParseExpression.foldl_expr (e : Expr) (hwf : e.grammatical = true) :
    ∀ (op_stack main_stack : List String),
      (∀ s, op_stack.head? = some s → pr_ops s < (e.level : Int)) →
      e.tokens.foldl ParseExpression.step (op_stack, main_stack)
        = (e.pending ++ op_stack, e.emitted.reverse ++ main_stack) := by
  induction e with
  | number lit =>
    intro op_stack main_stack _
    simp only [Expr.tokens, List.foldl, Expr.pending, Expr.emitted, List.nil_append,
      List.reverse_cons, List.reverse_nil, List.singleton_append]
    rw [ParseExpression.step_operand _ (operand_of_numberToken (NumLit.isNumberToken_text lit))]
  | paren inner ih =>
    intro op_stack main_stack _
    simp only [Expr.grammatical] at hwf
    have hin := ih hwf ("(" :: op_stack) main_stack (by
      intro s hs
      simp only [List.head?_cons, Option.some.injEq] at hs
      subst hs
      have : pr_ops "(" = -1 := by decide
      rw [this]
      omega)
    simp only [Expr.tokens, List.foldl_cons, List.foldl_append, List.foldl_nil,
      ParseExpression.step_open, hin]
    rw [ParseExpression.step_close _ _ _ (fun t ht => (Expr.pending_rank inner hwf t ht).2)]
    simp only [Expr.pending, Expr.emitted, List.nil_append, ← Expr.emitted_pending inner,
      List.reverse_append, List.append_assoc]
  | binary left op right ihl ihr =>
    intro op_stack main_stack hbelow
    simp only [Expr.grammatical, Bool.and_eq_true, decide_eq_true_eq] at hwf
    obtain ⟨⟨⟨hwl, hwr⟩, hl⟩, hr⟩ := hwf
    have hsym := BinOp.symbol_spec op
    simp only [Expr.level] at hbelow
    have h1 := ihl hwl op_stack main_stack (by
      intro s hs
      have := hbelow s hs
      have h2 : (op.rank : Int) ≤ (left.level : Int) := by exact_mod_cast hl
      omega)
    have h2 := ParseExpression.step_operator op.symbol left.pending op_stack
      (left.emitted.reverse ++ main_stack) hsym.1 hsym.2.1 hsym.2.2.1
      (by
        intro t ht
        have := (Expr.pending_rank left hwl t ht).1
        rw [hsym.2.2.2]
        have h2 : (op.rank : Int) ≤ (left.level : Int) := by exact_mod_cast hl
        omega)
      (by
        intro s hs
        rw [hsym.2.2.2]
        exact hbelow s hs)
    have h3 := ihr hwr (op.symbol :: op_stack)
      (left.pending.reverse ++ (left.emitted.reverse ++ main_stack)) (by
        intro s hs
        simp only [List.head?_cons, Option.some.injEq] at hs
        subst hs
        rw [hsym.2.2.2]
        exact_mod_cast hr)
    simp only [Expr.tokens, List.foldl_append, List.foldl_cons, h1, h2, h3]
    simp only [Expr.pending, Expr.emitted, ← Expr.emitted_pending left, List.reverse_append,
      List.append_assoc, List.singleton_append]

/-- `ParseExpression` turns the tokens of a well-formed expression, between the sentinels,
into its reverse Polish notation. -/
theorem ParseExpression_expr (e : Expr) (hwf : e.grammatical = true) :
    ParseExpression ("(" :: e.tokens ++ [")"]) = e.rpn := by
  have h := ParseExpression.foldl_expr (Expr.paren e) hwf [] [] (by intro s hs; cases hs)
  rw [ParseExpression_eq]
  have e1 : ("(" :: e.tokens ++ [")"]) = (Expr.paren e).tokens := rfl
  rw [e1, h]
  simp [Expr.pending, Expr.emitted]

/-! ## `EvaluateExpression` on the reverse Polish notation of an expression -/

/-- A literal whose value is converted exactly is pushed with its value. -/
theorem EvaluateExpression.step_literal (M : Libm) (lit : NumLit) (st : List ℚ)
    (hexact : convertsExactly lit.value = true) :
    EvaluateExpression.step M lit.text st = Outcome.value (lit.value :: st) := by
  have htok := NumLit.isNumberToken_text lit
  have hne := numberToken_ne_constant htok
  exact EvaluateExpression.step_number M st (operand_of_numberToken htok) hne.1 hne.2
    (NumLit.IsNumber_text lit) (NumLit.decimal_text lit) hexact

/-- An operator whose exact result is a double replaces its two operands by that result. -/
theorem EvaluateExpression.step_binary (M : Libm) (op : BinOp) (first second v : ℚ)
    (rest : List ℚ) (h : op.apply first second = some v) (hexact : isDouble v = true) :
    EvaluateExpression.step M op.symbol (second :: first :: rest) = Outcome.value (v :: rest) := by
  cases op with
  | add =>
    simp only [BinOp.apply, Option.some.injEq] at h
    rw [← M.fl_of_isDouble hexact, ← h]; rfl
  | sub =>
    simp only [BinOp.apply, Option.some.injEq] at h
    rw [← M.fl_of_isDouble hexact, ← h]; rfl
  | mul =>
    simp only [BinOp.apply, Option.some.injEq] at h
    rw [← M.fl_of_isDouble hexact, ← h]; rfl
  | div =>
    simp only [BinOp.apply] at h
    by_cases hz : second = 0
    · rw [if_pos hz] at h; cases h
    · rw [if_neg hz, Option.some.injEq] at h
      rw [← M.fl_of_isDouble hexact, ← h]
      show (if second ≠ 0 then Outcome.value (M.fl (first / second) :: rest)
        else Outcome.exit "Division by zero") = _
      rw [if_pos hz]

/-- Evaluating the reverse Polish notation of an expression in which no rounding occurs
pushes its value. -/
theorem EvaluateExpression.loop_expr (M : Libm) (e : Expr) :
    ∀ (v : ℚ) (rest : List String) (st : List ℚ), e.roundingFree = true → e.value = some v →
      EvaluateExpression.loop M (e.rpn ++ rest) st
        = EvaluateExpression.loop M rest (v :: st) := by
  induction e with
  | number lit =>
    intro v rest st hexact hv
    simp only [Expr.value, Option.some.injEq] at hv
    subst hv
    simp only [Expr.roundingFree] at hexact
    simp only [Expr.rpn, List.singleton_append, EvaluateExpression.loop,
      EvaluateExpression.step_literal M lit st hexact, Outcome.andThen_value]
    rfl
  | paren inner ih =>
    intro v rest st hexact hv
    exact ih v rest st hexact hv
  | binary left op right ihl ihr =>
    intro v rest st hexact hv
    simp only [Expr.roundingFree, hv, Bool.and_eq_true] at hexact
    simp only [Expr.value] at hv
    cases hl : left.value with
    | none => simp [hl] at hv
    | some a =>
      cases hr : right.value with
      | none => simp [hl, hr] at hv
      | some b =>
        simp only [hl, hr] at hv
        simp only [Expr.rpn, List.append_assoc, List.singleton_append]
        rw [ihl a _ st hexact.1.1 hl, ihr b _ (a :: st) hexact.1.2 hr]
        simp only [EvaluateExpression.loop,
          EvaluateExpression.step_binary M op a b v st hv hexact.2, Outcome.andThen_value]

theorem EvaluateExpression_expr (M : Libm) (e : Expr) (v : ℚ) (hexact : e.roundingFree = true)
    (hv : e.value = some v) : EvaluateExpression M e.rpn = Outcome.value v := by
  have h := EvaluateExpression.loop_expr M e v [] [] hexact hv
  rw [List.append_nil] at h
  simp only [EvaluateExpression, h, EvaluateExpression.loop, Outcome.andThen_value]

/-! ## The tokens of an expression are separated -/

theorem Separated.append (xs : List String) :
    ∀ (prev : String) (ys : List String), Separated prev xs →
      Separated ((xs.getLast?).getD prev) ys → Separated prev (xs ++ ys) := by
  induction xs with
  | nil => intro prev ys _ h; exact h
  | cons x xs ih =>
    intro prev ys hx hy
    refine ⟨hx.1, ih x ys hx.2 ?_⟩
    rw [List.getLast?_cons] at hy
    exact hy

theorem BinOp.symbol_char (op : BinOp) :
    ∃ c, op.symbol = String.mk [c] ∧ foundChar OPS c = true ∧ isNumberToken op.symbol = false
      ∧ op.symbol ≠ "(" := by
  cases op
  · exact ⟨'+', rfl, by decide, by decide, by decide⟩
  · exact ⟨'-', rfl, by decide, by decide, by decide⟩
  · exact ⟨'*', rfl, by decide, by decide, by decide⟩
  · exact ⟨'/', rfl, by decide, by decide, by decide⟩

/-- The tokens of an expression are separated after any token that is not a number; the
first is not `-`, the last is not `(`. -/
theorem Expr.tokens_separated (e : Expr) :
    ∀ prev, isNumberToken prev = false →
      Separated prev e.tokens
        ∧ ∃ last, e.tokens.getLast? = some last ∧ last ≠ "(" := by
  induction e with
  | number lit =>
    intro prev hprev
    refine ⟨⟨Or.inl ⟨NumLit.isNumberToken_text lit, hprev⟩, trivial⟩, lit.text, rfl, ?_⟩
    intro h
    have := NumLit.isNumberToken_text lit
    rw [h] at this
    revert this
    decide
  | paren inner ih =>
    intro prev _
    obtain ⟨hsep, last, hlast, _⟩ := ih "(" (by decide)
    refine ⟨?_, ")", List.getLast?_concat ("(" :: inner.tokens), by decide⟩
    refine ⟨Or.inr (Or.inr ⟨'(', rfl, by decide, fun h => absurd h.1 (by decide)⟩), ?_⟩
    apply Separated.append _ _ _ hsep
    rw [hlast]
    exact ⟨Or.inr (Or.inr ⟨')', rfl, by decide, fun h => absurd h.1 (by decide)⟩), trivial⟩
  | binary left op right ihl ihr =>
    intro prev hprev
    obtain ⟨hl, lastl, hlastl, hnel⟩ := ihl prev hprev
    obtain ⟨c, hc, hop, hnum, _⟩ := BinOp.symbol_char op
    obtain ⟨hr, lastr, hlastr, hner⟩ := ihr op.symbol hnum
    refine ⟨?_, lastr, ?_, hner⟩
    · apply Separated.append _ _ _ hl
      rw [hlastl]
      exact ⟨Or.inr (Or.inr ⟨c, hc, hop, fun h => hnel h.2⟩), hr⟩
    · simp only [Expr.tokens, List.getLast?_append, List.getLast?_cons, hlastr]
      rfl

/-- `SplitLine` reads the tokens of an expression back from any of its texts. -/
theorem SplitLine_expr (e : Expr) (gaps : List Nat) :
    SplitLine (String.mk (layout gaps e.tokens)) = Outcome.value ("(" :: e.tokens ++ [")"]) :=
  SplitLine_layout e.tokens gaps (Expr.tokens_separated e "(" (by decide)).1

/-! ## Closed evaluations used by the examples of the claims -/

theorem decimal_2 : decimal "2" = some 2 := by simp [decimal, decimalValue]
theorem decimal_3 : decimal "3" = some 3 := by simp [decimal, decimalValue]
theorem decimal_4 : decimal "4" = some 4 := by simp [decimal, decimalValue]
theorem decimal_0 : decimal "0" = some 0 := by simp [decimal, decimalValue]
theorem decimal_5 : decimal "5" = some 5 := by simp [decimal, decimalValue]
theorem decimal_1 : decimal "1" = some 1 := by simp [decimal, decimalValue]

theorem step_0 (M : Libm) (st : List ℚ) :
    EvaluateExpression.step M "0" st = Outcome.value (0 :: st) :=
  EvaluateExpression.step_number M st (by decide) (by decide) (by decide) (by decide) decimal_0
    convertsExactly_zero
theorem step_1 (M : Libm) (st : List ℚ) :
    EvaluateExpression.step M "1" st = Outcome.value (1 :: st) :=
  EvaluateExpression.step_number M st (by decide) (by decide) (by decide) (by decide) decimal_1
    convertsExactly_one
theorem step_2 (M : Libm) (st : List ℚ) :
    EvaluateExpression.step M "2" st = Outcome.value (2 :: st) :=
  EvaluateExpression.step_number M st (by decide) (by decide) (by decide) (by decide) decimal_2
    (convertsExactly_ofNat 2 (by norm_num))
theorem step_3 (M : Libm) (st : List ℚ) :
    EvaluateExpression.step M "3" st = Outcome.value (3 :: st) :=
  EvaluateExpression.step_number M st (by decide) (by decide) (by decide) (by decide) decimal_3
    (convertsExactly_ofNat 3 (by norm_num))
theorem step_4 (M : Libm) (st : List ℚ) :
    EvaluateExpression.step M "4" st = Outcome.value (4 :: st) :=
  EvaluateExpression.step_number M st (by decide) (by decide) (by decide) (by decide) decimal_4
    (convertsExactly_ofNat 4 (by norm_num))
theorem step_5 (M : Libm) (st : List ℚ) :
    EvaluateExpression.step M "5" st = Outcome.value (5 :: st) :=
  EvaluateExpression.step_number M st (by decide) (by decide) (by decide) (by decide) decimal_5
    (convertsExactly_ofNat 5 (by norm_num))

theorem step_add (M : Libm) (first second : ℚ) (rest : List ℚ) :
    EvaluateExpression.step M "+" (second :: first :: rest)
      = Outcome.value (M.fl (first + second) :: rest) := rfl
theorem step_sub (M : Libm) (first second : ℚ) (rest : List ℚ) :
    EvaluateExpression.step M "-" (second :: first :: rest)
      = Outcome.value (M.fl (first - second) :: rest) := rfl
theorem step_mul (M : Libm) (first second : ℚ) (rest : List ℚ) :
    EvaluateExpression.step M "*" (second :: first :: rest)
      = Outcome.value (M.fl (first * second) :: rest) := rfl
theorem step_pow (M : Libm) (first second : ℚ) (rest : List ℚ) :
    EvaluateExpression.step M "^" (second :: first :: rest)
      = Outcome.value (M.pow first second :: rest) := rfl

theorem exactLibm_pow_2_3 : exactLibm.pow 2 3 = 8 := by
  simp [exactLibm]; norm_num
theorem exactLibm_pow_8_2 : exactLibm.pow 8 2 = 64 := by
  simp [exactLibm]; norm_num

/-! ## C2: operators of equal rank associate left to right -/

theorem calculate_pow_example (M : Libm) (h1 : M.pow 2 3 = 8) (h2 : M.pow 8 2 = 64) :
    calculate M "2 ^ 3 ^ 2" = Outcome.value 64 := by
  have hs : SplitLine "2 ^ 3 ^ 2" = Outcome.value ["(", "2", "^", "3", "^", "2", ")"] := by
    decide
  have hp : ParseExpression ["(", "2", "^", "3", "^", "2", ")"] = ["2", "3", "^", "2", "^"] := by
    decide
  simp only [calculate, hs, Outcome.andThen_value, hp, EvaluateExpression,
    EvaluateExpression.loop_cons,
    EvaluateExpression.loop_nil, step_2, step_3, step_pow, h1, h2]

/-- C2. Operators of equal precedence rank associate left to right: for number tokens
`a b c` and binary operators `o1 o2` of equal rank, `ParseExpression` turns
`( a o1 b o2 c )` into `a b o1 c o2`; and the pipeline evaluates `2 ^ 3 ^ 2` to
`(2^3)^2 = 64`, for a `pow` that is exact at `2^3` and `8^2`. -/
theorem C2_equal_rank_associates_left (M : Libm) (a b c o1 o2 : String)
    (ha : isNumberToken a = true) (hb : isNumberToken b = true) (hc : isNumberToken c = true)
    (h1 : o1 ∈ binaryOperators) (h2 : o2 ∈ binaryOperators) (hr : pr_ops o1 = pr_ops o2)
    (hpow1 : M.pow 2 3 = 8) (hpow2 : M.pow 8 2 = 64) :
    ParseExpression ["(", a, o1, b, o2, c, ")"] = [a, b, o1, c, o2]
      ∧ calculate M "2 ^ 3 ^ 2" = Outcome.value 64 := by
  refine ⟨?_, calculate_pow_example M hpow1 hpow2⟩
  have ha := operand_of_numberToken ha
  have hb := operand_of_numberToken hb
  have hc := operand_of_numberToken hc
  simp only [binaryOperators, List.mem_cons, List.mem_singleton, List.not_mem_nil,
    or_false] at h1 h2
  rcases h1 with rfl | rfl | rfl | rfl | rfl <;> rcases h2 with rfl | rfl | rfl | rfl | rfl <;>
    first
    | (exfalso; revert hr; decide)
    | (simp only [ParseExpression, List.foldl, ParseExpression.step_operand _ ha,
        ParseExpression.step_operand _ hb, ParseExpression.step_operand _ hc]
       rfl)

theorem C2_equal_rank_associates_left_witness :
    (isNumberToken "2" = true ∧ isNumberToken "3" = true ∧ "^" ∈ binaryOperators
      ∧ pr_ops "^" = pr_ops "^" ∧ exactLibm.pow 2 3 = 8 ∧ exactLibm.pow 8 2 = 64)
    ∧ ParseExpression ["(", "2", "^", "3", "^", "2", ")"] = ["2", "3", "^", "2", "^"]
    ∧ calculate exactLibm "2 ^ 3 ^ 2" = Outcome.value 64 :=
  ⟨⟨by decide, by decide, by decide, rfl, exactLibm_pow_2_3, exactLibm_pow_8_2⟩,
   C2_equal_rank_associates_left exactLibm "2" "3" "2" "^" "^" (by decide) (by decide)
     (by decide) (by decide) (by decide) rfl exactLibm_pow_2_3 exactLibm_pow_8_2⟩

/-! ## C3: a higher rank binds tighter, parentheses override the rank -/

theorem calculate_precedence_examples (M : Libm) :
    calculate M "2 + 3 * 4" = Outcome.value 14
      ∧ calculate M "( 2 + 3 ) * 4" = Outcome.value 20 := by
  have hs1 : SplitLine "2 + 3 * 4" = Outcome.value ["(", "2", "+", "3", "*", "4", ")"] := by
    decide
  have hp1 : ParseExpression ["(", "2", "+", "3", "*", "4", ")"] = ["2", "3", "4", "*", "+"] := by
    decide
  have hs2 : SplitLine "( 2 + 3 ) * 4"
      = Outcome.value ["(", "(", "2", "+", "3", ")", "*", "4", ")"] := by
    decide
  have hp2 : ParseExpression ["(", "(", "2", "+", "3", ")", "*", "4", ")"]
      = ["2", "3", "+", "4", "*"] := by
    decide
  constructor
  · simp only [calculate, hs1, Outcome.andThen_value, hp1, EvaluateExpression,
      EvaluateExpression.loop_cons,
    EvaluateExpression.loop_nil, step_2, step_3, step_4, step_add, step_mul]
    rw [show (3 : ℚ) * 4 = 12 by norm_num, M.fl_ofNat 12 (by norm_num),
      show (2 : ℚ) + 12 = 14 by norm_num, M.fl_ofNat 14 (by norm_num)]
  · simp only [calculate, hs2, Outcome.andThen_value, hp2, EvaluateExpression,
      EvaluateExpression.loop_cons,
    EvaluateExpression.loop_nil, step_2, step_3, step_4, step_add, step_mul]
    rw [show (2 : ℚ) + 3 = 5 by norm_num, M.fl_ofNat 5 (by norm_num),
      show (5 : ℚ) * 4 = 20 by norm_num, M.fl_ofNat 20 (by norm_num)]

/-- C3. A higher-ranked operator binds tighter and parentheses override the rank: for
number tokens `a b c` and binary operators with `pr_ops o1 < pr_ops o2`, `ParseExpression`
turns `( a o1 b o2 c )` into `a b c o2 o1` and `( ( a o1 b ) o2 c )` into `a b o1 c o2`;
the pipeline evaluates `2 + 3 * 4` to 14 and `( 2 + 3 ) * 4` to 20. -/
theorem C3_higher_rank_binds_tighter (M : Libm) (a b c o1 o2 : String)
    (ha : isNumberToken a = true) (hb : isNumberToken b = true) (hc : isNumberToken c = true)
    (h1 : o1 ∈ binaryOperators) (h2 : o2 ∈ binaryOperators) (hr : pr_ops o1 < pr_ops o2) :
    ParseExpression ["(", a, o1, b, o2, c, ")"] = [a, b, c, o2, o1]
      ∧ ParseExpression ["(", "(", a, o1, b, ")", o2, c, ")"] = [a, b, o1, c, o2]
      ∧ calculate M "2 + 3 * 4" = Outcome.value 14
      ∧ calculate M "( 2 + 3 ) * 4" = Outcome.value 20 := by
  have ex := calculate_precedence_examples M
  refine ⟨?_, ?_, ex.1, ex.2⟩
  all_goals
    have ha := operand_of_numberToken ha
    have hb := operand_of_numberToken hb
    have hc := operand_of_numberToken hc
    simp only [binaryOperators, List.mem_cons, List.mem_singleton, List.not_mem_nil,
      or_false] at h1 h2
    rcases h1 with rfl | rfl | rfl | rfl | rfl <;> rcases h2 with rfl | rfl | rfl | rfl | rfl <;>
      first
      | (exfalso; revert hr; decide)
      | (simp only [ParseExpression, List.foldl, ParseExpression.step_operand _ ha,
          ParseExpression.step_operand _ hb, ParseExpression.step_operand _ hc]
         rfl)

theorem C3_higher_rank_binds_tighter_witness :
    (isNumberToken "2" = true ∧ isNumberToken "3" = true ∧ isNumberToken "4" = true
      ∧ "+" ∈ binaryOperators ∧ "*" ∈ binaryOperators ∧ pr_ops "+" < pr_ops "*")
    ∧ ParseExpression ["(", "2", "+", "3", "*", "4", ")"] = ["2", "3", "4", "*", "+"]
    ∧ ParseExpression ["(", "(", "2", "+", "3", ")", "*", "4", ")"] = ["2", "3", "+", "4", "*"]
    ∧ calculate exactLibm "2 + 3 * 4" = Outcome.value 14
    ∧ calculate exactLibm "( 2 + 3 ) * 4" = Outcome.value 20 :=
  ⟨⟨by decide, by decide, by decide, by decide, by decide, by decide⟩,
   C3_higher_rank_binds_tighter exactLibm "2" "3" "4" "+" "*" (by decide) (by decide)
     (by decide) (by decide) (by decide) (by decide)⟩

/-! ## C5: division by zero -/

theorem calculate_div_zero_example (M : Libm) :
    calculate M "4 / 0" = Outcome.exit "Division by zero" := by
  have hs : SplitLine "4 / 0" = Outcome.value ["(", "4", "/", "0", ")"] := by decide
  have hp : ParseExpression ["(", "4", "/", "0", ")"] = ["4", "0", "/"] := by decide
  simp only [calculate, hs, Outcome.andThen_value, hp, EvaluateExpression,
    EvaluateExpression.loop_cons,
    EvaluateExpression.loop_nil, step_4, step_0, EvaluateExpression.step_div]
  simp [Outcome.andThen]

/-- C5. Division by zero is an error, never a value: when `EvaluateExpression` reaches a
`/` token with operands `first` and `second` on top of the operand stack and `second` is 0,
it ends with the error `Division by zero`, whatever follows; the pipeline does so on
`4 / 0`. -/
theorem C5_division_by_zero (M : Libm) (before after : List String) (first second : ℚ)
    (rest : List ℚ)
    (hreach : EvaluateExpression.loop M before [] = Outcome.value (second :: first :: rest))
    (hzero : second = 0) :
    EvaluateExpression M (before ++ "/" :: after) = Outcome.exit "Division by zero"
      ∧ (∀ v, EvaluateExpression M (before ++ "/" :: after) ≠ Outcome.value v)
      ∧ calculate M "4 / 0" = Outcome.exit "Division by zero" := by
  have h : EvaluateExpression M (before ++ "/" :: after) = Outcome.exit "Division by zero" := by
    subst hzero
    simp only [EvaluateExpression, EvaluateExpression.loop_append, hreach,
      Outcome.andThen_value, EvaluateExpression.loop, EvaluateExpression.step_div]
    simp [Outcome.andThen]
  refine ⟨h, ?_, calculate_div_zero_example M⟩
  intro v hv
  rw [h] at hv
  cases hv

theorem C5_division_by_zero_witness :
    (EvaluateExpression.loop exactLibm ["4", "0"] [] = Outcome.value [0, 4] ∧ (0 : ℚ) = 0)
    ∧ EvaluateExpression exactLibm (["4", "0"] ++ "/" :: ["2", "+"])
        = Outcome.exit "Division by zero"
    ∧ (∀ v, EvaluateExpression exactLibm (["4", "0"] ++ "/" :: ["2", "+"]) ≠ Outcome.value v)
    ∧ calculate exactLibm "4 / 0" = Outcome.exit "Division by zero" :=
  have hreach : EvaluateExpression.loop exactLibm ["4", "0"] [] = Outcome.value [0, 4] := by
    simp only [EvaluateExpression.loop_cons,
    EvaluateExpression.loop_nil, step_4, step_0, Outcome.andThen_value]
  ⟨⟨hreach, rfl⟩, C5_division_by_zero exactLibm ["4", "0"] ["2", "+"] 4 0 [] hreach rfl⟩

/-! ## C6: `ValidateParentheses` -/

theorem ValidateParentheses.loop_spec (cs : List Char) :
    ∀ (p_stack : List Char) (flag : Bool),
      ((ValidateParentheses.loop cs p_stack flag).2 = true
          ∧ (ValidateParentheses.loop cs p_stack flag).1 = [])
        ↔ (flag = true ∧ (∀ p, p <+: cs → p.count ')' ≤ p_stack.length + p.count '(')
            ∧ p_stack.length + cs.count '(' = cs.count ')') := by
  induction cs with
  | nil =>
    intro p_stack flag
    simp only [ValidateParentheses.loop, List.prefix_nil, forall_eq, List.count_nil,
      Nat.zero_le, true_and, Nat.add_zero, List.length_eq_zero]
  | cons c cs ih =>
    intro p_stack flag
    have hpre : ∀ (P : List Char → Prop), (∀ p, p <+: c :: cs → P p)
        ↔ (P [] ∧ ∀ p, p <+: cs → P (c :: p)) := by
      intro P
      constructor
      · intro h
        exact ⟨h [] (List.nil_prefix), fun p hp => h (c :: p) ((List.prefix_cons_inj c).mpr hp)⟩
      · rintro ⟨h0, h1⟩ p hp
        cases p with
        | nil => exact h0
        | cons d p =>
          have hq := List.cons_prefix_cons.mp hp
          rw [hq.1]
          exact h1 p hq.2
    by_cases h1 : c = '('
    · subst h1
      simp only [ValidateParentheses.loop, if_true, ih, List.length_cons, hpre]
      simp only [List.count_cons, List.count_nil, beq_self_eq_true, if_true]
      simp only [show (('(' : Char) == ')') = false by decide, Bool.false_eq_true, if_false]
      constructor
      · rintro ⟨hf, hp, he⟩
        exact ⟨hf, ⟨by omega, fun p h => by have := hp p h; omega⟩, by omega⟩
      · rintro ⟨hf, ⟨_, hp⟩, he⟩
        exact ⟨hf, fun p h => by have := hp p h; omega, by omega⟩
    · by_cases h2 : c = ')'
      · subst h2
        cases p_stack with
        | nil =>
          simp only [ValidateParentheses.loop, if_true, ih, List.length_nil, hpre]
          simp only [show ((')' : Char) = '(') = False by decide, if_false, ih]
          simp only [List.count_cons, List.count_nil, beq_self_eq_true, if_true]
          constructor
          · rintro ⟨hf, _⟩
            cases hf
          · rintro ⟨_, ⟨_, hp⟩, _⟩
            have := hp [] List.nil_prefix
            simp at this
        | cons t popped =>
          simp only [ValidateParentheses.loop, if_true, ih, List.length_cons, hpre]
          simp only [show ((')' : Char) = '(') = False by decide, if_false, ih]
          simp only [List.count_cons, List.count_nil, beq_self_eq_true, if_true]
          simp only [show ((')' : Char) == '(') = false by decide, Bool.false_eq_true, if_false]
          constructor
          · rintro ⟨hf, hp, he⟩
            exact ⟨hf, ⟨by omega, fun p h => by have := hp p h; omega⟩, by omega⟩
          · rintro ⟨hf, ⟨_, hp⟩, he⟩
            exact ⟨hf, fun p h => by have := hp p h; omega, by omega⟩
      · have e1 : (c == '(') = false := by simpa using h1
        have e2 : (c == ')') = false := by simpa using h2
        simp only [ValidateParentheses.loop, h1, h2, if_false, ih, hpre]
        simp only [List.count_cons, List.count_nil, e1, e2, Bool.false_eq_true, if_false]
        constructor
        · rintro ⟨hf, hp, he⟩
          exact ⟨hf, ⟨by omega, fun p h => by have := hp p h; omega⟩, by omega⟩
        · rintro ⟨hf, ⟨_, hp⟩, he⟩
          exact ⟨hf, fun p h => by have := hp p h; omega, by omega⟩

theorem ValidateParentheses_iff (line : String) :
    ValidateParentheses line = true ↔ CorrectlyPlaced line.data := by
  have h := ValidateParentheses.loop_spec line.data [] true
  simp only [List.length_nil, Nat.zero_add, true_and] at h
  unfold CorrectlyPlaced
  rw [and_comm, ← h]
  unfold ValidateParentheses
  generalize ValidateParentheses.loop line.data [] true = r
  rcases r with ⟨st, f⟩
  cases st <;> simp

/-- C6. `ValidateParentheses(line)` is true if and only if the parentheses of the line are
correctly placed (as many `(` as `)`, no prefix with more `)` than `(`); `main` therefore
ends with an error, without a result, on every line whose parentheses are not, such as
`( 1 + 2` and `1 + 2 )`. -/
theorem C6_ValidateParentheses_correct (M : Libm) (line : String) :
    (ValidateParentheses line = true ↔ CorrectlyPlaced line.data)
      ∧ (¬ CorrectlyPlaced line.data → ∃ message, main M line = Outcome.exit message)
      ∧ main M "( 1 + 2" = Outcome.exit "Missed parentheses"
      ∧ main M "1 + 2 )" = Outcome.exit "Missed parentheses" := by
  refine ⟨ValidateParentheses_iff line, ?_, rfl, rfl⟩
  intro h
  have hv : ValidateParentheses line = false := by
    cases hv : ValidateParentheses line with
    | false => rfl
    | true => exact absurd ((ValidateParentheses_iff line).mp hv) h
  unfold main
  by_cases h1 : line.length > 255
  · exact ⟨"The expression is too long", by simp [h1, ThrowError]⟩
  · by_cases h2 : line.isEmpty = true
    · exact ⟨"An empty string was entered", by simp [h1, h2, ThrowError]⟩
    · exact ⟨"Missed parentheses", by simp [h1, h2, hv, ThrowError]⟩

/-! ## C7: `ParseExpression` and unbalanced parentheses -/

theorem pr_ops_nonneg {curr : String} (h1 : curr ≠ "(") (h2 : curr ≠ ")") : 0 ≤ pr_ops curr := by
  unfold pr_ops
  split_ifs <;> simp_all

theorem pr_ops_paren_neg : pr_ops "(" = -1 ∧ pr_ops ")" = -1 := by decide

theorem not_paren_of_pr_ops {tmp : String} (h : 0 ≤ pr_ops tmp) : tmp ≠ "(" ∧ tmp ≠ ")" := by
  constructor
  · rintro rfl; revert h; decide
  · rintro rfl; revert h; decide

/-- Parenthesis bookkeeping of a state `(op_stack, main_stack)`: `depth` tokens `(` on
`op_stack`, and no other parenthesis token anywhere. -/
theorem ParseExpression.closeParen_count (op_stack : List String) :
    ∀ main_stack, ")" ∉ op_stack → "(" ∉ main_stack → ")" ∉ main_stack →
      (ParseExpression.closeParen op_stack main_stack).1.count "(" = op_stack.count "(" - 1
      ∧ ")" ∉ (ParseExpression.closeParen op_stack main_stack).1
      ∧ "(" ∉ (ParseExpression.closeParen op_stack main_stack).2
      ∧ ")" ∉ (ParseExpression.closeParen op_stack main_stack).2 := by
  induction op_stack with
  | nil => intro main_stack _ h2 h3; simp [ParseExpression.closeParen, h2, h3]
  | cons tmp rest ih =>
    intro main_stack h1 h2 h3
    have hr : ")" ∉ rest := fun h => h1 (List.mem_cons_of_mem _ h)
    have ht : ")" ≠ tmp := fun h => h1 (by simp [h])
    by_cases h : tmp = "("
    · subst h
      simp [ParseExpression.closeParen, hr, h2, h3]
    · have := ih (tmp :: main_stack) hr (by simp [h2, Ne.symm h]) (by simp [h3, ht])
      simp only [ParseExpression.closeParen, h, if_false]
      rw [List.count_cons_of_ne (Ne.symm h)]
      exact this

theorem ParseExpression.popOps_count (curr : String) (hc : 0 ≤ pr_ops curr)
    (op_stack : List String) :
    ∀ main_stack, ")" ∉ op_stack → "(" ∉ main_stack → ")" ∉ main_stack →
      (ParseExpression.popOps curr op_stack main_stack).1.count "(" = op_stack.count "("
      ∧ ")" ∉ (ParseExpression.popOps curr op_stack main_stack).1
      ∧ "(" ∉ (ParseExpression.popOps curr op_stack main_stack).2
      ∧ ")" ∉ (ParseExpression.popOps curr op_stack main_stack).2 := by
  induction op_stack with
  | nil => intro main_stack _ h2 h3; simp [ParseExpression.popOps, h2, h3]
  | cons tmp rest ih =>
    intro main_stack h1 h2 h3
    have hr : ")" ∉ rest := fun h => h1 (List.mem_cons_of_mem _ h)
    by_cases h : pr_ops curr ≤ pr_ops tmp
    · have hne := not_paren_of_pr_ops (le_trans hc h)
      have := ih (tmp :: main_stack) hr (by simp [h2, Ne.symm hne.1]) (by simp [h3, Ne.symm hne.2])
      simp only [ParseExpression.popOps, h, if_true]
      rw [List.count_cons_of_ne (Ne.symm hne.1)]
      exact this
    · simp only [ParseExpression.popOps, h, if_false]
      exact ⟨trivial, h1, h2, h3⟩

theorem ParseExpression.step_count (st : List String × List String) (curr : String)
    (h1 : ")" ∉ st.1) (h2 : "(" ∉ st.2) (h3 : ")" ∉ st.2) :
    (ParseExpression.step st curr).1.count "("
        = (if curr = "(" then st.1.count "(" + 1
           else if curr = ")" then st.1.count "(" - 1 else st.1.count "(")
      ∧ ")" ∉ (ParseExpression.step st curr).1
      ∧ "(" ∉ (ParseExpression.step st curr).2
      ∧ ")" ∉ (ParseExpression.step st curr).2 := by
  obtain ⟨op_stack, main_stack⟩ := st
  simp only at h1 h2 h3
  unfold ParseExpression.step
  by_cases hf : (found OPS curr || found FUNCTIONS curr) = true
  · simp only [hf, if_true]
    by_cases hc : curr = ")"
    · subst hc
      simp only [if_true, show (")" = "(") = False by decide, if_false]
      exact ParseExpression.closeParen_count op_stack main_stack h1 h2 h3
    · by_cases ho : curr = "("
      · subst ho
        simp [hc, h1, h2, h3]
      · simp only [hc, ho, if_false]
        have hne : ")" ≠ curr := fun h => hc h.symm
        have hrank := pr_ops_nonneg ho hc
        cases op_stack with
        | nil => simp [h2, h3, hne, Ne.symm ho]
        | cons prev rest =>
          simp only
          by_cases hgt : pr_ops curr > pr_ops prev
          · simp only [hgt, if_true]
            rw [List.count_cons_of_ne (Ne.symm ho)]
            refine ⟨rfl, ?_, h2, h3⟩
            intro hm
            rcases List.mem_cons.mp hm with h | h
            · exact hne h
            · exact h1 h
          · simp only [hgt, if_false]
            have := ParseExpression.popOps_count curr hrank (prev :: rest) main_stack h1 h2 h3
            rw [List.count_cons_of_ne (Ne.symm ho)]
            refine ⟨this.1, ?_, this.2.2.1, this.2.2.2⟩
            intro hm
            rcases List.mem_cons.mp hm with h | h
            · exact hne h
            · exact this.2.1 h
  · simp only [hf, Bool.false_eq_true, if_false]
    have hf1 : found OPS curr = false := by
      cases h : found OPS curr with
      | false => rfl
      | true => simp [h] at hf
    have ho : curr ≠ "(" := by rintro rfl; revert hf1; decide
    have hc : curr ≠ ")" := by rintro rfl; revert hf1; decide
    simp [ho, hc, h1, h2, h3, Ne.symm ho, Ne.symm hc]

theorem ParseExpression.foldl_count (items : List String) :
    ∀ (st : List String × List String) (depth : Nat),
      st.1.count "(" = depth → ")" ∉ st.1 → "(" ∉ st.2 → ")" ∉ st.2 →
      (items.foldl ParseExpression.step st).1.count "("
          = items.foldl
              (fun depth t => if t = "(" then depth + 1 else if t = ")" then depth - 1 else depth)
              depth
        ∧ ")" ∉ (items.foldl ParseExpression.step st).1
        ∧ "(" ∉ (items.foldl ParseExpression.step st).2
        ∧ ")" ∉ (items.foldl ParseExpression.step st).2 := by
  induction items with
  | nil => intro st depth h0 h1 h2 h3; exact ⟨h0, h1, h2, h3⟩
  | cons t ts ih =>
    intro st depth h0 h1 h2 h3
    have hs := ParseExpression.step_count st t h1 h2 h3
    simp only [List.foldl]
    exact ih _ _ (by rw [hs.1, h0]) hs.2.1 hs.2.2.1 hs.2.2.2

theorem ParseExpression.closeParen_unmatched (op_stack : List String) :
    ∀ main_stack, "(" ∉ op_stack →
      ParseExpression.closeParen op_stack main_stack = ([], op_stack.reverse ++ main_stack) := by
  induction op_stack with
  | nil => intro main_stack _; rfl
  | cons tmp rest ih =>
    intro main_stack h
    have h1 : tmp ≠ "(" := fun e => h (by simp [e])
    have h2 : "(" ∉ rest := fun e => h (List.mem_cons_of_mem _ e)
    simp [ParseExpression.closeParen, h1, ih _ h2]

/-- C7 (as amended). `ParseExpression` has no error for unbalanced token sequences: it
always returns a sequence.  Every `(` that no later `)` closes is emitted as a token of the
output (the output holds `openCount items` tokens `(`, and no `)`), and a `)` met when
there is no `(` on `op_stack` moves the whole of `op_stack` onto `main_stack`, after which
the translation goes on. -/
theorem C7_ParseExpression_accepts_unbalanced (items : List String) :
    (ParseExpression items).count "(" = openCount items
      ∧ (ParseExpression items).count ")" = 0
      ∧ ∀ op_stack main_stack : List String, "(" ∉ op_stack →
          ParseExpression.step (op_stack, main_stack) ")"
            = ([], op_stack.reverse ++ main_stack) := by
  have h := ParseExpression.foldl_count items ([], []) 0 rfl (by simp) (by simp) (by simp)
  refine ⟨?_, ?_, ?_⟩
  · rw [ParseExpression_eq, List.count_append, List.count_reverse,
      List.count_eq_zero_of_not_mem h.2.2.1, h.1]
    simp [openCount]
  · rw [ParseExpression_eq, List.count_append, List.count_reverse,
      List.count_eq_zero_of_not_mem h.2.2.2, List.count_eq_zero_of_not_mem h.2.1]
  · intro op_stack main_stack hn
    have : ParseExpression.step (op_stack, main_stack) ")"
        = ParseExpression.closeParen op_stack main_stack := rfl
    rw [this, ParseExpression.closeParen_unmatched op_stack main_stack hn]

/-- C7, counterexample: an unclosed `(` and an unmatched `)` both give a postfix sequence. -/
theorem C7_counterexample :
    ParseExpression ["(", "1", "+", "2"] = ["1", "2", "+", "("]
      ∧ ParseExpression ["1", "+", "2", ")"] = ["1", "2", "+"] := by
  decide

/-! ## C8: the operand stack is not checked -/

/-- Values lying beneath the ones an iteration uses do not change what it does. -/
theorem EvaluateExpression.step_frame (M : Libm) (curr : String) (st st1 below : List ℚ)
    (h : EvaluateExpression.step M curr st = Outcome.value st1) :
    EvaluateExpression.step M curr (st ++ below) = Outcome.value (st1 ++ below) := by
  unfold EvaluateExpression.step at h ⊢
  by_cases hops : found OPS curr = true
  · simp only [hops, if_true] at h ⊢
    match st, h with
    | second :: first :: rest, h =>
      simp only [List.cons_append]
      split_ifs at h ⊢ <;> simp_all [ThrowError] <;> (rw [← h]; rfl)
    | [_], h => simp at h
    | [], h => simp at h
  · simp only [hops, Bool.false_eq_true, if_false] at h ⊢
    by_cases hfun : found FUNCTIONS curr = true
    · simp only [hfun, if_true] at h ⊢
      match st, h with
      | value :: rest, h =>
        simp only [List.cons_append]
        split_ifs at h ⊢ <;> simp_all [ThrowError] <;> (rw [← h]; rfl)
      | [], h => simp at h
    · simp only [hfun, Bool.false_eq_true, if_false] at h ⊢
      split_ifs at h ⊢
      · simp only [Outcome.value.injEq] at h ⊢
        rw [← h]; rfl
      · simp only [Outcome.value.injEq] at h ⊢
        rw [← h]; rfl
      · cases hs : stod M curr with
        | value v =>
          simp only [hs, Outcome.andThen_value, Outcome.value.injEq] at h ⊢
          rw [← h]; rfl
        | exit m => simp [hs, Outcome.andThen] at h
        | undefined => simp [hs, Outcome.andThen] at h
        | uncaught m => simp [hs, Outcome.andThen] at h
        | outOfFuel => simp [hs, Outcome.andThen] at h
      · simp [ThrowError] at h

theorem EvaluateExpression.loop_frame (M : Libm) (rpn : List String) :
    ∀ (st st1 below : List ℚ), EvaluateExpression.loop M rpn st = Outcome.value st1 →
      EvaluateExpression.loop M rpn (st ++ below) = Outcome.value (st1 ++ below) := by
  induction rpn with
  | nil =>
    intro st st1 below h
    simp only [EvaluateExpression.loop, Outcome.value.injEq] at h ⊢
    rw [h]
  | cons curr rest ih =>
    intro st st1 below h
    simp only [EvaluateExpression.loop] at h ⊢
    obtain ⟨next, hstep, hrest⟩ := Outcome.andThen_eq_value h
    rw [EvaluateExpression.step_frame M curr st next below hstep, Outcome.andThen_value]
    exact ih next st1 below hrest

/-- The messages with which `EvaluateExpression` can end. -/
theorem EvaluateExpression.step_exit (M : Libm) (curr : String) (st : List ℚ) (message : String)
    (h : EvaluateExpression.step M curr st = Outcome.exit message) :
    message = "Division by zero" ∨ message = "Invalid tangent argument value"
      ∨ message = "Invalid logarithm argument value"
      ∨ message = "Invalid value \x27" ++ curr ++ "\x27" := by
  unfold EvaluateExpression.step at h
  by_cases hops : found OPS curr = true
  · simp only [hops, if_true] at h
    match st, h with
    | second :: first :: rest, h =>
      simp only at h
      split_ifs at h
      simp_all [ThrowError]
    | [_], h => simp at h
    | [], h => simp at h
  · simp only [hops, Bool.false_eq_true, if_false] at h
    by_cases hfun : found FUNCTIONS curr = true
    · simp only [hfun, if_true] at h
      match st, h with
      | value :: rest, h =>
        simp only at h
        split_ifs at h <;> simp_all [ThrowError]
      | [], h => simp at h
    · simp only [hfun, Bool.false_eq_true, if_false] at h
      split_ifs at h
      · exfalso
        unfold stod at h
        cases hd : decimal curr with
        | none => simp [hd, Outcome.andThen] at h
        | some x =>
          rw [hd] at h
          rcases M.convert_cases x with ⟨v, hv⟩ | hv <;> simp [hv, Outcome.andThen] at h
      · simp only [ThrowError, Outcome.exit.injEq] at h
        simp [h]

theorem EvaluateExpression.loop_exit (M : Libm) (rpn : List String) :
    ∀ (st : List ℚ) (message : String),
      EvaluateExpression.loop M rpn st = Outcome.exit message →
      message = "Division by zero" ∨ message = "Invalid tangent argument value"
        ∨ message = "Invalid logarithm argument value"
        ∨ ∃ t, t ∈ rpn ∧ message = "Invalid value \x27" ++ t ++ "\x27" := by
  induction rpn with
  | nil => intro st message h; simp [EvaluateExpression.loop] at h
  | cons curr rest ih =>
    intro st message h
    simp only [EvaluateExpression.loop] at h
    cases hstep : EvaluateExpression.step M curr st with
    | value next =>
      rw [hstep, Outcome.andThen_value] at h
      rcases ih next message h with h | h | h | ⟨t, ht, h⟩
      · exact Or.inl h
      · exact Or.inr (Or.inl h)
      · exact Or.inr (Or.inr (Or.inl h))
      · exact Or.inr (Or.inr (Or.inr ⟨t, List.mem_cons_of_mem _ ht, h⟩))
    | exit m =>
      rw [hstep] at h
      simp only [Outcome.andThen, Outcome.exit.injEq] at h
      subst h
      rcases EvaluateExpression.step_exit M curr st m hstep with h | h | h | h
      · exact Or.inl h
      · exact Or.inr (Or.inl h)
      · exact Or.inr (Or.inr (Or.inl h))
      · exact Or.inr (Or.inr (Or.inr ⟨curr, List.mem_cons_self _ _, h⟩))
    | undefined => rw [hstep] at h; simp [Outcome.andThen] at h
    | uncaught m => rw [hstep] at h; simp [Outcome.andThen] at h
    | outOfFuel => rw [hstep] at h; simp [Outcome.andThen] at h

theorem EvaluateExpression.loop_numberTokens (M : Libm) (extra : List String)
    (h : ∀ t ∈ extra, isNumberToken t = true ∧ IsNumber t = true
      ∧ ∃ x, stod M t = Outcome.value x) :
    ∀ st, ∃ pushed, EvaluateExpression.loop M extra st = Outcome.value (pushed ++ st) := by
  induction extra with
  | nil => intro st; exact ⟨[], rfl⟩
  | cons t ts ih =>
    intro st
    obtain ⟨htok, hnum, x, hx⟩ := h t (List.mem_cons_self _ _)
    have hne := numberToken_ne_constant htok
    have hstep : EvaluateExpression.step M t st = Outcome.value (x :: st) := by
      rw [EvaluateExpression.step_stod M st (operand_of_numberToken htok) hne.1 hne.2 hnum,
        hx]
      rfl
    obtain ⟨pushed, hp⟩ := ih (fun u hu => h u (List.mem_cons_of_mem _ hu)) (x :: st)
    refine ⟨pushed ++ [x], ?_⟩
    simp only [EvaluateExpression.loop, hstep, Outcome.andThen_value, hp]
    simp

theorem calculate_surplus_example (M : Libm) : calculate M "1 2" = Outcome.value 2 := by
  have hs : SplitLine "1 2" = Outcome.value ["(", "1", "2", ")"] := by decide
  have hp : ParseExpression ["(", "1", "2", ")"] = ["1", "2"] := by decide
  simp only [calculate, hs, Outcome.andThen_value, hp, EvaluateExpression,
    EvaluateExpression.loop_cons,
    EvaluateExpression.loop_nil, step_1, step_2]

/-- C8 (as amended). `EvaluateExpression` has no malformed-expression error: the only
messages it ends with are `Division by zero`, `Invalid tangent argument value`,
`Invalid logarithm argument value` and `Invalid value` of a token; it returns the value
on top of the operand stack whatever lies beneath, so a postfix sequence that evaluates to
`v` still evaluates to `v` when number tokens that `std::stod` converts (numbers within
the range of `double`) are put in front of it. -/
theorem C8_operand_stack_not_checked (M : Libm) (rpn extra : List String) (v : ℚ)
    (hextra : ∀ t ∈ extra, isNumberToken t = true ∧ IsNumber t = true
      ∧ ∃ x, stod M t = Outcome.value x)
    (hv : EvaluateExpression M rpn = Outcome.value v) :
    EvaluateExpression M (extra ++ rpn) = Outcome.value v
      ∧ ∀ (other : List String) (message : String),
          EvaluateExpression M other = Outcome.exit message →
          message = "Division by zero" ∨ message = "Invalid tangent argument value"
            ∨ message = "Invalid logarithm argument value"
            ∨ ∃ t, t ∈ other ∧ message = "Invalid value \x27" ++ t ++ "\x27" := by
  constructor
  · unfold EvaluateExpression at hv ⊢
    obtain ⟨st, hloop, htop⟩ := Outcome.andThen_eq_value hv
    obtain ⟨pushed, hp⟩ := EvaluateExpression.loop_numberTokens M extra hextra []
    have hframe := EvaluateExpression.loop_frame M rpn [] st (pushed ++ []) hloop
    rw [EvaluateExpression.loop_append, hp, Outcome.andThen_value]
    rw [List.nil_append] at hframe
    rw [hframe, Outcome.andThen_value]
    cases st with
    | nil => simp at htop
    | cons top rest => simpa using htop
  · intro other message h
    unfold EvaluateExpression at h
    cases hl : EvaluateExpression.loop M other [] with
    | value st =>
      rw [hl, Outcome.andThen_value] at h
      cases st <;> simp at h
    | exit m =>
      rw [hl] at h
      simp only [Outcome.andThen, Outcome.exit.injEq] at h
      subst h
      exact EvaluateExpression.loop_exit M other [] m hl
    | undefined => rw [hl] at h; simp [Outcome.andThen] at h
    | uncaught m => rw [hl] at h; simp [Outcome.andThen] at h
    | outOfFuel => rw [hl] at h; simp [Outcome.andThen] at h

theorem C8_operand_stack_not_checked_witness :
    ((∀ t ∈ ["1"], isNumberToken t = true ∧ IsNumber t = true
        ∧ ∃ x, stod exactLibm t = Outcome.value x)
      ∧ EvaluateExpression exactLibm ["2"] = Outcome.value 2)
    ∧ EvaluateExpression exactLibm (["1"] ++ ["2"]) = Outcome.value 2 :=
  have hextra : ∀ t ∈ ["1"], isNumberToken t = true ∧ IsNumber t = true
      ∧ ∃ x, stod exactLibm t = Outcome.value x := by
    intro t ht
    rw [List.mem_singleton] at ht
    subst ht
    exact ⟨by decide, by decide, 1, stod_exact exactLibm decimal_1 convertsExactly_one⟩
  have hv : EvaluateExpression exactLibm ["2"] = Outcome.value 2 := by
    simp only [EvaluateExpression, EvaluateExpression.loop_cons,
    EvaluateExpression.loop_nil, step_2, Outcome.andThen_value]
  ⟨⟨hextra, hv⟩, (C8_operand_stack_not_checked exactLibm ["2"] ["1"] 2 hextra hv).1⟩

/-- C8, counterexample: the line `1 2` leaves two values on the operand stack, and the
pipeline returns the last one instead of an error. -/
theorem C8_counterexample : calculate exactLibm "1 2" = Outcome.value 2 :=
  calculate_surplus_example exactLibm

/-! ## C9: unknown identifiers -/

theorem step_fragment_n (M : Libm) (value : ℚ) (rest : List ℚ) :
    EvaluateExpression.step M "n" (value :: rest) = Outcome.value rest := rfl

theorem calculate_fragment_example (M : Libm) : calculate M "1 2 n" = Outcome.value 1 := by
  have hs : SplitLine "1 2 n" = Outcome.value ["(", "1", "2", "n", ")"] := by decide
  have hp : ParseExpression ["(", "1", "2", "n", ")"] = ["1", "2", "n"] := by decide
  simp only [calculate, hs, Outcome.andThen_value, hp, EvaluateExpression,
    EvaluateExpression.loop_cons,
    EvaluateExpression.loop_nil, step_1, step_2, step_fragment_n]

/-- C9 (as amended). `SplitLine` has no unknown-identifier error (its only error is
`Incorrect input` of a character): a maximal run of letters is emitted as one token.  A
word that is not `pi` or `e` and is not found in `FUNCTIONS` by `find` is rejected by
`EvaluateExpression` with `Invalid value`, and the pipeline returns no value for a line
that contains it. -/
theorem C9_unknown_identifier_rejected_at_evaluation (M : Libm) (before word after : List Char)
    (hrun : MaximalRun false before word after)
    (hfun : found FUNCTIONS (String.mk word) = false)
    (hpi : String.mk word ≠ "pi") (he : String.mk word ≠ "e") :
    (∀ message, SplitLine (String.mk (before ++ word ++ after)) = Outcome.exit message →
        ∃ c, c ∈ before ++ word ++ after
          ∧ message = "Incorrect input \x27" ++ String.mk [c] ++ "\x27")
      ∧ (∀ result, SplitLine (String.mk (before ++ word ++ after)) = Outcome.value result →
          String.mk word ∈ result)
      ∧ (∀ st, EvaluateExpression.step M (String.mk word) st
          = Outcome.exit ("Invalid value \x27" ++ String.mk word ++ "\x27"))
      ∧ (∀ v, calculate M (String.mk (before ++ word ++ after)) ≠ Outcome.value v) := by
  have hmem := SplitLine.run_mem false before word after hrun
  obtain ⟨⟨d, rest, rfl, hd, hrest⟩, _, _⟩ := hrun
  simp only [Bool.false_eq_true, if_false] at hd
  have hop := isOperand_of_word hd hfun
  have hnum : IsNumber (String.mk (d :: rest)) = false :=
    IsNumber_false_of_other ⟨d, by simp, (letter_not_other hd).1, (letter_not_other hd).2.1⟩
  have hstep : ∀ st, EvaluateExpression.step M (String.mk (d :: rest)) st
      = Outcome.exit ("Invalid value \x27" ++ String.mk (d :: rest) ++ "\x27") :=
    fun st => EvaluateExpression.step_invalid M st hop hpi he hnum
  refine ⟨fun message h => SplitLine_exit _ message h, hmem, hstep, ?_⟩
  intro v
  apply calculate_rejects M _ (String.mk (d :: rest)) hmem hop
  intro st next h
  rw [hstep st] at h
  cases h

theorem C9_unknown_identifier_rejected_at_evaluation_witness :
    (MaximalRun false ['2', '*'] ['a', 'b', 'c'] ['+', '1']
      ∧ found FUNCTIONS "abc" = false ∧ "abc" ≠ "pi" ∧ "abc" ≠ "e")
    ∧ (∀ result, SplitLine "2*abc+1" = Outcome.value result → "abc" ∈ result)
    ∧ (∀ st, EvaluateExpression.step exactLibm "abc" st = Outcome.exit "Invalid value \x27abc\x27")
    ∧ (∀ v, calculate exactLibm "2*abc+1" ≠ Outcome.value v) :=
  have hrun : MaximalRun false ['2', '*'] ['a', 'b', 'c'] ['+', '1'] :=
    ⟨⟨'a', ['b', 'c'], rfl, by decide, by decide⟩,
      fun c h => by cases h; decide, fun c h => by cases h; decide⟩
  have h := C9_unknown_identifier_rejected_at_evaluation exactLibm ['2', '*'] ['a', 'b', 'c']
    ['+', '1'] hrun (by decide) (by decide) (by decide)
  ⟨⟨hrun, by decide, by decide, by decide⟩, h.2.1, h.2.2.1, h.2.2.2⟩

/-- C9, counterexample: `SplitLine` emits the unknown identifier `abc` as a token, and the
pipeline returns a value for the line `1 2 n`, whose identifier `n` is found in
`FUNCTIONS` by `find`. -/
theorem C9_counterexample :
    SplitLine "abc" = Outcome.value ["(", "abc", ")"]
      ∧ calculate exactLibm "1 2 n" = Outcome.value 1 :=
  ⟨by decide, calculate_fragment_example exactLibm⟩

/-! ## C10: numbers with several dots -/

/-- C10 (as amended). `SplitLine` has no malformed-number error (its only error is
`Incorrect input` of a character): every maximal run that starts with a digit and is made
of digits and dots is emitted as one token, whatever the number of dots.  A run with at
most one dot denotes a number `x` that `EvaluateExpression` has `std::stod` convert: `x`
itself is pushed when it is zero or a normal double, and in any case a value is pushed or
the evaluation ends with the exception `std::out_of_range`.  A run with two dots or more
is rejected by `EvaluateExpression` with `Invalid value`, and the pipeline returns no value
for a line that contains it. -/
theorem C10_numbers_checked_at_evaluation (M : Libm) (before run after : List Char)
    (hrun : MaximalRun true before run after) :
    (∀ message, SplitLine (String.mk (before ++ run ++ after)) = Outcome.exit message →
        ∃ c, c ∈ before ++ run ++ after
          ∧ message = "Incorrect input \x27" ++ String.mk [c] ++ "\x27")
      ∧ (∀ result, SplitLine (String.mk (before ++ run ++ after)) = Outcome.value result →
          String.mk run ∈ result)
      ∧ (run.count '.' ≤ 1 → ∃ x, decimal (String.mk run) = some x
          ∧ (convertsExactly x = true →
              ∀ st, EvaluateExpression.step M (String.mk run) st = Outcome.value (x :: st))
          ∧ ((∃ v, ∀ st, EvaluateExpression.step M (String.mk run) st
                = Outcome.value (v :: st))
            ∨ ∀ st, EvaluateExpression.step M (String.mk run) st
                = Outcome.uncaught "std::out_of_range"))
      ∧ (2 ≤ run.count '.' →
          (∀ st, EvaluateExpression.step M (String.mk run) st
            = Outcome.exit ("Invalid value \x27" ++ String.mk run ++ "\x27"))
          ∧ ∀ v, calculate M (String.mk (before ++ run ++ after)) ≠ Outcome.value v) := by
  have hmem := SplitLine.run_mem true before run after hrun
  obtain ⟨⟨d, rest, rfl, hd, hrest⟩, _, _⟩ := hrun
  simp only [if_true] at hd
  have htok := isNumberToken_of_run hd hrest
  have hop := operand_of_numberToken htok
  have hne := numberToken_ne_constant htok
  refine ⟨fun message h => SplitLine_exit _ message h, hmem, ?_, ?_⟩
  · intro hdots
    have hnum := IsNumber_true_of_run (numberToken_runClass htok) hdots
    obtain ⟨x, hx⟩ := numberToken_decimal htok
    refine ⟨x, hx, fun hexact st =>
      EvaluateExpression.step_number M st hop hne.1 hne.2 hnum hx hexact, ?_⟩
    rcases EvaluateExpression.step_numberToken M htok hnum with ⟨v, _, hv⟩ | ⟨_, hv⟩
    · exact Or.inl ⟨v, hv⟩
    · exact Or.inr hv
  · intro hdots
    have hstep : ∀ st, EvaluateExpression.step M (String.mk (d :: rest)) st
        = Outcome.exit ("Invalid value \x27" ++ String.mk (d :: rest) ++ "\x27") :=
      fun st => EvaluateExpression.step_invalid M st hop hne.1 hne.2
        (IsNumber_false_of_dots hdots)
    refine ⟨hstep, fun v => ?_⟩
    apply calculate_rejects M _ (String.mk (d :: rest)) hmem hop
    intro st next h
    rw [hstep st] at h
    cases h

theorem C10_numbers_checked_at_evaluation_witness :
    MaximalRun true ['2', '*'] ['1', '.', '2', '.', '3'] ['+', '1']
    ∧ (∀ result, SplitLine "2*1.2.3+1" = Outcome.value result → "1.2.3" ∈ result)
    ∧ ((∀ st, EvaluateExpression.step exactLibm "1.2.3" st
          = Outcome.exit "Invalid value \x271.2.3\x27")
        ∧ ∀ v, calculate exactLibm "2*1.2.3+1" ≠ Outcome.value v) :=
  have hrun : MaximalRun true ['2', '*'] ['1', '.', '2', '.', '3'] ['+', '1'] :=
    ⟨⟨'1', ['.', '2', '.', '3'], rfl, by decide, by decide⟩,
      fun c h => by cases h; decide, fun c h => by cases h; decide⟩
  have h := C10_numbers_checked_at_evaluation exactLibm ['2', '*'] ['1', '.', '2', '.', '3']
    ['+', '1'] hrun
  ⟨hrun, h.2.1, h.2.2.2 (by decide)⟩

/-- C10, counterexample: `SplitLine` emits the run `1.2.3`, with two dots, as a token. -/
theorem C10_counterexample : SplitLine "1.2.3" = Outcome.value ["(", "1.2.3", ")"] := by
  decide

/-! ### An illustration: a number that is rounded -/

/-- An odd integer from `2 ^ 53` on is no double: it takes more than 53 bits. -/
theorem not_isDouble_odd (n : ℤ) (hodd : ¬ 2 ∣ n) (hbig : 2 ^ 53 ≤ n) :
    isDouble (n : ℚ) = false := by
  rw [Bool.eq_false_iff]
  intro h
  obtain ⟨m, e, hm, _, _, hx⟩ := (isDouble_iff _).1 h
  rcases le_or_lt e 0 with he | he
  · obtain ⟨k, rfl⟩ : ∃ k : ℕ, e = -(k : ℤ) := ⟨(-e).toNat, by omega⟩
    have h2 : (2 : ℚ) ^ k ≠ 0 := pow_ne_zero _ two_ne_zero
    have h1 : (n : ℚ) * 2 ^ k = m := by
      rw [hx, zpow_neg, zpow_natCast, mul_assoc, inv_mul_cancel₀ h2, mul_one]
    have h3 : n * 2 ^ k = m := by exact_mod_cast h1
    have h4 : (1 : ℤ) ≤ 2 ^ k := one_le_pow₀ (by norm_num)
    have h0 : (0 : ℤ) ≤ n := le_trans (by positivity) hbig
    have h5 : n ≤ m := by
      rw [← h3]
      exact le_mul_of_one_le_right h0 h4
    have h6 := (abs_lt.mp hm).2
    omega
  · obtain ⟨k, rfl⟩ : ∃ k : ℕ, e = (k : ℤ) + 1 := ⟨(e - 1).toNat, by omega⟩
    have h1 : (n : ℚ) = ((m * 2 ^ k * 2 : ℤ) : ℚ) := by
      rw [hx, zpow_add₀ two_ne_zero, zpow_natCast]
      push_cast
      ring
    have h3 : n = m * 2 ^ k * 2 := by exact_mod_cast h1
    exact hodd ⟨m * 2 ^ k, by rw [h3]; ring⟩

theorem not_isDouble_example : isDouble 9007199254740993 = false := by
  have h := not_isDouble_odd 9007199254740993 (by norm_num) (by norm_num)
  simpa using h

theorem log_odd : Int.log 2 (|(9007199254740993 : ℚ)|) = 53 := by
  have hx : (0 : ℚ) < |(9007199254740993 : ℚ)| := by norm_num
  apply le_antisymm
  · have := (Int.lt_zpow_iff_log_lt (b := 2) (by norm_num) hx (x := 54)).1
      (by norm_num [abs_of_pos])
    omega
  · exact (Int.zpow_le_iff_le_log (b := 2) (by norm_num) hx).1 (by norm_num [abs_of_pos])

/-- Rounded to nearest, ties to even, `2 ^ 53 + 1` is the double `2 ^ 53`. -/
theorem nearestDouble_odd : nearestDouble 9007199254740993 = 9007199254740992 := by
  unfold nearestDouble
  rw [log_odd]
  have hf : ⌊(9007199254740993 : ℚ) / (2 ^ (max (53 : ℤ) (-1022) - 52))⌋
      = 4503599627370496 := by
    rw [Int.floor_eq_iff]
    norm_num
  simp only [roundHalfEven, hf]
  norm_num

theorem decimal_odd : decimal "9007199254740993" = some 9007199254740993 := by
  simp [decimal, decimalValue]

/-- With rounding to nearest, `std::stod` gives `2 ^ 53` for the literal
`9007199254740993`, and `EvaluateExpression` pushes that value. -/
theorem step_rounded_example (st : List ℚ) :
    EvaluateExpression.step exactLibm "9007199254740993" st
      = Outcome.value (9007199254740992 :: st) := by
  have h1 : convertsExactly 9007199254740993 = false := by
    simp [convertsExactly, not_isDouble_example]
  have h2 : ¬ ((2 : ℚ) ^ 1024 - 2 ^ 970 ≤ |(9007199254740993 : ℚ)|
      ∨ (|(9007199254740993 : ℚ)| < 2 ^ (-1022 : ℤ)
        ∧ isDouble 9007199254740993 = false)) := by
    have a1 : |(9007199254740993 : ℚ)| = 9007199254740993 := abs_of_pos (by norm_num)
    have a2 : (2 : ℚ) ^ 1024 = 2 ^ 970 * 2 ^ 54 := by rw [← pow_add]
    have a3 : (1 : ℚ) ≤ 2 ^ 970 := one_le_pow₀ (by norm_num)
    have a4 : (2 : ℚ) ^ (-1022 : ℤ) ≤ 2 ^ (0 : ℤ) :=
      zpow_le_zpow_right₀ (by norm_num) (by norm_num)
    rw [a1, a2]
    rintro (h | ⟨h, _⟩)
    · have : (2 : ℚ) ^ 970 * 2 ^ 54 - 2 ^ 970 = 2 ^ 970 * (2 ^ 54 - 1) := by ring
      rw [this] at h
      have : (1 : ℚ) * (2 ^ 54 - 1) ≤ 2 ^ 970 * (2 ^ 54 - 1) :=
        mul_le_mul_of_nonneg_right a3 (by norm_num)
      norm_num at this
      linarith
    · rw [zpow_zero] at a4
      linarith
  have hc : exactLibm.convert 9007199254740993 = Outcome.value 9007199254740992 := by
    unfold Libm.convert
    rw [h1]
    simp only [Bool.false_eq_true, if_false, exactLibm, if_neg h2, nearestDouble_odd]
  rw [EvaluateExpression.step_stod exactLibm st (by decide) (by decide) (by decide)
    (by decide), stod_of_decimal exactLibm decimal_odd, hc]
  rfl

/-! ## C4: the implicit zero -/

theorem token_ne_minus {c : Char} {rest : List Char} (h : c ≠ '-') :
    String.mk (c :: rest) ≠ "-" := by
  intro e
  have := congrArg String.data e
  simp only [show ("-" : String).data = ['-'] from rfl, List.cons.injEq] at this
  exact h this.1

theorem SplitLine.scan_lexemes :
    ∀ (n : Nat) (chars : List Char) (result final : List String) (prev : String),
      chars.length ≤ n → result.getLast? = some prev →
      SplitLine.scan chars result = Outcome.value final →
      final = result ++ implicitZero prev (lexemes n chars) := by
  intro n
  induction n with
  | zero =>
    intro chars result final prev hlen _ h
    have : chars = [] := List.length_eq_zero.mp (Nat.le_zero.mp hlen)
    subst this
    rw [SplitLine.scan_nil] at h
    cases h
    simp [lexemes, implicitZero]
  | succ n ih =>
    intro chars result final prev hlen hprev h
    cases chars with
    | nil =>
      rw [SplitLine.scan_nil] at h
      cases h
      simp [lexemes, implicitZero]
    | cons c cs =>
      have hcs : cs.length ≤ n := by simpa using hlen
      rw [SplitLine.scan_cons] at h
      by_cases hdig : foundChar DIGITS c = true
      · have hguard : (foundChar DIGITS c || foundChar LETTERS c) = true := by simp [hdig]
        rw [if_pos hguard, SplitLine.collect_eq] at h
        simp only [hdig] at h
        have hne : String.mk (c :: cs.takeWhile (runClass true)) ≠ "-" :=
          token_ne_minus (fun e => (digit_not_op hdig).1 (by rw [e]; decide))
        have := ih _ _ final (String.mk (c :: cs.takeWhile (runClass true)))
          (le_trans (List.dropWhile_suffix _).length_le hcs) (by simp) h
        rw [this]
        simp [lexemes, hdig, implicitZero, hne]
      · by_cases hlet : foundChar LETTERS c = true
        · have hguard : (foundChar DIGITS c || foundChar LETTERS c) = true := by simp [hlet]
          have hd : foundChar DIGITS c = false := by simpa using hdig
          rw [if_pos hguard, SplitLine.collect_eq] at h
          simp only [hd] at h
          have hne : String.mk (c :: cs.takeWhile (runClass false)) ≠ "-" :=
            token_ne_minus (fun e => (letter_not_other hlet).2.2.1 (by rw [e]; decide))
          have := ih _ _ final (String.mk (c :: cs.takeWhile (runClass false)))
            (le_trans (List.dropWhile_suffix _).length_le hcs) (by simp) h
          rw [this]
          simp [lexemes, hd, hlet, implicitZero, hne]
        · have hguard : ¬ (foundChar DIGITS c || foundChar LETTERS c) = true := by
            simp [hdig, hlet]
          rw [if_neg hguard] at h
          by_cases hop : foundChar OPS c = true
          · rw [if_pos hop] at h
            by_cases hz : c = '-' ∧ result.getLast? = some "("
            · rw [if_pos hz] at h
              have := ih _ _ final (String.mk [c]) hcs (by simp) h
              rw [this]
              obtain ⟨rfl, hl⟩ := hz
              have hp : prev = "(" := by
                rw [hprev] at hl
                exact Option.some.inj hl
              subst hp
              simp only [lexemes, hdig, hlet, hop, if_true, Bool.false_eq_true, if_false,
                implicitZero]
              have e : (String.mk ['-'] = "-" ∧ "(" = "(") := ⟨rfl, rfl⟩
              simp [e]
            · rw [if_neg hz] at h
              have := ih _ _ final (String.mk [c]) hcs (by simp) h
              rw [this]
              have hz2 : ¬ (String.mk [c] = "-" ∧ prev = "(") := by
                rintro ⟨e1, e2⟩
                apply hz
                constructor
                · have := congrArg String.data e1
                  simpa using this
                · rw [hprev, e2]
              simp only [lexemes, hdig, hlet, hop, if_true, Bool.false_eq_true, if_false,
                implicitZero, hz2]
              simp
          · rw [if_neg hop] at h
            by_cases hsp : c ≠ ' '
            · rw [if_pos hsp] at h
              simp [ThrowError] at h
            · rw [if_neg hsp] at h
              have := ih _ _ final prev hcs hprev h
              rw [this]
              simp [lexemes, hdig, hlet, hop]

theorem implicitZero_chain (tokens : List String) :
    ∀ prev, List.Chain (fun a b => ¬ (a = "(" ∧ b = "-")) prev
      (implicitZero prev tokens ++ [")"]) := by
  induction tokens with
  | nil =>
    intro prev
    simp only [implicitZero, List.nil_append, List.chain_cons, List.Chain.nil, and_true]
    rintro ⟨_, h⟩
    revert h
    decide
  | cons t rest ih =>
    intro prev
    unfold implicitZero
    split
    · rename_i h
      simp only [List.cons_append, List.chain_cons]
      refine ⟨?_, ?_, ih t⟩
      · rintro ⟨_, h2⟩; revert h2; decide
      · rintro ⟨h1, _⟩; revert h1; decide
    · rename_i h
      simp only [List.cons_append, List.chain_cons]
      refine ⟨?_, ih t⟩
      rintro ⟨h1, h2⟩
      exact h ⟨h2, h1⟩

theorem calculate_unary_minus_example (M : Libm) :
    calculate M "-5 + 3" = Outcome.value (-2) := by
  have hs : SplitLine "-5 + 3" = Outcome.value ["(", "0", "-", "5", "+", "3", ")"] := by
    decide
  have hp : ParseExpression ["(", "0", "-", "5", "+", "3", ")"] = ["0", "5", "-", "3", "+"] := by
    decide
  simp only [calculate, hs, Outcome.andThen_value, hp, EvaluateExpression,
    EvaluateExpression.loop_cons,
    EvaluateExpression.loop_nil, step_0, step_5, step_3, step_add, step_sub]
  rw [show (0 : ℚ) - 5 = -5 by norm_num, M.fl_neg_ofNat 5 (by norm_num),
    show (-5 : ℚ) + 3 = -2 by norm_num, M.fl_neg_ofNat 2 (by norm_num)]

/-- C4. Implicit-zero rule: when `SplitLine` succeeds, its result is the sentinel `(`, then
the tokens of the line in which a `0` token is inserted before each `-` that is the first
token or immediately follows a `(` token, and nothing else, then the sentinel `)`; so no
`-` token directly follows a `(` token in the result; and the pipeline evaluates `-5 + 3`
to -2. -/
theorem C4_implicit_zero (M : Libm) (line : String) (result : List String)
    (h : SplitLine line = Outcome.value result) :
    result = "(" :: implicitZero "(" (lexemes line.length line.data) ++ [")"]
      ∧ List.Chain' (fun a b => ¬ (a = "(" ∧ b = "-")) result
      ∧ calculate M "-5 + 3" = Outcome.value (-2) := by
  have hform : result = "(" :: implicitZero "(" (lexemes line.length line.data) ++ [")"] := by
    unfold SplitLine at h
    obtain ⟨r, hscan, hr⟩ := Outcome.andThen_eq_value h
    simp only [Outcome.value.injEq] at hr
    have := SplitLine.scan_lexemes line.data.length line.data ["("] r "(" (Nat.le_refl _)
      rfl hscan
    rw [← hr, this]
    rfl
  refine ⟨hform, ?_, calculate_unary_minus_example M⟩
  rw [hform]
  exact implicitZero_chain _ "("

theorem C4_implicit_zero_witness :
    SplitLine "( -5 + 3 ) * -2" = Outcome.value
        ["(", "(", "0", "-", "5", "+", "3", ")", "*", "-", "2", ")"]
    ∧ ["(", "(", "0", "-", "5", "+", "3", ")", "*", "-", "2", ")"]
        = "(" :: implicitZero "(" (lexemes "( -5 + 3 ) * -2".length "( -5 + 3 ) * -2".data)
            ++ [")"]
    ∧ List.Chain' (fun a b => ¬ (a = "(" ∧ b = "-"))
        ["(", "(", "0", "-", "5", "+", "3", ")", "*", "-", "2", ")"]
    ∧ calculate exactLibm "-5 + 3" = Outcome.value (-2) :=
  have h : SplitLine "( -5 + 3 ) * -2" = Outcome.value
      ["(", "(", "0", "-", "5", "+", "3", ")", "*", "-", "2", ")"] := by decide
  ⟨h, C4_implicit_zero exactLibm "( -5 + 3 ) * -2" _ h⟩

/-! ## C1: the pipeline computes the value of a well-formed expression -/

/-- C1 (as amended). For every expression derived by the grammar `E -> E (+|-) T | T`,
`T -> T (*|/) F | F`, `F -> number | ( E )` whose evaluation divides by no zero and in
which no rounding occurs (every literal is zero or a normal double, the exact result of
every operation is a double), and for every text of it (its tokens with any number of
spaces before, between and after them), `EvaluateExpression(ParseExpression(SplitLine(text)))`
returns the mathematical value of the expression. -/
theorem C1_pipeline_computes_value (M : Libm) (e : Expr) (gaps : List Nat) (v : ℚ)
    (hwf : e.grammatical = true) (hexact : e.roundingFree = true) (hv : e.value = some v) :
    calculate M (String.mk (layout gaps e.tokens)) = Outcome.value v := by
  unfold calculate
  rw [SplitLine_expr e gaps, Outcome.andThen_value, ParseExpression_expr e hwf,
    EvaluateExpression_expr M e v hexact hv]

theorem NumLit.value_1_5 : (⟨1, [], some [5]⟩ : NumLit).value = 3 / 2 := by
  have h5 : ((5 : Fin 10) : ℕ) = 5 := rfl
  simp [NumLit.value, digitsValue, h5]
  norm_num

theorem NumLit.value_2 : (⟨2, [], none⟩ : NumLit).value = 2 := by
  simp [NumLit.value, digitsValue]

theorem NumLit.value_4 : (⟨4, [], none⟩ : NumLit).value = 4 := by
  have h4 : ((4 : Fin 10) : ℕ) = 4 := rfl
  simp [NumLit.value, digitsValue, h4]

theorem NumLit.value_1 : (⟨1, [], none⟩ : NumLit).value = 1 := by
  simp [NumLit.value, digitsValue]

theorem exampleExpr_value : exampleExpr.value = some 7 := by
  simp only [exampleExpr, Expr.value, NumLit.value_1_5, NumLit.value_2, NumLit.value_4,
    BinOp.apply]
  norm_num

theorem exampleExpr_roundingFree : exampleExpr.roundingFree = true := by
  have e1 : convertsExactly (3 / 2) = true :=
    convertsExactly_of_one_le (by simpa using isDouble_half 3 (by norm_num)) (by norm_num)
  have e2 : isDouble (7 / 2) = true := by simpa using isDouble_half 7 (by norm_num)
  have e3 : isDouble 14 = true := by simpa using isDouble_natCast 14 (by norm_num)
  have e4 : isDouble 7 = true := by simpa using isDouble_natCast 7 (by norm_num)
  have v1 : (3 / 2 : ℚ) + 2 = 7 / 2 := by norm_num
  have v2 : (7 / 2 : ℚ) * 4 = 14 := by norm_num
  have v3 : (14 : ℚ) / 2 = 7 := by norm_num
  have z : ¬ ((2 : ℚ) = 0) := by norm_num
  simp only [exampleExpr, Expr.roundingFree, Expr.value, NumLit.value_1_5, NumLit.value_2,
    NumLit.value_4, BinOp.apply, v1, v2, v3, z, if_false, e1, e2, e3, e4,
    convertsExactly_ofNat 2 (by norm_num), convertsExactly_ofNat 4 (by norm_num),
    Bool.and_self]

theorem exampleExpr_text :
    String.mk (layout [1, 0, 1, 0, 2, 1, 1, 0, 0, 3] exampleExpr.tokens)
      = " (1.5 +2  ) * 4/2   " := by
  decide

theorem C1_pipeline_computes_value_witness :
    (exampleExpr.grammatical = true ∧ exampleExpr.roundingFree = true
      ∧ exampleExpr.value = some 7)
    ∧ calculate exactLibm " (1.5 +2  ) * 4/2   " = Outcome.value 7 :=
  ⟨⟨by decide, exampleExpr_roundingFree, exampleExpr_value⟩,
    exampleExpr_text ▸ C1_pipeline_computes_value exactLibm exampleExpr
      [1, 0, 1, 0, 2, 1, 1, 0, 0, 3] 7 (by decide) exampleExpr_roundingFree exampleExpr_value⟩

/-! ### The counterexample: a literal that is rounded -/

/-- A fraction whose denominator has an odd prime factor that the numerator has not is no
double. -/
theorem not_isDouble_div (a b p : ℤ) (hp : Prime p) (h2 : ¬ p ∣ 2) (hb : p ∣ b)
    (ha : ¬ p ∣ a) (hb0 : b ≠ 0) : isDouble ((a : ℚ) / b) = false := by
  rw [Bool.eq_false_iff]
  intro h
  obtain ⟨k, n, hn⟩ := isDouble_scaled h
  have hbq : (b : ℚ) ≠ 0 := by exact_mod_cast hb0
  have h1 : (a : ℚ) * 2 ^ k = n * b := by
    rw [← hn]; field_simp
  have h3 : a * 2 ^ k = n * b := by exact_mod_cast h1
  have h4 : p ∣ a * 2 ^ k := by
    rw [h3]; exact Dvd.dvd.mul_left hb n
  rcases hp.dvd_or_dvd h4 with h5 | h5
  · exact ha h5
  · exact h2 (hp.dvd_of_dvd_pow h5)

/-- The literal `0.99999999999999999` is no double: its denominator has the factor 5. -/
theorem not_isDouble_nines :
    isDouble (99999999999999999 / 100000000000000000) = false := by
  have h := not_isDouble_div 99999999999999999 100000000000000000 5 (by norm_num)
    (by norm_num) (by norm_num) (by norm_num) (by norm_num)
  simpa using h

theorem log_nines : Int.log 2 (|(99999999999999999 / 100000000000000000 : ℚ)|) = -1 := by
  have hx : (0 : ℚ) < |(99999999999999999 / 100000000000000000 : ℚ)| := by norm_num
  apply le_antisymm
  · have := (Int.lt_zpow_iff_log_lt (b := 2) (by norm_num) hx (x := 0)).1
      (by norm_num [abs_of_pos])
    omega
  · exact (Int.zpow_le_iff_le_log (b := 2) (by norm_num) hx).1 (by norm_num [abs_of_pos])

/-- Rounded to nearest, the literal `0.99999999999999999` is the double 1. -/
theorem nearestDouble_nines :
    nearestDouble (99999999999999999 / 100000000000000000) = 1 := by
  unfold nearestDouble
  rw [log_nines]
  have hf : ⌊(99999999999999999 / 100000000000000000 : ℚ) / (2 ^ (max (-1 : ℤ) (-1022) - 52))⌋
      = 2 ^ 53 - 1 := by
    rw [Int.floor_eq_iff]
    norm_num
  simp only [roundHalfEven, hf]
  norm_num

theorem exactLibm_convert_nines :
    exactLibm.convert (99999999999999999 / 100000000000000000) = Outcome.value 1 := by
  have h1 : convertsExactly (99999999999999999 / 100000000000000000) = false := by
    simp [convertsExactly, not_isDouble_nines]
  have h2 : ¬ ((2 : ℚ) ^ 1024 - 2 ^ 970 ≤ |(99999999999999999 / 100000000000000000 : ℚ)|
      ∨ (|(99999999999999999 / 100000000000000000 : ℚ)| < 2 ^ (-1022 : ℤ)
        ∧ isDouble (99999999999999999 / 100000000000000000) = false)) := by
    have a1 : |(99999999999999999 / 100000000000000000 : ℚ)|
        = 99999999999999999 / 100000000000000000 := abs_of_pos (by norm_num)
    have a2 : (2 : ℚ) ^ 1024 = 2 ^ 970 * 2 ^ 54 := by rw [← pow_add]
    have a3 : (1 : ℚ) ≤ 2 ^ 970 := one_le_pow₀ (by norm_num)
    have a4 : (2 : ℚ) ^ (-1022 : ℤ) ≤ 2 ^ (-1 : ℤ) :=
      zpow_le_zpow_right₀ (by norm_num) (by norm_num)
    rw [a1, a2]
    rintro (h | ⟨h, _⟩)
    · have : (2 : ℚ) ^ 970 * 2 ^ 54 - 2 ^ 970 = 2 ^ 970 * (2 ^ 54 - 1) := by ring
      rw [this] at h
      have : (1 : ℚ) * (2 ^ 54 - 1) ≤ 2 ^ 970 * (2 ^ 54 - 1) :=
        mul_le_mul_of_nonneg_right a3 (by norm_num)
      norm_num at this
      linarith
    · have : (2 : ℚ) ^ (-1 : ℤ) = 1 / 2 := by norm_num
      rw [this] at a4
      linarith
  unfold Libm.convert
  rw [h1]
  simp only [Bool.false_eq_true, if_false, exactLibm, if_neg h2, nearestDouble_nines]

theorem decimal_nines :
    decimal "0.99999999999999999" = some (99999999999999999 / 100000000000000000) := by
  simp [decimal, decimalValue]
  norm_num

theorem calculate_rounding_example :
    calculate exactLibm "1 / (1 - 0.99999999999999999)" = Outcome.exit "Division by zero" := by
  have hs : SplitLine "1 / (1 - 0.99999999999999999)"
      = Outcome.value ["(", "1", "/", "(", "1", "-", "0.99999999999999999", ")", ")"] := by
    decide
  have hp : ParseExpression ["(", "1", "/", "(", "1", "-", "0.99999999999999999", ")", ")"]
      = ["1", "1", "0.99999999999999999", "-", "/"] := by
    decide
  have hstep : ∀ st, EvaluateExpression.step exactLibm "0.99999999999999999" st
      = Outcome.value (1 :: st) := by
    intro st
    rw [EvaluateExpression.step_stod exactLibm st (by decide) (by decide) (by decide)
      (by decide), stod_of_decimal exactLibm decimal_nines, exactLibm_convert_nines]
    rfl
  simp only [calculate, hs, Outcome.andThen_value, hp, EvaluateExpression,
    EvaluateExpression.loop_cons,
    EvaluateExpression.loop_nil, step_1, hstep, step_sub, sub_self, Libm.fl_zero,
    EvaluateExpression.step_div]
  rfl

theorem roundingExpr_value : roundingExpr.value = some 100000000000000000 := by
  have h9 : ((9 : Fin 10) : ℕ) = 9 := rfl
  have hv : (⟨0, [], some [9, 9, 9, 9, 9, 9, 9, 9, 9, 9, 9, 9, 9, 9, 9, 9, 9]⟩ : NumLit).value
      = 99999999999999999 / 100000000000000000 := by
    simp [NumLit.value, digitsValue, h9, Nat.ofDigits]
    norm_num
  simp only [roundingExpr, Expr.value, NumLit.value_1, hv, BinOp.apply]
  norm_num

/-! ### The counterexample: a quotient that is rounded -/

theorem log_third : Int.log 2 (|(1 / 3 : ℚ)|) = -2 := by
  have hx : (0 : ℚ) < |(1 / 3 : ℚ)| := by norm_num
  apply le_antisymm
  · have := (Int.lt_zpow_iff_log_lt (b := 2) (by norm_num) hx (x := -1)).1
      (by norm_num [abs_of_pos])
    omega
  · exact (Int.zpow_le_iff_le_log (b := 2) (by norm_num) hx).1 (by norm_num [abs_of_pos])

/-- Rounded to nearest, the quotient `1 / 3` is the double `6004799503160661 / 2 ^ 54`. -/
theorem nearestDouble_third :
    nearestDouble (1 / 3) = 6004799503160661 / 18014398509481984 := by
  unfold nearestDouble
  rw [log_third]
  have hf : ⌊(1 / 3 : ℚ) / (2 ^ (max (-2 : ℤ) (-1022) - 52))⌋ = 6004799503160661 := by
    rw [Int.floor_eq_iff]
    norm_num
  simp only [roundHalfEven, hf]
  norm_num

theorem NumLit.value_3 : (⟨3, [], none⟩ : NumLit).value = 3 := by
  have h3 : ((3 : Fin 10) : ℕ) = 3 := rfl
  simp [NumLit.value, digitsValue, h3]

theorem thirdExpr_value : thirdExpr.value = some (1 / 3) := by
  simp only [thirdExpr, Expr.value, NumLit.value_1, NumLit.value_3, BinOp.apply]
  norm_num

theorem calculate_third_example :
    calculate exactLibm "1 / 3" = Outcome.value (6004799503160661 / 18014398509481984) := by
  have hs : SplitLine "1 / 3" = Outcome.value ["(", "1", "/", "3", ")"] := by decide
  have hp : ParseExpression ["(", "1", "/", "3", ")"] = ["1", "3", "/"] := by decide
  have hd : isDouble ((1 : ℚ) / 3) = false := by
    have h := not_isDouble_div 1 3 3 (by norm_num) (by norm_num) (by norm_num) (by norm_num)
      (by norm_num)
    simpa using h
  have hfl : exactLibm.fl (1 / 3) = 6004799503160661 / 18014398509481984 := by
    unfold Libm.fl
    rw [hd]
    simp only [Bool.false_eq_true, if_false, exactLibm, nearestDouble_third]
  have h3 : ¬ ((3 : ℚ) = 0) := by norm_num
  simp only [calculate, hs, Outcome.andThen_value, hp, EvaluateExpression,
    EvaluateExpression.loop_cons, EvaluateExpression.loop_nil, step_1, step_3,
    EvaluateExpression.step_div, ne_eq, h3, not_false_eq_true, if_true, hfl]

/-- C1, counterexample.  The expression `1 / (1 - 0.99999999999999999)` is derived by the
grammar and its value is `10 ^ 17`, but `std::stod` rounds the literal
`0.99999999999999999` to the double 1, and the pipeline ends with `Division by zero`.  The
expression `1 / 3` is derived by the grammar and its literals are doubles, but its value
is no double: the pipeline returns the rounded quotient, which is not `1 / 3`. -/
theorem C1_counterexample :
    (roundingExpr.grammatical = true
      ∧ roundingExpr.value = some 100000000000000000
      ∧ String.mk (layout [0, 1, 1, 0, 1, 1, 0] roundingExpr.tokens)
          = "1 / (1 - 0.99999999999999999)"
      ∧ calculate exactLibm "1 / (1 - 0.99999999999999999)"
          = Outcome.exit "Division by zero")
    ∧ (thirdExpr.grammatical = true
      ∧ thirdExpr.value = some (1 / 3)
      ∧ String.mk (layout [0, 1, 1] thirdExpr.tokens) = "1 / 3"
      ∧ calculate exactLibm "1 / 3"
          = Outcome.value (6004799503160661 / 18014398509481984)
      ∧ (6004799503160661 / 18014398509481984 : ℚ) ≠ 1 / 3) :=
  ⟨⟨by decide, roundingExpr_value, by decide, calculate_rounding_example⟩,
    by decide, thirdExpr_value, by decide, calculate_third_example, by norm_num⟩

/-! ## C11: invalid characters -/

theorem runClass_plain {digit : Bool} {x : Char} (h : runClass digit x = true) :
    x ∈ plainCharacters.data := by
  have hd : ∀ y ∈ DIGITS.data, y ∈ plainCharacters.data := by decide
  have hl : ∀ y ∈ LETTERS.data, y ∈ plainCharacters.data := by decide
  cases digit with
  | true =>
    simp only [runClass, if_true, Bool.or_eq_true, decide_eq_true_eq] at h
    rcases h with h | rfl
    · exact hd x ((foundChar_iff _ _).mp h)
    · decide
  | false =>
    simp only [runClass, Bool.false_eq_true, if_false] at h
    exact hl x ((foundChar_iff _ _).mp h)

theorem op_plain {x : Char} (h : foundChar OPS x = true) : x ∈ plainCharacters.data := by
  have ho : ∀ y ∈ OPS.data, y ∈ plainCharacters.data := by decide
  exact ho x ((foundChar_iff _ _).mp h)

/-- A line with a character outside the plain ones makes the loop of `SplitLine` end with
`Incorrect input`. -/
theorem SplitLine.scan_rejects :
    ∀ (n : Nat) (chars : List Char) (result : List String), chars.length ≤ n →
      (∃ c, c ∈ chars ∧ c ∉ plainCharacters.data) →
      ∃ x, x ∈ chars ∧ SplitLine.scan chars result
        = Outcome.exit ("Incorrect input \x27" ++ String.mk [x] ++ "\x27") := by
  intro n
  induction n with
  | zero =>
    intro chars result hlen hbad
    have : chars = [] := List.length_eq_zero.mp (Nat.le_zero.mp hlen)
    subst this
    obtain ⟨c, hc, _⟩ := hbad
    cases hc
  | succ n ih =>
    intro chars result hlen hbad
    cases chars with
    | nil =>
      obtain ⟨c, hc, _⟩ := hbad
      cases hc
    | cons c0 cs =>
      have hcs : cs.length ≤ n := by simpa using hlen
      obtain ⟨c, hc, hnp⟩ := hbad
      have htail : c0 ∈ plainCharacters.data → ∃ y, y ∈ cs ∧ y ∉ plainCharacters.data := by
        intro h0
        rcases List.mem_cons.mp hc with rfl | hc
        · exact absurd h0 hnp
        · exact ⟨c, hc, hnp⟩
      rw [SplitLine.scan_cons]
      by_cases hrun : (foundChar DIGITS c0 || foundChar LETTERS c0) = true
      · rw [if_pos hrun, SplitLine.collect_eq]
        obtain ⟨y, hy, hynp⟩ := htail (runClass_plain (runClass_first hrun))
        have hy2 : y ∈ cs.dropWhile (runClass (foundChar DIGITS c0)) := by
          rw [← List.takeWhile_append_dropWhile (runClass (foundChar DIGITS c0)) cs] at hy
          rcases List.mem_append.mp hy with h | h
          · exact absurd (runClass_plain (List.mem_takeWhile_imp h)) hynp
          · exact h
        obtain ⟨x, hx, hres⟩ := ih _ (result ++ [String.mk ([c0] ++ cs.takeWhile
          (runClass (foundChar DIGITS c0)))])
          (le_trans (List.dropWhile_suffix _).length_le hcs) ⟨y, hy2, hynp⟩
        exact ⟨x, List.mem_cons_of_mem _ ((List.dropWhile_suffix _).subset hx), hres⟩
      · rw [if_neg hrun]
        by_cases hop : foundChar OPS c0 = true
        · rw [if_pos hop]
          obtain ⟨y, hy, hynp⟩ := htail (op_plain hop)
          split
          · obtain ⟨x, hx, hres⟩ := ih cs _ hcs ⟨y, hy, hynp⟩
            exact ⟨x, List.mem_cons_of_mem _ hx, hres⟩
          · obtain ⟨x, hx, hres⟩ := ih cs _ hcs ⟨y, hy, hynp⟩
            exact ⟨x, List.mem_cons_of_mem _ hx, hres⟩
        · rw [if_neg hop]
          by_cases hsp : c0 ≠ ' '
          · rw [if_pos hsp]
            exact ⟨c0, List.mem_cons_self _ _, rfl⟩
          · rw [if_neg hsp]
            have h0 : c0 = ' ' := by simpa using hsp
            obtain ⟨y, hy, hynp⟩ := htail (by rw [h0]; decide)
            obtain ⟨x, hx, hres⟩ := ih cs result hcs ⟨y, hy, hynp⟩
            exact ⟨x, List.mem_cons_of_mem _ hx, hres⟩

/-- C11. Invalid characters are rejected by the tokenizer: on a line with a character that
is not a digit, a decimal point, a lowercase letter, one of `+ - * / ^ ( )` or a space,
whatever its position, `SplitLine` ends with the error `Incorrect input` of a character of
the line, and returns no token sequence. -/
theorem C11_invalid_character_rejected (line : String) (c : Char) (hc : c ∈ line.data)
    (hbad : c ∉ plainCharacters.data) :
    (∃ x, x ∈ line.data
        ∧ SplitLine line = Outcome.exit ("Incorrect input \x27" ++ String.mk [x] ++ "\x27"))
      ∧ ∀ result, SplitLine line ≠ Outcome.value result := by
  obtain ⟨x, hx, hres⟩ := SplitLine.scan_rejects line.data.length line.data ["("]
    (Nat.le_refl _) ⟨c, hc, hbad⟩
  have h : SplitLine line
      = Outcome.exit ("Incorrect input \x27" ++ String.mk [x] ++ "\x27") := by
    unfold SplitLine
    rw [hres]
    rfl
  refine ⟨⟨x, hx, h⟩, ?_⟩
  intro result hr
  rw [h] at hr
  cases hr

theorem C11_invalid_character_rejected_witness :
    ('#' ∈ "2 + 3 # 4".data ∧ '#' ∉ plainCharacters.data)
    ∧ (∃ x, x ∈ "2 + 3 # 4".data ∧ SplitLine "2 + 3 # 4"
        = Outcome.exit ("Incorrect input \x27" ++ String.mk [x] ++ "\x27"))
    ∧ ∀ result, SplitLine "2 + 3 # 4" ≠ Outcome.value result :=
  ⟨⟨by decide, by decide⟩,
    C11_invalid_character_rejected "2 + 3 # 4" '#' (by decide) (by decide)⟩

/-! ## C12: the logarithm -/

theorem EvaluateExpression.step_log (M : Libm) (value : ℚ) (rest : List ℚ) :
    EvaluateExpression.step M "log" (value :: rest)
      = if value > 0 then Outcome.value (M.log value :: rest)
        else Outcome.exit "Invalid logarithm argument value" := rfl

theorem calculate_log_example (M : Libm) :
    calculate M "log ( -1 )" = Outcome.exit "Invalid logarithm argument value" := by
  have hs : SplitLine "log ( -1 )" = Outcome.value ["(", "log", "(", "0", "-", "1", ")", ")"] := by
    decide
  have hp : ParseExpression ["(", "log", "(", "0", "-", "1", ")", ")"]
      = ["0", "1", "-", "log"] := by
    decide
  simp only [calculate, hs, Outcome.andThen_value, hp, EvaluateExpression,
    EvaluateExpression.loop_cons,
    EvaluateExpression.loop_nil, step_0, step_1, step_sub, EvaluateExpression.step_log,
    zero_sub, Libm.fl_neg_one]
  norm_num [Outcome.andThen]

/-- C12. The natural logarithm is guarded by its domain: when `EvaluateExpression` reaches
a `log` token with the argument `value` on top of the operand stack, it ends with the error
`Invalid logarithm argument value` and no value if `value <= 0`, and pushes `log(value)`,
without that error, if `value > 0`; the pipeline fails on `log ( -1 )`. -/
theorem C12_logarithm_guarded (M : Libm) (before after : List String) (value : ℚ)
    (rest : List ℚ)
    (hreach : EvaluateExpression.loop M before [] = Outcome.value (value :: rest)) :
    (value ≤ 0 →
        EvaluateExpression M (before ++ "log" :: after)
          = Outcome.exit "Invalid logarithm argument value")
      ∧ (0 < value →
        EvaluateExpression.loop M (before ++ ["log"]) []
          = Outcome.value (M.log value :: rest))
      ∧ calculate M "log ( -1 )" = Outcome.exit "Invalid logarithm argument value" := by
  refine ⟨?_, ?_, calculate_log_example M⟩
  · intro h
    have hn : ¬ value > 0 := not_lt.mpr h
    simp only [EvaluateExpression, EvaluateExpression.loop_append, hreach,
      Outcome.andThen_value, EvaluateExpression.loop, EvaluateExpression.step_log, hn,
      if_false]
    rfl
  · intro h
    simp only [EvaluateExpression.loop_append, hreach, Outcome.andThen_value,
      EvaluateExpression.loop, EvaluateExpression.step_log, gt_iff_lt, h, if_true]

theorem C12_logarithm_guarded_witness :
    EvaluateExpression.loop exactLibm ["0", "1", "-"] [] = Outcome.value [-1]
    ∧ ((-1 : ℚ) ≤ 0 →
        EvaluateExpression exactLibm (["0", "1", "-"] ++ "log" :: ["2", "+"])
          = Outcome.exit "Invalid logarithm argument value")
    ∧ calculate exactLibm "log ( -1 )" = Outcome.exit "Invalid logarithm argument value" :=
  have hreach : EvaluateExpression.loop exactLibm ["0", "1", "-"] [] = Outcome.value [-1] := by
    simp only [EvaluateExpression.loop_cons,
    EvaluateExpression.loop_nil, step_0, step_1, step_sub, Outcome.andThen_value,
      zero_sub, Libm.fl_neg_one]
  have h := C12_logarithm_guarded exactLibm ["0", "1", "-"] ["2", "+"] (-1) [] hreach
  ⟨hreach, h.1, h.2.2⟩

/-! ## C13: spaces around operators, sentinels -/

theorem Boundary.of_op_right (before after : List Char) (c : Char)
    (h : runClass true c = false ∧ runClass false c = false) : Boundary before (c :: after) := by
  intro a b _ hb
  simp only [List.head?_cons, Option.some.injEq] at hb
  subst hb
  refine ⟨fun hh => ?_, fun hh => ?_⟩
  · rw [h.1] at hh; cases hh.2
  · rw [h.2] at hh; cases hh.2

theorem Boundary.of_op_left (before after : List Char) (c : Char)
    (h : runClass true c = false ∧ runClass false c = false) :
    Boundary (before ++ [c]) after := by
  intro a b ha _
  rw [List.getLast?_concat, Option.some.injEq] at ha
  subst ha
  refine ⟨fun hh => ?_, fun hh => ?_⟩
  · rw [h.1] at hh; cases hh.1
  · rw [h.2] at hh; cases hh.1

theorem op_runClass {c : Char} (h : foundChar OPS c = true) :
    runClass true c = false ∧ runClass false c = false := by
  have := op_not_other h
  simp [runClass, this.1, this.2.1, this.2.2.1]

theorem space_runClass : runClass true ' ' = false ∧ runClass false ' ' = false := by decide

theorem SplitLine.scan_space (chars : List Char) (result : List String) :
    SplitLine.scan (' ' :: chars) result = SplitLine.scan chars result :=
  SplitLine.scan_spaces 1 chars result

theorem SplitLine_sentinels (line : String) (result : List String)
    (h : SplitLine line = Outcome.value result) : ∃ tokens, result = "(" :: tokens ++ [")"] := by
  unfold SplitLine at h
  obtain ⟨r, hscan, hr⟩ := Outcome.andThen_eq_value h
  simp only [Outcome.value.injEq] at hr
  obtain ⟨added, ha⟩ := SplitLine.scan_grows _ _ _ _ (Nat.le_refl _) hscan
  exact ⟨added, by rw [← hr, ha]; rfl⟩

/-- C13. Tokens need not be separated by spaces: a space inserted (or deleted) immediately
before or after an operator or parenthesis character of a line does not change the result
of `SplitLine`; every successful result starts with `(` and ends with `)`;
`SplitLine("2+3")` and `SplitLine("2 + 3")` are `( 2 + 3 )`, `SplitLine("sin(1)")` is
`( sin ( 1 ) )`. -/
theorem C13_spaces_optional_sentinels (before after : List Char) (c : Char)
    (hop : foundChar OPS c = true) :
    SplitLine (String.mk (before ++ ' ' :: c :: after))
        = SplitLine (String.mk (before ++ c :: after))
      ∧ SplitLine (String.mk (before ++ c :: ' ' :: after))
        = SplitLine (String.mk (before ++ c :: after))
      ∧ (∀ line result, SplitLine line = Outcome.value result →
          ∃ tokens, result = "(" :: tokens ++ [")"])
      ∧ SplitLine "2+3" = Outcome.value ["(", "2", "+", "3", ")"]
      ∧ SplitLine "2 + 3" = Outcome.value ["(", "2", "+", "3", ")"]
      ∧ SplitLine "sin(1)" = Outcome.value ["(", "sin", "(", "1", ")", ")"] := by
  have hc := op_runClass hop
  refine ⟨?_, ?_, SplitLine_sentinels, by decide, by decide, by decide⟩
  · unfold SplitLine
    rw [SplitLine.scan_append _ before.length before _ (Nat.le_refl _)
        (Boundary.of_op_right before (c :: after) ' ' space_runClass),
      SplitLine.scan_append _ before.length before _ (Nat.le_refl _)
        (Boundary.of_op_right before after c hc)]
    have : SplitLine.scan (' ' :: c :: after) = SplitLine.scan (c :: after) := by
      funext r
      exact SplitLine.scan_space _ r
    rw [this]
  · unfold SplitLine
    have e1 : before ++ c :: ' ' :: after = (before ++ [c]) ++ ' ' :: after := by simp
    have e2 : before ++ c :: after = (before ++ [c]) ++ after := by simp
    simp only [e1, e2]
    rw [SplitLine.scan_append _ (before ++ [c]).length (before ++ [c]) _ (Nat.le_refl _)
        (Boundary.of_op_right (before ++ [c]) after ' ' space_runClass),
      SplitLine.scan_append _ (before ++ [c]).length (before ++ [c]) _ (Nat.le_refl _)
        (Boundary.of_op_left before after c hc)]
    have : SplitLine.scan (' ' :: after) = SplitLine.scan after := by
      funext r
      exact SplitLine.scan_space _ r
    rw [this]

theorem C13_spaces_optional_sentinels_witness :
    foundChar OPS '+' = true
    ∧ SplitLine "2 +3" = SplitLine "2+3"
    ∧ SplitLine "2+ 3" = SplitLine "2+3" :=
  have h := C13_spaces_optional_sentinels ['2'] ['3'] '+' (by decide)
  ⟨by decide, h.1, h.2.1⟩

/-! ## C15: a function applied to a function -/

/-- C15 (the code at the failing input). For functions `f g` and a number token `x`,
`ParseExpression` turns `( f g x )` into `f x g`: the outer function comes first, and is
applied to an empty operand stack; with parentheses, `( f ( g ( x ) ) )` becomes
`x g f`.  The pipeline on `sin cos 1` pops from an empty operand stack. -/
theorem C15_nested_functions (f g x : String) (hf : f ∈ functionNames)
    (hg : g ∈ functionNames) (hx : isNumberToken x = true) :
    ParseExpression ["(", f, g, x, ")"] = [f, x, g]
      ∧ ParseExpression ["(", f, "(", g, "(", x, ")", ")", ")"] = [x, g, f]
      ∧ calculate exactLibm "sin cos 1" = Outcome.undefined := by
  have hx := operand_of_numberToken hx
  simp only [functionNames, List.mem_cons, List.mem_singleton, List.not_mem_nil,
    or_false] at hf hg
  refine ⟨?_, ?_, by decide⟩
  all_goals
    rcases hf with rfl | rfl | rfl | rfl <;> rcases hg with rfl | rfl | rfl | rfl <;>
      (simp only [ParseExpression, List.foldl, ParseExpression.step_operand _ hx,
        ParseExpression.step_open]
       rfl)

theorem C15_nested_functions_witness :
    ("sin" ∈ functionNames ∧ "cos" ∈ functionNames ∧ isNumberToken "1" = true)
    ∧ ParseExpression ["(", "sin", "cos", "1", ")"] = ["sin", "1", "cos"]
    ∧ ParseExpression ["(", "sin", "(", "cos", "(", "1", ")", ")", ")"] = ["1", "cos", "sin"]
    ∧ calculate exactLibm "sin cos 1" = Outcome.undefined :=
  ⟨⟨by decide, by decide, by decide⟩,
    C15_nested_functions "sin" "cos" "1" (by decide) (by decide) (by decide)⟩

/-! ## C16: the letters -/

/-- C16 (the code at the failing input). The letter `y` is not in `LETTERS`, where `q` is
written twice: `SplitLine("y")` ends with `Incorrect input`, and so does a word with a `y`
in it. -/
theorem C16_letter_y_rejected :
    'y' ∉ LETTERS.data ∧ LETTERS.data.count 'q' = 2
      ∧ SplitLine "y" = Outcome.exit "Incorrect input \x27y\x27"
      ∧ SplitLine "xyz" = Outcome.exit "Incorrect input \x27y\x27"
      ∧ SplitLine "xqz" = Outcome.value ["(", "xqz", ")"] := by
  decide

/-! ## C18: `ParseExpression` reorders the tokens and drops the parentheses -/

theorem balancedFrom_fold (items : List String) :
    ∀ depth, balancedFrom items depth = true →
      items.foldl
        (fun depth t => if t = "(" then depth + 1 else if t = ")" then depth - 1 else depth)
        depth = 0 := by
  induction items with
  | nil =>
    intro depth h
    simpa [balancedFrom] using h
  | cons t rest ih =>
    intro depth h
    unfold balancedFrom at h
    simp only [List.foldl_cons]
    split at h
    · rename_i ht
      rw [if_pos ht]
      exact ih _ h
    · rename_i ht
      rw [if_neg ht]
      split at h
      · rename_i hc
        rw [if_pos hc]
        simp only [Bool.and_eq_true] at h
        exact ih _ h.2
      · rename_i hc
        rw [if_neg hc]
        exact ih _ h

theorem openCount_balanced {items : List String} (h : balancedTokens items = true) :
    openCount items = 0 :=
  balancedFrom_fold items 0 h

theorem ParseExpression.closeParen_perm (op_stack : List String) :
    ∀ main_stack,
      List.Perm
        (((ParseExpression.closeParen op_stack main_stack).1
          ++ (ParseExpression.closeParen op_stack main_stack).2).filter notParen)
        ((op_stack ++ main_stack).filter notParen) := by
  induction op_stack with
  | nil => intro main_stack; exact List.Perm.refl _
  | cons tmp rest ih =>
    intro main_stack
    unfold ParseExpression.closeParen
    split
    · rename_i h
      subst h
      simp only [List.cons_append]
      rw [List.filter_cons_of_neg (by decide)]
    · refine (ih (tmp :: main_stack)).trans ?_
      apply List.Perm.filter
      simp only [List.cons_append]
      exact List.perm_middle

theorem ParseExpression.popOps_perm (curr : String) (op_stack : List String) :
    ∀ main_stack,
      List.Perm
        ((ParseExpression.popOps curr op_stack main_stack).1
          ++ (ParseExpression.popOps curr op_stack main_stack).2)
        (op_stack ++ main_stack) := by
  induction op_stack with
  | nil => intro main_stack; exact List.Perm.refl _
  | cons tmp rest ih =>
    intro main_stack
    unfold ParseExpression.popOps
    split
    · refine (ih (tmp :: main_stack)).trans ?_
      simp only [List.cons_append]
      exact List.perm_middle
    · exact List.Perm.refl _

theorem ParseExpression.step_perm (st : List String × List String) (curr : String) :
    List.Perm
      (((ParseExpression.step st curr).1 ++ (ParseExpression.step st curr).2).filter notParen)
      ((curr :: (st.1 ++ st.2)).filter notParen) := by
  obtain ⟨op_stack, main_stack⟩ := st
  unfold ParseExpression.step
  split
  · split
    · rename_i h
      subst h
      rw [List.filter_cons_of_neg (by decide)]
      exact ParseExpression.closeParen_perm op_stack main_stack
    · split
      · exact List.Perm.refl _
      · apply List.Perm.filter
        cases op_stack with
        | nil => exact List.Perm.refl _
        | cons prev rest =>
          simp only
          split
          · exact List.Perm.refl _
          · simp only [List.cons_append]
            exact List.Perm.cons _ (ParseExpression.popOps_perm curr (prev :: rest) main_stack)
  · apply List.Perm.filter
    simp only
    exact List.perm_middle

theorem ParseExpression.foldl_perm (items : List String) :
    ∀ st : List String × List String,
      List.Perm
        (((items.foldl ParseExpression.step st).1
          ++ (items.foldl ParseExpression.step st).2).filter notParen)
        ((items ++ (st.1 ++ st.2)).filter notParen) := by
  induction items with
  | nil => intro st; exact List.Perm.refl _
  | cons t rest ih =>
    intro st
    simp only [List.foldl_cons]
    refine (ih _).trans ?_
    have h1 := ParseExpression.step_perm st t
    have h2 : List.Perm
        ((rest ++ ((ParseExpression.step st t).1 ++ (ParseExpression.step st t).2)).filter
          notParen)
        ((rest ++ t :: (st.1 ++ st.2)).filter notParen) := by
      rw [List.filter_append rest, List.filter_append rest]
      exact List.Perm.append_left _ h1
    refine h2.trans ?_
    apply List.Perm.filter
    rw [List.cons_append]
    exact List.perm_middle

/-- The output of `ParseExpression`, without its parentheses, is a permutation of the
input without its parentheses. -/
theorem ParseExpression_perm (items : List String) :
    List.Perm ((ParseExpression items).filter notParen) (items.filter notParen) := by
  have h := ParseExpression.foldl_perm items ([], [])
  simp only [List.append_nil] at h
  rw [ParseExpression_eq]
  refine List.Perm.trans ?_ h
  apply List.Perm.filter
  exact (List.perm_append_comm).trans (List.Perm.append_left _ (List.reverse_perm _))

theorem ParseExpression.closeParen_operands (op_stack : List String) :
    ∀ main_stack, (∀ t ∈ op_stack, isOperand t = false) →
      (ParseExpression.closeParen op_stack main_stack).2.filter isOperand
          = main_stack.filter isOperand
        ∧ ∀ t ∈ (ParseExpression.closeParen op_stack main_stack).1, isOperand t = false := by
  induction op_stack with
  | nil => intro main_stack h; exact ⟨rfl, h⟩
  | cons tmp rest ih =>
    intro main_stack h
    have h1 := h tmp (List.mem_cons_self _ _)
    have h2 : ∀ t ∈ rest, isOperand t = false := fun t ht => h t (List.mem_cons_of_mem _ ht)
    unfold ParseExpression.closeParen
    split
    · exact ⟨rfl, h2⟩
    · have := ih (tmp :: main_stack) h2
      rw [List.filter_cons_of_neg (by simp [h1])] at this
      exact this

theorem ParseExpression.popOps_operands (curr : String) (op_stack : List String) :
    ∀ main_stack, (∀ t ∈ op_stack, isOperand t = false) →
      (ParseExpression.popOps curr op_stack main_stack).2.filter isOperand
          = main_stack.filter isOperand
        ∧ ∀ t ∈ (ParseExpression.popOps curr op_stack main_stack).1, isOperand t = false := by
  induction op_stack with
  | nil => intro main_stack h; exact ⟨rfl, h⟩
  | cons tmp rest ih =>
    intro main_stack h
    have h1 := h tmp (List.mem_cons_self _ _)
    have h2 : ∀ t ∈ rest, isOperand t = false := fun t ht => h t (List.mem_cons_of_mem _ ht)
    unfold ParseExpression.popOps
    split
    · have := ih (tmp :: main_stack) h2
      rw [List.filter_cons_of_neg (by simp [h1])] at this
      exact this
    · exact ⟨rfl, h⟩

theorem ParseExpression.step_operands (st : List String × List String) (curr : String)
    (h : ∀ t ∈ st.1, isOperand t = false) :
    (ParseExpression.step st curr).2.filter isOperand
        = [curr].filter isOperand ++ st.2.filter isOperand
      ∧ ∀ t ∈ (ParseExpression.step st curr).1, isOperand t = false := by
  obtain ⟨op_stack, main_stack⟩ := st
  simp only at h
  by_cases hop : isOperand curr = true
  · rw [ParseExpression.step_operand _ hop]
    simp only [List.filter_cons_of_pos hop, List.filter_nil, List.singleton_append]
    exact ⟨trivial, h⟩
  · have hop' : isOperand curr = false := by simpa using hop
    have hguard : (found OPS curr || found FUNCTIONS curr) = true := by
      simp only [isOperand, Bool.and_eq_false_imp, Bool.not_eq_true', Bool.not_eq_false'] at hop'
      cases h1 : found OPS curr with
      | true => rfl
      | false => simpa using hop' h1
    have hcons : ∀ l : List String, (∀ t ∈ l, isOperand t = false) →
        ∀ t ∈ curr :: l, isOperand t = false := by
      intro l hl t ht
      rcases List.mem_cons.mp ht with rfl | ht
      · exact hop'
      · exact hl t ht
    rw [List.filter_cons_of_neg (by simp [hop']), List.filter_nil, List.nil_append]
    unfold ParseExpression.step
    rw [if_pos hguard]
    split
    · exact ParseExpression.closeParen_operands op_stack main_stack h
    · split
      · exact ⟨rfl, hcons _ h⟩
      · cases op_stack with
        | nil => exact ⟨rfl, hcons _ h⟩
        | cons prev rest =>
          simp only
          split
          · exact ⟨rfl, hcons _ h⟩
          · have := ParseExpression.popOps_operands curr (prev :: rest) main_stack h
            exact ⟨this.1, hcons _ this.2⟩

theorem ParseExpression.foldl_operands (items : List String) :
    ∀ st : List String × List String, (∀ t ∈ st.1, isOperand t = false) →
      (items.foldl ParseExpression.step st).2.filter isOperand
          = (items.filter isOperand).reverse ++ st.2.filter isOperand
        ∧ ∀ t ∈ (items.foldl ParseExpression.step st).1, isOperand t = false := by
  induction items with
  | nil => intro st h; exact ⟨rfl, h⟩
  | cons t rest ih =>
    intro st h
    have hs := ParseExpression.step_operands st t h
    have := ih _ hs.2
    simp only [List.foldl_cons]
    refine ⟨?_, this.2⟩
    rw [this.1, hs.1]
    by_cases ht : isOperand t = true
    · simp [List.filter_cons_of_pos ht]
    · simp [List.filter_cons_of_neg ht]

/-- The operands of the output of `ParseExpression` are those of the input, in the same
order. -/
theorem ParseExpression_operands (items : List String) :
    (ParseExpression items).filter isOperand = items.filter isOperand := by
  have h := ParseExpression.foldl_operands items ([], []) (by intro t ht; cases ht)
  rw [ParseExpression_eq, List.filter_append, List.filter_reverse, h.1]
  have : (items.foldl ParseExpression.step ([], [])).1.filter isOperand = [] := by
    rw [List.filter_eq_nil_iff]
    intro t ht
    simp [h.2 t ht]
  rw [this]
  simp

/-- C18. `ParseExpression` only reorders the tokens and drops the parentheses: for a token
sequence whose `(` and `)` tokens are balanced, the output has no `(` and no `)`, is a
permutation of the input tokens other than parentheses, and its operands (the tokens that
are neither operators nor functions) are those of the input in the same order. -/
theorem C18_ParseExpression_reorders (items : List String)
    (hbalanced : balancedTokens items = true) :
    "(" ∉ ParseExpression items ∧ ")" ∉ ParseExpression items
      ∧ List.Perm (ParseExpression items) (items.filter notParen)
      ∧ (ParseExpression items).filter isOperand = items.filter isOperand := by
  have hcount := ParseExpression.foldl_count items ([], []) 0 rfl (by simp) (by simp) (by simp)
  have hopen : "(" ∉ ParseExpression items := by
    have h0 : (ParseExpression items).count "(" = 0 := by
      rw [ParseExpression_eq, List.count_append, List.count_reverse,
        List.count_eq_zero_of_not_mem hcount.2.2.1, hcount.1]
      rw [Nat.zero_add]
      exact openCount_balanced hbalanced
    exact List.count_eq_zero.mp h0
  have hclose : ")" ∉ ParseExpression items := by
    rw [ParseExpression_eq]
    intro h
    rcases List.mem_append.mp h with h | h
    · exact hcount.2.2.2 (List.mem_reverse.mp h)
    · exact hcount.2.1 h
  refine ⟨hopen, hclose, ?_, ParseExpression_operands items⟩
  have hall : (ParseExpression items).filter notParen = ParseExpression items := by
    rw [List.filter_eq_self]
    intro t ht
    simp only [notParen, Bool.and_eq_true, decide_eq_true_eq]
    exact ⟨fun e => hopen (e ▸ ht), fun e => hclose (e ▸ ht)⟩
  rw [← hall]
  exact ParseExpression_perm items

theorem C18_ParseExpression_reorders_witness :
    balancedTokens ["(", "(", "1", "+", "2", ")", "*", "3", ")"] = true
    ∧ "(" ∉ ParseExpression ["(", "(", "1", "+", "2", ")", "*", "3", ")"]
    ∧ ")" ∉ ParseExpression ["(", "(", "1", "+", "2", ")", "*", "3", ")"]
    ∧ List.Perm (ParseExpression ["(", "(", "1", "+", "2", ")", "*", "3", ")"])
        (["(", "(", "1", "+", "2", ")", "*", "3", ")"].filter notParen)
    ∧ (ParseExpression ["(", "(", "1", "+", "2", ")", "*", "3", ")"]).filter isOperand
        = ["(", "(", "1", "+", "2", ")", "*", "3", ")"].filter isOperand :=
  ⟨by decide, C18_ParseExpression_reorders ["(", "(", "1", "+", "2", ")", "*", "3", ")"]
    (by decide)⟩

/-! ## C19: the simplified calculator and the full one -/

theorem Simplified.closeParen_eq (op_stack : List String) :
    ∀ main_stack, Simplified.ParseExpression.closeParen op_stack main_stack
      = ExprCalc.ParseExpression.closeParen op_stack main_stack := by
  induction op_stack with
  | nil => intro main_stack; rfl
  | cons tmp rest ih =>
    intro main_stack
    simp only [Simplified.ParseExpression.closeParen, ExprCalc.ParseExpression.closeParen, ih]

theorem Simplified.moveAll_same (source : List String) :
    ∀ target, Simplified.ParseExpression.moveAll source target
      = ExprCalc.ParseExpression.moveAll source target := by
  induction source with
  | nil => intro target; rfl
  | cons top rest ih =>
    intro target
    simp only [Simplified.ParseExpression.moveAll, ExprCalc.ParseExpression.moveAll, ih]

theorem Simplified.pr_ops_eq {t : String} (h : t ∈ commonOperators) :
    Simplified.pr_ops t = ExprCalc.pr_ops t := by
  have key : ∀ x ∈ commonOperators, Simplified.pr_ops x = ExprCalc.pr_ops x := by decide
  exact key t h

theorem Simplified.found_eq {t : String} (h : isCommonToken t = true) :
    found Simplified.OPS t = (found ExprCalc.OPS t || found FUNCTIONS t)
      ∧ found Simplified.OPS t = found ExprCalc.OPS t := by
  simp only [isCommonToken, Bool.or_eq_true, Bool.and_eq_true, decide_eq_true_eq] at h
  rcases h with ⟨hnum, _⟩ | hop
  · have h1 := numberToken_operand hnum
    obtain ⟨d, rest, hd, hdig, _⟩ := numberToken_data hnum
    have hd2 : d ∉ Simplified.OPS.data := by
      have key : ∀ x ∈ DIGITS.data, x ∉ Simplified.OPS.data := by decide
      exact key d ((foundChar_iff _ _).mp hdig)
    have h2 : found Simplified.OPS t = false :=
      not_found_of_mem (c := d) (by rw [hd]; exact List.mem_cons_self _ _) hd2
    simp [h1.1, h1.2, h2]
  · have key : ∀ x ∈ commonOperators,
        found Simplified.OPS x = (found ExprCalc.OPS x || found FUNCTIONS x)
          ∧ found Simplified.OPS x = found ExprCalc.OPS x := by decide
    exact key t hop

theorem Simplified.popOps_eq (curr : String) (hc : curr ∈ commonOperators)
    (op_stack : List String) :
    ∀ main_stack, (∀ t ∈ op_stack, t ∈ commonOperators) →
      Simplified.ParseExpression.popOps curr op_stack main_stack
        = ExprCalc.ParseExpression.popOps curr op_stack main_stack := by
  induction op_stack with
  | nil => intro main_stack _; rfl
  | cons tmp rest ih =>
    intro main_stack h
    have h1 := h tmp (List.mem_cons_self _ _)
    simp only [Simplified.ParseExpression.popOps, ExprCalc.ParseExpression.popOps,
      Simplified.pr_ops_eq hc, Simplified.pr_ops_eq h1,
      ih _ (fun t ht => h t (List.mem_cons_of_mem _ ht))]

theorem ParseExpression.closeParen_sub (op_stack : List String) :
    ∀ main_stack, ∀ t ∈ (ExprCalc.ParseExpression.closeParen op_stack main_stack).1,
      t ∈ op_stack := by
  induction op_stack with
  | nil => intro main_stack t ht; exact ht
  | cons tmp rest ih =>
    intro main_stack t ht
    unfold ExprCalc.ParseExpression.closeParen at ht
    split at ht
    · exact List.mem_cons_of_mem _ ht
    · exact List.mem_cons_of_mem _ (ih _ t ht)

theorem ParseExpression.popOps_sub (curr : String) (op_stack : List String) :
    ∀ main_stack, ∀ t ∈ (ExprCalc.ParseExpression.popOps curr op_stack main_stack).1,
      t ∈ op_stack := by
  induction op_stack with
  | nil => intro main_stack t ht; exact ht
  | cons tmp rest ih =>
    intro main_stack t ht
    unfold ExprCalc.ParseExpression.popOps at ht
    split at ht
    · exact List.mem_cons_of_mem _ (ih _ t ht)
    · exact ht

/-- The tokens that an iteration of `ParseExpression` leaves on `op_stack` were there
before, or are the token read, which is then no operand. -/
theorem ParseExpression.step_stack_sub (st : List String × List String) (curr : String) :
    ∀ t ∈ (ExprCalc.ParseExpression.step st curr).1,
      t ∈ st.1 ∨ (t = curr ∧ isOperand curr = false) := by
  obtain ⟨op_stack, main_stack⟩ := st
  intro t ht
  unfold ExprCalc.ParseExpression.step at ht
  split at ht
  · rename_i hguard
    have hno : isOperand curr = false := by
      simp only [Bool.or_eq_true] at hguard
      rcases hguard with h | h <;> simp [isOperand, h]
    split at ht
    · exact Or.inl (ParseExpression.closeParen_sub _ _ t ht)
    · split at ht
      · rcases List.mem_cons.mp ht with h | h
        · exact Or.inr ⟨h, hno⟩
        · exact Or.inl h
      · cases op_stack with
        | nil =>
          simp only [List.mem_singleton] at ht
          exact Or.inr ⟨ht, hno⟩
        | cons prev rest =>
          simp only at ht
          split at ht
          · rcases List.mem_cons.mp ht with h | h
            · exact Or.inr ⟨h, hno⟩
            · exact Or.inl h
          · rcases List.mem_cons.mp ht with h | h
            · exact Or.inr ⟨h, hno⟩
            · exact Or.inl (ParseExpression.popOps_sub _ _ _ t h)
  · exact Or.inl ht

theorem commonOperator_of_not_operand {t : String} (h : isCommonToken t = true)
    (hno : isOperand t = false) : t ∈ commonOperators := by
  simp only [isCommonToken, Bool.or_eq_true, Bool.and_eq_true, decide_eq_true_eq] at h
  rcases h with ⟨hnum, _⟩ | hop
  · rw [operand_of_numberToken hnum] at hno
    cases hno
  · exact hop

theorem Simplified.step_eq (st : List String × List String) (curr : String)
    (hc : isCommonToken curr = true) (hst : ∀ t ∈ st.1, t ∈ commonOperators) :
    Simplified.ParseExpression.step st curr = ExprCalc.ParseExpression.step st curr := by
  obtain ⟨op_stack, main_stack⟩ := st
  simp only at hst
  have hf := (Simplified.found_eq hc).1
  unfold Simplified.ParseExpression.step ExprCalc.ParseExpression.step
  rw [← hf]
  by_cases hfound : found Simplified.OPS curr = true
  · have hop : curr ∈ commonOperators := by
      apply commonOperator_of_not_operand hc
      rw [hf] at hfound
      simp only [Bool.or_eq_true] at hfound
      rcases hfound with h | h <;> simp [isOperand, h]
    simp only [hfound, if_true, Simplified.closeParen_eq]
    cases op_stack with
    | nil => rfl
    | cons prev rest =>
      simp only [Simplified.pr_ops_eq hop,
        Simplified.pr_ops_eq (hst prev (List.mem_cons_self _ _)),
        Simplified.popOps_eq curr hop (prev :: rest) main_stack hst]
  · simp only [hfound, Bool.false_eq_true, if_false]

theorem Simplified.foldl_eq (items : List String) :
    ∀ st : List String × List String, (∀ t ∈ items, isCommonToken t = true) →
      (∀ t ∈ st.1, t ∈ commonOperators) →
      items.foldl Simplified.ParseExpression.step st
        = items.foldl ExprCalc.ParseExpression.step st := by
  induction items with
  | nil => intro st _ _; rfl
  | cons c rest ih =>
    intro st hitems hst
    have hc := hitems c (List.mem_cons_self _ _)
    simp only [List.foldl_cons, Simplified.step_eq st c hc hst]
    apply ih _ (fun t ht => hitems t (List.mem_cons_of_mem _ ht))
    intro t ht
    rcases ParseExpression.step_stack_sub st c t ht with h | ⟨rfl, hno⟩
    · exact hst t h
    · exact commonOperator_of_not_operand hc hno

/-- On the common language both `ParseExpression` return the same sequence. -/
theorem Simplified.ParseExpression_eq_full (items : List String)
    (h : ∀ t ∈ items, isCommonToken t = true) :
    Simplified.ParseExpression items = ExprCalc.ParseExpression items := by
  unfold Simplified.ParseExpression ExprCalc.ParseExpression
  simp only [Simplified.foldl_eq items ([], []) h (by intro t ht; cases ht),
    Simplified.moveAll_same]

theorem ParseExpression.closeParen_main_sub (op_stack : List String) :
    ∀ main_stack, ∀ t ∈ (ExprCalc.ParseExpression.closeParen op_stack main_stack).2,
      t ∈ op_stack ∨ t ∈ main_stack := by
  induction op_stack with
  | nil => intro main_stack t ht; exact Or.inr ht
  | cons tmp rest ih =>
    intro main_stack t ht
    unfold ExprCalc.ParseExpression.closeParen at ht
    split at ht
    · exact Or.inr ht
    · rcases ih _ t ht with h | h
      · exact Or.inl (List.mem_cons_of_mem _ h)
      · rcases List.mem_cons.mp h with h | h
        · exact Or.inl (by rw [h]; exact List.mem_cons_self _ _)
        · exact Or.inr h

theorem ParseExpression.popOps_main_sub (curr : String) (op_stack : List String) :
    ∀ main_stack, ∀ t ∈ (ExprCalc.ParseExpression.popOps curr op_stack main_stack).2,
      t ∈ op_stack ∨ t ∈ main_stack := by
  induction op_stack with
  | nil => intro main_stack t ht; exact Or.inr ht
  | cons tmp rest ih =>
    intro main_stack t ht
    unfold ExprCalc.ParseExpression.popOps at ht
    split at ht
    · rcases ih _ t ht with h | h
      · exact Or.inl (List.mem_cons_of_mem _ h)
      · rcases List.mem_cons.mp h with h | h
        · exact Or.inl (by rw [h]; exact List.mem_cons_self _ _)
        · exact Or.inr h
    · exact Or.inr ht

theorem ParseExpression.step_main_sub (st : List String × List String) (curr : String) :
    ∀ t ∈ (ExprCalc.ParseExpression.step st curr).2, t = curr ∨ t ∈ st.1 ∨ t ∈ st.2 := by
  obtain ⟨op_stack, main_stack⟩ := st
  intro t ht
  unfold ExprCalc.ParseExpression.step at ht
  split at ht
  · split at ht
    · exact Or.inr (ParseExpression.closeParen_main_sub _ _ t ht)
    · split at ht
      · exact Or.inr (Or.inr ht)
      · cases op_stack with
        | nil => exact Or.inr (Or.inr ht)
        | cons prev rest =>
          simp only at ht
          split at ht
          · exact Or.inr (Or.inr ht)
          · exact Or.inr (ParseExpression.popOps_main_sub _ _ _ t ht)
  · rcases List.mem_cons.mp ht with h | h
    · exact Or.inl h
    · exact Or.inr (Or.inr h)

theorem ParseExpression.foldl_sub (items : List String) :
    ∀ (st : List String × List String) (t : String),
      (t ∈ (items.foldl ExprCalc.ParseExpression.step st).1
        ∨ t ∈ (items.foldl ExprCalc.ParseExpression.step st).2) →
      t ∈ items ∨ t ∈ st.1 ∨ t ∈ st.2 := by
  induction items with
  | nil => intro st t h; exact Or.inr h
  | cons c rest ih =>
    intro st t h
    simp only [List.foldl_cons] at h
    rcases ih _ t h with h | h | h
    · exact Or.inl (List.mem_cons_of_mem _ h)
    · rcases ParseExpression.step_stack_sub st c t h with h | ⟨h, _⟩
      · exact Or.inr (Or.inl h)
      · exact Or.inl (by rw [h]; exact List.mem_cons_self _ _)
    · rcases ParseExpression.step_main_sub st c t h with h | h | h
      · exact Or.inl (by rw [h]; exact List.mem_cons_self _ _)
      · exact Or.inr (Or.inl h)
      · exact Or.inr (Or.inr h)

/-- Every token of the output of `ParseExpression` is a token of the input. -/
theorem ParseExpression_sub (items : List String) (t : String)
    (h : t ∈ ExprCalc.ParseExpression items) : t ∈ items := by
  rw [ParseExpression_eq] at h
  have := ParseExpression.foldl_sub items ([], []) t (by
    rcases List.mem_append.mp h with h | h
    · exact Or.inr (List.mem_reverse.mp h)
    · exact Or.inl h)
  rcases this with h | h | h
  · exact h
  · cases h
  · cases h

/-- On a token of the common language, an iteration of the full `EvaluateExpression` that
goes on is also the iteration of the simplified one. -/
theorem Simplified.step_agrees (M : Libm) (stodOther : String → Option ℚ) (curr : String)
    (st next : List ℚ) (hc : isCommonToken curr = true)
    (h : ExprCalc.EvaluateExpression.step M curr st = Outcome.value next) :
    Simplified.EvaluateExpression.step M stodOther curr st = Outcome.value next := by
  simp only [isCommonToken, Bool.or_eq_true, Bool.and_eq_true, decide_eq_true_eq] at hc
  rcases hc with ⟨hnum, hisnum⟩ | hop
  · have hne := numberToken_ne_constant hnum
    rw [ExprCalc.EvaluateExpression.step_stod M st (operand_of_numberToken hnum) hne.1
      hne.2 hisnum] at h
    have hf := (Simplified.found_eq (t := curr) (by simp [isCommonToken, hnum, hisnum])).2
    rw [(numberToken_operand hnum).1] at hf
    simp only [Simplified.EvaluateExpression.step, hf, Bool.false_eq_true, if_false,
      Simplified.stod, hisnum, if_true]
    exact h
  · simp only [commonOperators, List.mem_cons, List.mem_singleton, List.not_mem_nil,
      or_false] at hop
    match st, h with
    | [], h =>
      rcases hop with rfl | rfl | rfl | rfl | rfl | rfl <;> cases h
    | [_], h =>
      rcases hop with rfl | rfl | rfl | rfl | rfl | rfl <;> cases h
    | second :: first :: rest, h =>
      rcases hop with rfl | rfl | rfl | rfl | rfl | rfl
      · exact h
      · exact h
      · exact h
      · rw [ExprCalc.EvaluateExpression.step_div] at h
        by_cases hz : second = 0
        · rw [if_neg (by simpa using hz)] at h
          cases h
        · rw [if_pos hz] at h
          have : Simplified.EvaluateExpression.step M stodOther "/" (second :: first :: rest)
              = if second = 0 then Outcome.undefined
                else Outcome.value (M.fl (first / second) :: rest) := rfl
          rw [this, if_neg hz]
          exact h
      · exact h
      · exact h

theorem Simplified.loop_agrees (M : Libm) (stodOther : String → Option ℚ)
    (rpn : List String) :
    ∀ (st final : List ℚ), (∀ t ∈ rpn, isCommonToken t = true) →
      ExprCalc.EvaluateExpression.loop M rpn st = Outcome.value final →
      Simplified.EvaluateExpression.loop M stodOther rpn st = Outcome.value final := by
  induction rpn with
  | nil => intro st final _ h; exact h
  | cons curr rest ih =>
    intro st final hc h
    simp only [ExprCalc.EvaluateExpression.loop] at h
    obtain ⟨next, hstep, hrest⟩ := Outcome.andThen_eq_value h
    simp only [Simplified.EvaluateExpression.loop,
      Simplified.step_agrees M stodOther curr st next (hc curr (List.mem_cons_self _ _)) hstep,
      Outcome.andThen_value]
    exact ih next final (fun t ht => hc t (List.mem_cons_of_mem _ ht)) hrest

/-- C19. The full calculator agrees with the simplified one on their common language: for
a token sequence of decimal number literals and tokens `+ - * / ( )`, both
`ParseExpression` return the same sequence, and when `EvaluateExpression` of
`expr_calc.cpp` returns a value on it, `EvaluateExpression` of `calc_simplified.cpp`
returns the same value. -/
theorem C19_simplified_agrees (M : Libm) (stodOther : String → Option ℚ)
    (items : List String) (hcommon : ∀ t ∈ items, isCommonToken t = true) :
    Simplified.ParseExpression items = ParseExpression items
      ∧ ∀ v, EvaluateExpression M (ParseExpression items) = Outcome.value v →
          Simplified.EvaluateExpression M stodOther (Simplified.ParseExpression items)
            = Outcome.value v := by
  have hparse := Simplified.ParseExpression_eq_full items hcommon
  refine ⟨hparse, ?_⟩
  intro v hv
  rw [hparse]
  unfold ExprCalc.EvaluateExpression at hv
  obtain ⟨final, hloop, htop⟩ := Outcome.andThen_eq_value hv
  unfold Simplified.EvaluateExpression
  rw [Simplified.loop_agrees M stodOther _ [] final
    (fun t ht => hcommon t (ParseExpression_sub items t ht)) hloop, Outcome.andThen_value]
  exact htop

theorem decimal_2_5 : decimal "2.5" = some (5 / 2) := by
  simp [decimal, decimalValue]
  norm_num

theorem step_2_5 (M : Libm) (st : List ℚ) :
    ExprCalc.EvaluateExpression.step M "2.5" st = Outcome.value (5 / 2 :: st) :=
  ExprCalc.EvaluateExpression.step_number M st (by decide) (by decide) (by decide) (by decide)
    decimal_2_5
    (convertsExactly_of_one_le (by simpa using isDouble_half 5 (by norm_num)) (by norm_num))

theorem evaluate_common_example (M : Libm) :
    ExprCalc.EvaluateExpression M (ExprCalc.ParseExpression ["(", "1", "+", "2.5", ")", "*", "4"])
      = Outcome.value 14 := by
  have hp : ExprCalc.ParseExpression ["(", "1", "+", "2.5", ")", "*", "4"]
      = ["1", "2.5", "+", "4", "*"] := by decide
  simp only [hp, ExprCalc.EvaluateExpression, ExprCalc.EvaluateExpression.loop_cons,
    ExprCalc.EvaluateExpression.loop_nil, step_1,
    step_2_5, step_4, step_add, step_mul, Outcome.andThen_value]
  rw [show (1 : ℚ) + 5 / 2 = 7 / 2 by norm_num,
    M.fl_of_isDouble (x := 7 / 2) (by simpa using isDouble_half 7 (by norm_num)),
    show (7 / 2 : ℚ) * 4 = 14 by norm_num, M.fl_ofNat 14 (by norm_num)]

theorem C19_simplified_agrees_witness :
    (∀ t ∈ ["(", "1", "+", "2.5", ")", "*", "4"], isCommonToken t = true)
    ∧ Simplified.ParseExpression ["(", "1", "+", "2.5", ")", "*", "4"]
        = ParseExpression ["(", "1", "+", "2.5", ")", "*", "4"]
    ∧ EvaluateExpression exactLibm (ParseExpression ["(", "1", "+", "2.5", ")", "*", "4"])
        = Outcome.value 14
    ∧ Simplified.EvaluateExpression exactLibm (fun _ => none)
        (Simplified.ParseExpression ["(", "1", "+", "2.5", ")", "*", "4"]) = Outcome.value 14 :=
  have h := C19_simplified_agrees exactLibm (fun _ => none)
    ["(", "1", "+", "2.5", ")", "*", "4"] (by decide)
  ⟨by decide, h.1, evaluate_common_example exactLibm,
    h.2 14 (evaluate_common_example exactLibm)⟩

/-! ## C14: tokenizing the rendering of the tokens -/

theorem lexemes_tokens :
    ∀ (n : Nat) (chars : List Char), ∀ t ∈ lexemes n chars, IsLineToken t := by
  intro n
  induction n with
  | zero => intro chars t ht; simp [lexemes] at ht
  | succ n ih =>
    intro chars t ht
    cases chars with
    | nil => simp [lexemes] at ht
    | cons c cs =>
      unfold lexemes at ht
      split at ht
      · rename_i hd
        rcases List.mem_cons.mp ht with rfl | ht
        · exact Or.inl (isNumberToken_of_run hd (fun x hx => List.mem_takeWhile_imp hx))
        · exact ih _ t ht
      · split at ht
        · rename_i hl
          rcases List.mem_cons.mp ht with rfl | ht
          · right; left
            simp only [isWordToken, hl, Bool.true_and, List.all_eq_true]
            exact fun x hx => List.mem_takeWhile_imp hx
          · exact ih _ t ht
        · split at ht
          · rename_i ho
            rcases List.mem_cons.mp ht with rfl | ht
            · exact Or.inr (Or.inr ⟨c, rfl, ho⟩)
            · exact ih _ t ht
          · exact ih _ t ht

theorem implicitZero_tokens (tokens : List String) (h : ∀ t ∈ tokens, IsLineToken t) :
    ∀ prev, ∀ t ∈ implicitZero prev tokens, IsLineToken t := by
  induction tokens with
  | nil => intro prev t ht; simp [implicitZero] at ht
  | cons u rest ih =>
    intro prev t ht
    have hu := h u (List.mem_cons_self _ _)
    have hrest := ih (fun x hx => h x (List.mem_cons_of_mem _ hx)) u
    unfold implicitZero at ht
    split at ht
    · rcases List.mem_cons.mp ht with rfl | ht
      · exact Or.inl (by decide)
      · rcases List.mem_cons.mp ht with rfl | ht
        · exact hu
        · exact hrest t ht
    · rcases List.mem_cons.mp ht with rfl | ht
      · exact hu
      · exact hrest t ht

theorem renderRest_head (rest : List String) (c : Char)
    (h : (renderRest rest).head? = some c) : c = ' ' := by
  cases rest with
  | nil => cases h
  | cons u us =>
    simp only [renderRest, List.head?_cons, Option.some.injEq] at h
    exact h.symm

/-- One token at the head of a rendering is read back as it is. -/
theorem SplitLine.scan_token (t : String) (rest : List String) (result : List String)
    (prev : String) (hprev : result.getLast? = some prev) (ht : IsLineToken t)
    (hzero : ¬ (prev = "(" ∧ t = "-")) :
    SplitLine.scan (t.data ++ renderRest rest) result
      = SplitLine.scan (renderRest rest) (result ++ [t]) := by
  have hhead : ∀ (digit : Bool) (c : Char), (renderRest rest).head? = some c →
      runClass digit c = false := by
    intro digit c hc
    rw [renderRest_head rest c hc]
    cases digit <;> decide
  rcases ht with hnum | hword | ⟨x, rfl, hop⟩
  · obtain ⟨d, ds, hd, hdig, hds⟩ := numberToken_data hnum
    have e : String.mk (d :: ds) = t := by rw [← hd]
    rw [hd, SplitLine.scan_run true d ds _ result (by simpa using hdig) hds (hhead true), e]
  · obtain ⟨d, ds, hd, hlet, hds⟩ := wordToken_data hword
    have e : String.mk (d :: ds) = t := by rw [← hd]
    rw [hd, SplitLine.scan_run false d ds _ result (by simpa using hlet) hds (hhead false), e]
  · have hz : ¬ (x = '-' ∧ result.getLast? = some "(") := by
      rintro ⟨h1, h2⟩
      apply hzero
      rw [hprev] at h2
      exact ⟨Option.some.inj h2, by rw [h1]⟩
    exact SplitLine.scan_op x _ result hop hz

theorem SplitLine.scan_renderRest (rest : List String) :
    ∀ (result : List String) (prev : String), result.getLast? = some prev →
      (∀ t ∈ rest, IsLineToken t) →
      List.Chain (fun a b => ¬ (a = "(" ∧ b = "-")) prev rest →
      SplitLine.scan (renderRest rest) result = Outcome.value (result ++ rest) := by
  induction rest with
  | nil =>
    intro result prev _ _ _
    simp [renderRest, SplitLine.scan_nil]
  | cons u us ih =>
    intro result prev hprev htok hchain
    rw [List.chain_cons] at hchain
    simp only [renderRest]
    rw [SplitLine.scan_space,
      SplitLine.scan_token u us result prev hprev (htok u (List.mem_cons_self _ _)) hchain.1,
      ih (result ++ [u]) u (by simp) (fun t ht => htok t (List.mem_cons_of_mem _ ht)) hchain.2]
    simp

theorem SplitLine.scan_render (tokens : List String) (result : List String) (prev : String)
    (hprev : result.getLast? = some prev) (htok : ∀ t ∈ tokens, IsLineToken t)
    (hchain : List.Chain (fun a b => ¬ (a = "(" ∧ b = "-")) prev tokens) :
    SplitLine.scan (render tokens) result = Outcome.value (result ++ tokens) := by
  cases tokens with
  | nil => simp [render, SplitLine.scan_nil]
  | cons t rest =>
    rw [List.chain_cons] at hchain
    simp only [render]
    rw [SplitLine.scan_token t rest result prev hprev (htok t (List.mem_cons_self _ _))
        hchain.1,
      SplitLine.scan_renderRest rest (result ++ [t]) t (by simp)
        (fun u hu => htok u (List.mem_cons_of_mem _ hu)) hchain.2]
    simp

theorem chain_of_append_singleton {R : String → String → Prop} {prev last : String}
    (tokens : List String) (h : List.Chain R prev (tokens ++ [last])) :
    List.Chain R prev tokens := by
  induction tokens generalizing prev with
  | nil => exact List.Chain.nil
  | cons t rest ih =>
    rw [List.cons_append, List.chain_cons] at h
    exact List.Chain.cons h.1 (ih h.2)

/-- C14. Tokenization is idempotent under textual rendering: when `SplitLine` succeeds on a
line, rendering the tokens of the result, without the sentinels, joined by single spaces,
and applying `SplitLine` to that text gives the same token sequence, implicit zeros
included. -/
theorem C14_tokenization_idempotent (line : String) (result : List String)
    (h : SplitLine line = Outcome.value result) :
    SplitLine (String.mk (render (result.drop 1).dropLast)) = Outcome.value result := by
  have hscan := h
  unfold SplitLine at hscan
  obtain ⟨r, hr, hfinal⟩ := Outcome.andThen_eq_value hscan
  simp only [Outcome.value.injEq] at hfinal
  have hform := SplitLine.scan_lexemes line.data.length line.data ["("] r "(" (Nat.le_refl _)
    rfl hr
  have hres : result = "(" :: implicitZero "(" (lexemes line.data.length line.data) ++ [")"] := by
    rw [← hfinal, hform]
    rfl
  have hmid : (result.drop 1).dropLast = implicitZero "(" (lexemes line.data.length line.data) := by
    rw [hres]
    simp
  have htok := implicitZero_tokens _ (lexemes_tokens line.data.length line.data) "("
  have hchain := chain_of_append_singleton _ (implicitZero_chain
    (lexemes line.data.length line.data) "(")
  rw [hmid]
  unfold SplitLine
  rw [SplitLine.scan_render _ ["("] "(" rfl htok hchain, Outcome.andThen_value, hres]
  rfl

theorem C14_tokenization_idempotent_witness :
    SplitLine "(-5+3)*2.5" = Outcome.value
        ["(", "(", "0", "-", "5", "+", "3", ")", "*", "2.5", ")"]
    ∧ String.mk (render ["(", "0", "-", "5", "+", "3", ")", "*", "2.5"]) = "( 0 - 5 + 3 ) * 2.5"
    ∧ SplitLine "( 0 - 5 + 3 ) * 2.5" = Outcome.value
        ["(", "(", "0", "-", "5", "+", "3", ")", "*", "2.5", ")"] :=
  have h : SplitLine "(-5+3)*2.5" = Outcome.value
      ["(", "(", "0", "-", "5", "+", "3", ")", "*", "2.5", ")"] := by decide
  ⟨h, by decide, C14_tokenization_idempotent "(-5+3)*2.5" _ h⟩

/-! ## C17: the operand stack on the output of `ParseExpression` -/

theorem depthAfter_append (xs ys : List String) :
    ∀ depth, depthAfter (xs ++ ys) depth = (depthAfter xs depth).bind (depthAfter ys) := by
  induction xs with
  | nil => intro depth; rfl
  | cons x xs ih =>
    intro depth
    simp only [List.cons_append, depthAfter]
    split
    · split
      · exact ih _
      · rfl
    · split
      · split
        · exact ih _
        · rfl
      · exact ih _

theorem numberToken_not_operator {t : String} (h : isNumberToken t = true) :
    t ∉ binaryOperators ∧ t ∉ functionNames := by
  have key1 : ∀ x ∈ binaryOperators, isNumberToken x = false := by decide
  have key2 : ∀ x ∈ functionNames, isNumberToken x = false := by decide
  constructor
  · intro hm
    rw [key1 t hm] at h
    cases h
  · intro hm
    rw [key2 t hm] at h
    cases h

/-- One iteration of `EvaluateExpression` on an evaluable token, when the operand stack
has the values the token takes: it goes on with the expected number of values, or ends
with a domain error, or with the exception `std::out_of_range` of `std::stod`. -/
theorem EvaluateExpression.step_depth (M : Libm) (t : String) (st : List ℚ) (ht : IsEvaluable t)
    (rest : List String) (k : Nat) (hd : depthAfter (t :: rest) st.length = some k) :
    (∃ next, EvaluateExpression.step M t st = Outcome.value next
        ∧ depthAfter rest next.length = some k)
      ∨ (∃ message, message ∈ domainErrors
          ∧ EvaluateExpression.step M t st = Outcome.exit message)
      ∨ EvaluateExpression.step M t st = Outcome.uncaught "std::out_of_range" := by
  unfold depthAfter at hd
  rcases ht with hbin | hfun | rfl | rfl | ⟨hnum, hisnum⟩
  · rw [if_pos hbin] at hd
    by_cases h2 : 2 ≤ st.length
    · rw [if_pos h2] at hd
      match st, h2, hd with
      | second :: first :: below, _, hd =>
        simp only [List.length_cons, Nat.add_sub_cancel] at hd
        simp only [binaryOperators, List.mem_cons, List.mem_singleton, List.not_mem_nil,
          or_false] at hbin
        rcases hbin with rfl | rfl | rfl | rfl | rfl
        · exact Or.inl ⟨_, rfl, hd⟩
        · exact Or.inl ⟨_, rfl, hd⟩
        · exact Or.inl ⟨_, rfl, hd⟩
        · rw [EvaluateExpression.step_div]
          by_cases hz : second = 0
          · right; left
            exact ⟨"Division by zero", by decide, by rw [if_neg (by simpa using hz)]⟩
          · left
            exact ⟨M.fl (first / second) :: below, by rw [if_pos hz], hd⟩
        · exact Or.inl ⟨_, rfl, hd⟩
    · rw [if_neg h2] at hd
      cases hd
  · have hnb : t ∉ binaryOperators := by
      have key : ∀ x ∈ functionNames, x ∉ binaryOperators := by decide
      exact key t hfun
    rw [if_neg hnb, if_pos hfun] at hd
    by_cases h1 : 1 ≤ st.length
    · rw [if_pos h1] at hd
      match st, h1, hd with
      | value :: below, _, hd =>
        simp only [functionNames, List.mem_cons, List.mem_singleton, List.not_mem_nil,
          or_false] at hfun
        rcases hfun with rfl | rfl | rfl | rfl
        · exact Or.inl ⟨_, rfl, hd⟩
        · exact Or.inl ⟨_, rfl, hd⟩
        · have e : EvaluateExpression.step M "tan" (value :: below)
              = if |M.fl (value - M.fl (M.fl PI / 2))| > M.fl EPS then
                  Outcome.value (M.tan value :: below)
                else Outcome.exit "Invalid tangent argument value" := by
            unfold EvaluateExpression.step
            rw [if_neg (by decide), if_pos (by decide)]
            simp only
            rw [if_neg (by decide), if_neg (by decide), if_pos trivial]
            rfl
          rw [e]
          by_cases hz : |M.fl (value - M.fl (M.fl PI / 2))| > M.fl EPS
          · left
            exact ⟨M.tan value :: below, by rw [if_pos hz], hd⟩
          · right; left
            exact ⟨"Invalid tangent argument value", by decide, by rw [if_neg hz]⟩
        · rw [EvaluateExpression.step_log]
          by_cases hz : value > 0
          · left
            exact ⟨M.log value :: below, by rw [if_pos hz], hd⟩
          · right; left
            exact ⟨"Invalid logarithm argument value", by decide, by rw [if_neg hz]⟩
    · rw [if_neg h1] at hd
      cases hd
  · rw [if_neg (by decide), if_neg (by decide)] at hd
    exact Or.inl ⟨M.fl PI :: st, rfl, hd⟩
  · rw [if_neg (by decide), if_neg (by decide)] at hd
    exact Or.inl ⟨M.fl EXP :: st, rfl, hd⟩
  · have hno := numberToken_not_operator hnum
    rw [if_neg hno.1, if_neg hno.2] at hd
    rcases EvaluateExpression.step_numberToken M hnum hisnum with ⟨v, _, hstep⟩ | ⟨_, hstep⟩
    · exact Or.inl ⟨v :: st, hstep st, hd⟩
    · exact Or.inr (Or.inr (hstep st))

/-- The loop of `EvaluateExpression` on evaluable tokens whose depth never goes below zero:
it ends with the expected number of values, or with a domain error, or with the exception
`std::out_of_range` of `std::stod`. -/
theorem EvaluateExpression.loop_depth (M : Libm) (rpn : List String) :
    ∀ (st : List ℚ) (k : Nat), (∀ t ∈ rpn, IsEvaluable t) →
      depthAfter rpn st.length = some k →
      (∃ final, EvaluateExpression.loop M rpn st = Outcome.value final ∧ final.length = k)
        ∨ (∃ message, message ∈ domainErrors
            ∧ EvaluateExpression.loop M rpn st = Outcome.exit message)
        ∨ EvaluateExpression.loop M rpn st = Outcome.uncaught "std::out_of_range" := by
  induction rpn with
  | nil =>
    intro st k _ hd
    simp only [depthAfter, Option.some.injEq] at hd
    exact Or.inl ⟨st, rfl, hd⟩
  | cons t rest ih =>
    intro st k hev hd
    rcases EvaluateExpression.step_depth M t st (hev t (List.mem_cons_self _ _)) rest k hd with
      ⟨next, hstep, hnext⟩ | ⟨message, hm, hstep⟩ | hstep
    · simp only [EvaluateExpression.loop, hstep, Outcome.andThen_value]
      exact ih next k (fun u hu => hev u (List.mem_cons_of_mem _ hu)) hnext
    · right; left
      exact ⟨message, hm, by simp only [EvaluateExpression.loop, hstep, Outcome.andThen]⟩
    · right; right
      simp only [EvaluateExpression.loop, hstep, Outcome.andThen]

theorem binaryCount_cons (t : String) (ops : List String) :
    binaryCount (t :: ops) = binaryCount ops + (if t ∈ binaryOperators then 1 else 0) := by
  unfold binaryCount
  rw [List.countP_cons]
  simp

theorem depthAfter_push (main_stack : List String) (t : String) (depth : Nat)
    (h : depthAfter main_stack.reverse 0 = some depth) :
    depthAfter (t :: main_stack).reverse 0 = depthAfter [t] depth := by
  rw [List.reverse_cons, depthAfter_append, h]
  rfl

theorem ParseState.push_operand {ops main_stack : List String} {t : String}
    (h : ParseState 0 (ops, main_stack)) (ht : IsEvaluable t) (hb : t ∉ binaryOperators)
    (hf : t ∉ functionNames) : ParseState 1 (ops, t :: main_stack) := by
  obtain ⟨hd, hev, hops⟩ := h
  refine ⟨?_, ?_, hops⟩
  · simp only at hd ⊢
    rw [depthAfter_push main_stack t _ hd]
    simp only [depthAfter, if_neg hb, if_neg hf, Option.some.injEq]
    omega
  · intro u hu
    rcases List.mem_cons.mp hu with rfl | hu
    · exact ht
    · exact hev u hu

theorem ParseState.pop {tmp : String} {ops main_stack : List String}
    (h : ParseState 1 (tmp :: ops, main_stack)) (hne : tmp ≠ "(") :
    ParseState 1 (ops, tmp :: main_stack) := by
  obtain ⟨hd, hev, hops⟩ := h
  have htmp := hops tmp (List.mem_cons_self _ _)
  simp only at hd
  rw [binaryCount_cons] at hd
  refine ⟨?_, ?_, fun u hu => hops u (List.mem_cons_of_mem _ hu)⟩
  · simp only
    rw [depthAfter_push main_stack tmp _ hd]
    rcases htmp with hb | hf | hp
    · simp only [depthAfter, if_pos hb, Option.some.injEq]
      rw [if_pos (by omega)]
      simp only [Option.some.injEq]
      omega
    · have hnb : tmp ∉ binaryOperators := by
        have key : ∀ x ∈ functionNames, x ∉ binaryOperators := by decide
        exact key tmp hf
      simp only [depthAfter, if_neg hnb, if_pos hf]
      rw [if_pos (by omega)]
      simp
    · exact absurd hp hne
  · intro u hu
    rcases List.mem_cons.mp hu with rfl | hu
    · rcases htmp with hb | hf | hp
      · exact Or.inl hb
      · exact Or.inr (Or.inl hf)
      · exact absurd hp hne
    · exact hev u hu

theorem fromParen_cons {t : String} (ops : List String) (hne : t ≠ "(") :
    fromParen (t :: ops) = fromParen ops := by
  unfold fromParen
  rw [List.dropWhile_cons_of_pos (by simpa using hne)]

theorem ParseState.popOps {curr : String} (hc : 0 ≤ pr_ops curr) (ops : List String) :
    ∀ main_stack, ParseState 1 (ops, main_stack) →
      ParseState 1 (ParseExpression.popOps curr ops main_stack)
        ∧ fromParen (ParseExpression.popOps curr ops main_stack).1 = fromParen ops := by
  induction ops with
  | nil => intro main_stack h; exact ⟨h, rfl⟩
  | cons tmp rest ih =>
    intro main_stack h
    unfold ParseExpression.popOps
    split
    · rename_i hle
      have hne := (not_paren_of_pr_ops (le_trans hc hle)).1
      have := ih (tmp :: main_stack) (h.pop hne)
      exact ⟨this.1, by rw [this.2, fromParen_cons rest hne]⟩
    · exact ⟨h, rfl⟩

theorem ParseState.flush (popped : List String) :
    ∀ (below main_stack : List String), (∀ t ∈ popped, t ≠ "(") →
      ParseState 1 (popped ++ below, main_stack) →
      ParseState 1 (below, popped.reverse ++ main_stack) := by
  induction popped with
  | nil => intro below main_stack _ h; exact h
  | cons p ps ih =>
    intro below main_stack hne h
    have h1 := ParseState.pop h (hne p (List.mem_cons_self _ _))
    have := ih below (p :: main_stack) (fun t ht => hne t (List.mem_cons_of_mem _ ht)) h1
    simpa using this

theorem ParseState.push_waiting {extra : Nat} {ops main_stack : List String} {t : String}
    (h : ParseState extra (ops, main_stack)) (ht : t ∈ functionNames ∨ t = "(") :
    ParseState extra (t :: ops, main_stack) := by
  obtain ⟨hd, hev, hops⟩ := h
  have hnb : t ∉ binaryOperators := by
    have key : ∀ x ∈ functionNames, x ∉ binaryOperators := by decide
    rcases ht with ht | rfl
    · exact key t ht
    · decide
  refine ⟨?_, hev, ?_⟩
  · simp only at hd ⊢
    rw [binaryCount_cons, if_neg hnb]
    exact hd
  · intro u hu
    rcases List.mem_cons.mp hu with rfl | hu
    · exact Or.inr ht
    · exact hops u hu

theorem ParseState.drop_paren {extra : Nat} {ops main_stack : List String}
    (h : ParseState extra ("(" :: ops, main_stack)) : ParseState extra (ops, main_stack) := by
  obtain ⟨hd, hev, hops⟩ := h
  refine ⟨?_, hev, fun u hu => hops u (List.mem_cons_of_mem _ hu)⟩
  simp only at hd ⊢
  rw [binaryCount_cons, if_neg (by decide)] at hd
  exact hd

theorem ParseState.push_operator {ops main_stack : List String} {t : String}
    (h : ParseState 1 (ops, main_stack)) (ht : t ∈ binaryOperators) :
    ParseState 0 (t :: ops, main_stack) := by
  obtain ⟨hd, hev, hops⟩ := h
  refine ⟨?_, hev, ?_⟩
  · simp only at hd ⊢
    rw [binaryCount_cons, if_pos ht, hd]
    simp only [Option.some.injEq]
    omega
  · intro u hu
    rcases List.mem_cons.mp hu with rfl | hu
    · exact Or.inl ht
    · exact hops u hu

theorem Operator.symbol_facts (op : Operator) :
    op.symbol ∈ binaryOperators ∧ found OPS op.symbol = true ∧ op.symbol ≠ "("
      ∧ op.symbol ≠ ")" ∧ 0 ≤ pr_ops op.symbol ∧ op.symbol ∉ functionNames := by
  cases op <;> decide

theorem Func.name_spec (f : Func) :
    f.name ∈ functionNames ∧ (found OPS f.name || found FUNCTIONS f.name) = true
      ∧ f.name ≠ "(" ∧ f.name ≠ ")" ∧ pr_ops f.name = 3 := by
  cases f <;> decide

theorem pr_ops_waiting {s : String} (h : s ∈ binaryOperators ∨ s ∈ functionNames ∨ s = "(")
    (hf : s ∉ functionNames) : pr_ops s < 3 := by
  have key : ∀ x ∈ binaryOperators, pr_ops x < 3 := by decide
  rcases h with h | h | rfl
  · exact key s h
  · exact absurd h hf
  · decide

/-- The iteration of `ParseExpression` for a binary operator read after an operand. -/
theorem ParseState.step_binary_operator (op : Operator) (st : List String × List String)
    (h : ParseState 1 st) :
    ParseState 0 (ParseExpression.step st op.symbol)
      ∧ (∀ s, (ParseExpression.step st op.symbol).1.head? = some s → s ∉ functionNames)
      ∧ fromParen (ParseExpression.step st op.symbol).1 = fromParen st.1 := by
  obtain ⟨ops, main_stack⟩ := st
  obtain ⟨hbin, hfound, hno, hnc, hrank, hnf⟩ := Operator.symbol_facts op
  have hhead : ∀ (l : List String) (s : String), (op.symbol :: l).head? = some s →
      s ∉ functionNames := by
    intro l s hs
    simp only [List.head?_cons, Option.some.injEq] at hs
    rw [← hs]
    exact hnf
  unfold ParseExpression.step
  simp only [hfound, Bool.true_or, if_true, hno, hnc, if_false]
  cases ops with
  | nil => exact ⟨h.push_operator hbin, hhead _, fromParen_cons _ hno⟩
  | cons prev rest =>
    simp only
    split
    · exact ⟨h.push_operator hbin, hhead _, fromParen_cons _ hno⟩
    · have := ParseState.popOps hrank (prev :: rest) main_stack h
      exact ⟨this.1.push_operator hbin, hhead _, by rw [fromParen_cons _ hno, this.2]⟩

/-- The iteration of `ParseExpression` for a function read where an operand is expected:
the function is pushed. -/
theorem ParseState.step_function (f : Func) (st : List String × List String)
    (h : ParseState 0 st) (htop : ∀ s, st.1.head? = some s → s ∉ functionNames) :
    ParseExpression.step st f.name = (f.name :: st.1, st.2) := by
  obtain ⟨ops, main_stack⟩ := st
  obtain ⟨_, hfound, hno, hnc, hrank⟩ := Func.name_spec f
  unfold ParseExpression.step
  simp only [hfound, if_true, hno, hnc, if_false]
  cases ops with
  | nil => rfl
  | cons prev rest =>
    have hlt := pr_ops_waiting (h.2.2 prev (List.mem_cons_self _ _)) (htop prev rfl)
    simp only
    rw [if_pos (by rw [hrank]; exact hlt)]

/-- The iteration of `ParseExpression` for the `)` of a parenthesized expression. -/
theorem ParseState.step_closing (ops below main_stack : List String)
    (h : ParseState 1 (ops, main_stack)) (hfrom : fromParen ops = "(" :: below) :
    ParseState 1 (ParseExpression.step (ops, main_stack) ")")
      ∧ (ParseExpression.step (ops, main_stack) ")").1 = below := by
  have hsplit : ops = ops.takeWhile (fun t => decide (t ≠ "(")) ++ "(" :: below := by
    rw [← hfrom]
    exact (List.takeWhile_append_dropWhile _ ops).symm
  have hne : ∀ t ∈ ops.takeWhile (fun t => decide (t ≠ "(")), t ≠ "(" := by
    intro t ht
    simpa using List.mem_takeWhile_imp ht
  generalize ops.takeWhile (fun t => decide (t ≠ "(")) = popped at hsplit hne
  subst hsplit
  rw [ParseExpression.step_close popped below main_stack hne]
  exact ⟨(ParseState.flush popped _ main_stack hne h).drop_paren, rfl⟩

theorem IsEvaluable.literal (lit : NumLit) : IsEvaluable lit.text :=
  Or.inr (Or.inr (Or.inr (Or.inr ⟨NumLit.isNumberToken_text lit, NumLit.IsNumber_text lit⟩)))

/-- The state of `ParseExpression` after the tokens of a well-formed expression read where
an operand is expected. -/
theorem ParseState.foldl_term (t : Term) :
    ∀ st : List String × List String, ParseState 0 st →
      (∀ s, st.1.head? = some s → s ∉ functionNames) →
      ParseState 1 (t.tokens.foldl ParseExpression.step st)
        ∧ fromParen (t.tokens.foldl ParseExpression.step st).1 = fromParen st.1 := by
  induction t with
  | number lit =>
    intro st h _
    have hno := numberToken_not_operator (NumLit.isNumberToken_text lit)
    simp only [Term.tokens, List.foldl_cons, List.foldl_nil]
    rw [ParseExpression.step_operand st (operand_of_numberToken (NumLit.isNumberToken_text lit))]
    exact ⟨ParseState.push_operand h (IsEvaluable.literal lit) hno.1 hno.2, rfl⟩
  | constPi =>
    intro st h _
    simp only [Term.tokens, List.foldl_cons, List.foldl_nil]
    rw [ParseExpression.step_operand st (by decide)]
    exact ⟨ParseState.push_operand h (Or.inr (Or.inr (Or.inl rfl))) (by decide) (by decide), rfl⟩
  | constE =>
    intro st h _
    simp only [Term.tokens, List.foldl_cons, List.foldl_nil]
    rw [ParseExpression.step_operand st (by decide)]
    exact ⟨ParseState.push_operand h (Or.inr (Or.inr (Or.inr (Or.inl rfl)))) (by decide)
      (by decide), rfl⟩
  | paren inner ih =>
    intro st h _
    obtain ⟨ops, main_stack⟩ := st
    have h1 : ParseState 0 ("(" :: ops, main_stack) := h.push_waiting (Or.inr rfl)
    obtain ⟨hin, hfrom⟩ := ih ("(" :: ops, main_stack) h1 (by
      intro s hs
      simp only [List.head?_cons, Option.some.injEq] at hs
      rw [← hs]
      decide)
    have hfrom2 : fromParen (inner.tokens.foldl ParseExpression.step ("(" :: ops, main_stack)).1
        = "(" :: ops := by
      rw [hfrom]
      rfl
    simp only [Term.tokens, List.foldl_cons, List.foldl_append, List.foldl_nil,
      ParseExpression.step_open]
    have hclose := ParseState.step_closing _ ops _ hin hfrom2
    exact ⟨hclose.1, by rw [hclose.2]⟩
  | call f arg ih =>
    intro st h htop
    obtain ⟨ops, main_stack⟩ := st
    have hf := Func.name_spec f
    have h0 : ParseState 0 (f.name :: ops, main_stack) := h.push_waiting (Or.inl hf.1)
    have h1 : ParseState 0 ("(" :: f.name :: ops, main_stack) := h0.push_waiting (Or.inr rfl)
    obtain ⟨hin, hfrom⟩ := ih ("(" :: f.name :: ops, main_stack) h1 (by
      intro s hs
      simp only [List.head?_cons, Option.some.injEq] at hs
      rw [← hs]
      decide)
    have hfrom2 : fromParen
        (arg.tokens.foldl ParseExpression.step ("(" :: f.name :: ops, main_stack)).1
        = "(" :: f.name :: ops := by
      rw [hfrom]
      rfl
    simp only [Term.tokens, List.foldl_cons, List.foldl_append, List.foldl_nil,
      ParseState.step_function f (ops, main_stack) h htop, ParseExpression.step_open]
    have hclose := ParseState.step_closing _ (f.name :: ops) _ hin hfrom2
    exact ⟨hclose.1, by rw [hclose.2, fromParen_cons ops hf.2.2.1]⟩
  | binary left op right ihl ihr =>
    intro st h htop
    obtain ⟨hl, hfl⟩ := ihl st h htop
    obtain ⟨ho, hot, hfo⟩ := ParseState.step_binary_operator op _ hl
    obtain ⟨hr, hfr⟩ := ihr _ ho hot
    simp only [Term.tokens, List.foldl_append, List.foldl_cons]
    exact ⟨hr, by rw [hfr, hfo, hfl]⟩

/-- C17 (as amended). Stack-depth invariant of the output of `ParseExpression`: for every
well-formed token sequence (numbers and the constants as operands, binary operators between
operands, functions followed by a parenthesized expression, balanced parentheses) between
the sentinels, the loop of `EvaluateExpression` on the output of `ParseExpression` never
takes a value from an empty operand stack: it ends with exactly one value on the stack,
which `EvaluateExpression` returns, or with a domain error (division by zero, tangent,
logarithm), or with the exception `std::out_of_range` that `std::stod` throws on a number
out of the range of `double`. -/
theorem C17_stack_depth_invariant (M : Libm) (t : Term) :
    (∃ v, EvaluateExpression.loop M (ParseExpression ("(" :: t.tokens ++ [")"])) []
          = Outcome.value [v]
        ∧ EvaluateExpression M (ParseExpression ("(" :: t.tokens ++ [")"])) = Outcome.value v)
      ∨ (∃ message, message ∈ domainErrors
          ∧ EvaluateExpression.loop M (ParseExpression ("(" :: t.tokens ++ [")"])) []
            = Outcome.exit message
          ∧ EvaluateExpression M (ParseExpression ("(" :: t.tokens ++ [")"]))
            = Outcome.exit message)
      ∨ (EvaluateExpression.loop M (ParseExpression ("(" :: t.tokens ++ [")"])) []
            = Outcome.uncaught "std::out_of_range"
          ∧ EvaluateExpression M (ParseExpression ("(" :: t.tokens ++ [")"]))
            = Outcome.uncaught "std::out_of_range") := by
  have hstart : ParseState 0 (([] : List String), ([] : List String)) := by
    refine ⟨rfl, ?_, ?_⟩
    · intro u hu; cases hu
    · intro u hu; cases hu
  obtain ⟨hstate, hfrom⟩ := ParseState.foldl_term (Term.paren t) ([], []) hstart
    (by intro s hs; cases hs)
  have htokens : (Term.paren t).tokens = "(" :: t.tokens ++ [")"] := rfl
  rw [htokens] at hstate hfrom
  generalize hst : ("(" :: t.tokens ++ [")"]).foldl ParseExpression.step ([], []) = st
    at hstate hfrom
  obtain ⟨ops, main_stack⟩ := st
  have hne : ∀ u ∈ ops, u ≠ "(" := by
    intro u hu
    have : fromParen ops = [] := hfrom
    unfold fromParen at this
    have := List.dropWhile_eq_nil_iff.mp this u hu
    simpa using this
  have hflush := ParseState.flush ops [] main_stack hne (by simpa using hstate)
  have hout : ParseExpression ("(" :: t.tokens ++ [")"]) = main_stack.reverse ++ ops := by
    rw [ParseExpression_eq, hst]
  have hdepth : depthAfter (main_stack.reverse ++ ops) ([] : List ℚ).length = some 1 := by
    have := hflush.1
    simpa [binaryCount] using this
  have hev : ∀ u ∈ main_stack.reverse ++ ops, IsEvaluable u := by
    intro u hu
    apply hflush.2.1 u
    simp only [List.mem_append, List.mem_reverse] at hu ⊢
    exact hu.symm
  rw [hout]
  rcases EvaluateExpression.loop_depth M _ [] 1 hev hdepth with
    ⟨final, hloop, hlen⟩ | ⟨message, hm, hloop⟩ | hloop
  · left
    match final, hlen, hloop with
    | [v], _, hloop =>
      exact ⟨v, hloop, by simp only [EvaluateExpression, hloop, Outcome.andThen_value]⟩
  · right; left
    exact ⟨message, hm, hloop, by simp only [EvaluateExpression, hloop, Outcome.andThen]⟩
  · right; right
    exact ⟨hloop, by simp only [EvaluateExpression, hloop, Outcome.andThen]⟩

/-! ### The counterexample: a number out of the range of `double` -/

set_option maxRecDepth 100000 in
theorem decimal_hugeNumber : decimal hugeNumber = some (10 ^ 200 * 10 ^ 200) := by
  have h1 : hugeNumber.data.takeWhile (fun c => c ≠ '.') = hugeNumber.data := by decide
  have h2 : (hugeNumber.data.dropWhile (fun c => c ≠ '.')).drop 1 = [] := by decide
  have h3 : decimalValue hugeNumber.data = 10 ^ 200 * 10 ^ 200 := by decide
  have h4 : hugeNumber.data.length = 401 := by decide
  unfold decimal
  simp only [h1, h2, h3, h4, List.length_nil, List.append_nil, pow_zero, div_one]
  norm_num

/-- The power `2 ^ 1024`, above every double, is below `10 ^ 400`. -/
theorem pow_two_le_huge : (2 : ℚ) ^ 1024 ≤ 10 ^ 200 * 10 ^ 200 := by
  have h1 : (2 : ℚ) ^ 1024 = (2 ^ 8) ^ 128 := by rw [← pow_mul]
  have h2 : (10 : ℚ) ^ 200 * 10 ^ 200 = (10 ^ 3) ^ 128 * 10 ^ 16 := by
    rw [← pow_mul, ← pow_add, ← pow_add]
  rw [h1, h2]
  have h3 : ((2 : ℚ) ^ 8) ^ 128 ≤ (10 ^ 3) ^ 128 :=
    pow_le_pow_left₀ (by norm_num) (by norm_num) 128
  have h4 : (0 : ℚ) < (10 ^ 3) ^ 128 := by positivity
  have h5 : (1 : ℚ) ≤ 10 ^ 16 := by norm_num
  nlinarith

theorem exactLibm_convert_huge :
    exactLibm.convert (10 ^ 200 * 10 ^ 200) = Outcome.uncaught "std::out_of_range" := by
  have hpos : (0 : ℚ) < 10 ^ 200 * 10 ^ 200 := by positivity
  have habs : |(10 ^ 200 * 10 ^ 200 : ℚ)| = 10 ^ 200 * 10 ^ 200 := abs_of_pos hpos
  have h1 : convertsExactly (10 ^ 200 * 10 ^ 200) = false := by
    have hd : isDouble (10 ^ 200 * 10 ^ 200) = false := by
      rw [Bool.eq_false_iff]
      intro h
      have := isDouble_lt h
      rw [habs] at this
      exact absurd pow_two_le_huge (not_le.mpr this)
    unfold convertsExactly
    rw [hd, decide_eq_false hpos.ne.symm]
    rfl
  have h2 : (2 : ℚ) ^ 1024 - 2 ^ 970 ≤ |(10 ^ 200 * 10 ^ 200 : ℚ)|
      ∨ (|(10 ^ 200 * 10 ^ 200 : ℚ)| < 2 ^ (-1022 : ℤ)
        ∧ isDouble (10 ^ 200 * 10 ^ 200) = false) := by
    left
    rw [habs]
    have : (0 : ℚ) ≤ 2 ^ 970 := by positivity
    linarith [pow_two_le_huge]
  unfold Libm.convert
  rw [h1]
  simp only [Bool.false_eq_true, if_false, exactLibm, if_pos h2]

set_option maxRecDepth 100000 in
theorem step_hugeNumber (st : List ℚ) :
    EvaluateExpression.step exactLibm hugeNumber st = Outcome.uncaught "std::out_of_range" := by
  rw [EvaluateExpression.step_stod exactLibm st (by decide) (by decide) (by decide)
    (by decide), stod_of_decimal exactLibm decimal_hugeNumber, exactLibm_convert_huge]
  rfl

set_option maxRecDepth 100000 in
/-- C17, counterexample: on the well-formed token sequence made of one number token, the
digit 1 followed by 400 digits 0, `std::stod` throws `std::out_of_range`: the evaluation
ends with no value on the operand stack and with no domain error. -/
theorem C17_counterexample :
    (Term.number ⟨1, List.replicate 400 0, none⟩).tokens = [hugeNumber]
      ∧ EvaluateExpression.loop exactLibm (ParseExpression ("(" :: [hugeNumber] ++ [")"])) []
          = Outcome.uncaught "std::out_of_range"
      ∧ EvaluateExpression exactLibm (ParseExpression ("(" :: [hugeNumber] ++ [")"]))
          = Outcome.uncaught "std::out_of_range" := by
  have hp : ParseExpression ("(" :: [hugeNumber] ++ [")"]) = [hugeNumber] := by decide
  have hloop : EvaluateExpression.loop exactLibm [hugeNumber] []
      = Outcome.uncaught "std::out_of_range" := by
    rw [EvaluateExpression.loop_cons, step_hugeNumber]
    rfl
  refine ⟨by decide, ?_, ?_⟩
  · rw [hp, hloop]
  · unfold EvaluateExpression
    rw [hp, hloop]
    rfl

end ExprCalc
